import Mathlib

/-!
A verification development for directory_sync.py, a command-line tool that
performs unidirectional synchronization of two same-named directory trees.

The script is embedded shallowly:

* A directory tree is an inductive value: regular files carry st_size and
  st_mtime_ns; directories carry a finite association list of named children;
  two further constructors model statable non-regular entries (FIFOs, sockets,
  devices) and dangling symbolic links, whose Path.stat() raises.
* The source root and the destination root are modelled as two separate tree
  values, and every path is a list of name components relative to its root.
  This reflects the single-threaded program under the assumption the two
  trees do not overlap; the main loop derives the destination path of a
  worklist entry from the same relative path, so a worklist entry is just
  that relative path.
* Filesystem mutation is explicit state passing: dir_comp receives the
  destination tree and returns the updated one, together with the list of
  performed operations (the log calls) and either the function result of the
  Python dir_comp or the uncaught exception that escaped it.
* The only nondeterminism of the environment, transient permission failures,
  is an oracle: a set of relative paths at which listing / stat / copy /
  delete raises PermissionError.
* Python iterates the three name sets (set objects) in an unspecified order;
  the embedding iterates them in directory listing order, and directory
  listings are kept canonically sorted by name.  Directory and special-file
  stat fields (st_size, st_mtime_ns of a non-regular entry) are OS-dependent
  and not derivable from the source; they are modelled as 0, and every
  theorem that depends on stat values restricts itself to regular files.
-/

namespace DSync

/-- One component of a filesystem path. -/
abbrev Name := String

/-- A path relative to a synchronization root, as a list of components. -/
abbrev Path := List Name

/-- A node of a directory tree.  file carries st_size and st_mtime_ns
(Python ints, hence Nat and Int).  dir carries the named children.
special is a statable entry that is neither a regular file nor a directory
(FIFO, socket, device): Path.stat() succeeds, is_file() and is_dir() are
false.  brokenLink is a dangling symbolic link: Path.stat() follows the
link and raises FileNotFoundError, is_file() and is_dir() are false. -/
inductive Entry where
  | file (size : Nat) (mtime : Int)
  | dir (children : List (Name × Entry))
  | special
  | brokenLink

/-- Children of a directory, an association list from names to entries. -/
abbrev CList := List (Name × Entry)

/-- Lexicographic strict order on character lists by code point, used for
the canonical listing order of directories (the Python sets have no
specified order; the embedding fixes one). -/
def ltChars : List Char → List Char → Bool
  | [], [] => false
  | [], _ :: _ => true
  | _ :: _, [] => false
  | a :: as_, b :: bs =>
    if a.toNat < b.toNat then true
    else if b.toNat < a.toNat then false
    else ltChars as_ bs

/-- Strict total order on names. -/
def nameLt (a b : Name) : Bool := ltChars a.toList b.toList

/-- The names of a child list, in listing order. -/
def keysC (ch : CList) : List Name := ch.map Prod.fst

/-- Look a child up by name (first occurrence). -/
def lookupN : CList → Name → Option Entry
  | [], _ => none
  | (m, e) :: rest, n => if n = m then some e else lookupN rest n

/-- Remove the child of the given name (first occurrence), as unlink or
rmtree does at one level. -/
def removeN : CList → Name → CList
  | [], _ => []
  | (m, e) :: rest, n => if n = m then rest else (m, e) :: removeN rest n

/-- Write a child: replace the entry of the given name in place, or insert
a new entry at its sorted position.  This is the effect of a copy landing
inside a directory whose listing is kept canonically sorted. -/
def writeN : CList → Name → Entry → CList
  | [], n, e => [(n, e)]
  | (m, d) :: rest, n, e =>
    if n = m then (n, e) :: rest
    else if nameLt n m then (n, e) :: (m, d) :: rest
    else (m, d) :: writeN rest n e

/-- Follow a relative path down a tree. -/
def lookupE : Entry → Path → Option Entry
  | e, [] => some e
  | .dir ch, n :: rest =>
    match lookupN ch n with
    | some c => lookupE c rest
    | none => none
  | _, _ :: _ => none

/-- Replace the subtree at a relative path.  Used only at paths whose every
proper ancestor exists and is a directory; elsewhere it is the identity. -/
def setSub : Entry → Path → Entry → Entry
  | _, [], v => v
  | .dir ch, n :: rest, v =>
    match lookupN ch n with
    | some c => .dir (writeN ch n (setSub c rest v))
    | none => .dir ch
  | e, _ :: _, _ => e

/-- Is the first path an ancestor of (or equal to) the second? -/
def anc : Path → Path → Bool
  | [], _ => true
  | _ :: _, [] => false
  | a :: as_, b :: bs => a == b && anc as_ bs

/-- Two paths are disjoint when neither is an ancestor of the other. -/
def disj (p q : Path) : Bool := !anc p q && !anc q p

mutual
/-- Number of nodes of a tree, the termination measure of the traversal. -/
def sizeE : Entry → Nat
  | .dir ch => 1 + sizeL ch
  | _ => 1
/-- Total node count of a child list. -/
def sizeL : CList → Nat
  | [] => 0
  | (_, e) :: rest => sizeE e + sizeL rest
end

mutual
/-- A tree is proper when it contains only regular files and directories:
no FIFOs, sockets, devices or dangling links anywhere. -/
def properE : Entry → Bool
  | .file _ _ => true
  | .dir ch => properL ch
  | .special => false
  | .brokenLink => false
/-- Properness of every entry of a child list. -/
def properL : CList → Bool
  | [] => true
  | (_, e) :: rest => properE e && properL rest
end

/-- Are the names of a child list strictly sorted?  Real directories have
distinct child names; the embedding keeps listings sorted by name. -/
def sortedKeysB : CList → Bool
  | [] => true
  | [_] => true
  | (n, _) :: (m, e) :: rest => nameLt n m && sortedKeysB ((m, e) :: rest)

mutual
/-- Well-formedness: every directory listing is strictly sorted by name. -/
def wfE : Entry → Bool
  | .dir ch => sortedKeysB ch && wfL ch
  | _ => true
/-- Well-formedness of every entry of a child list. -/
def wfL : CList → Bool
  | [] => true
  | (_, e) :: rest => wfE e && wfL rest
end

mutual
/-- Kind compatibility at shared paths: wherever a name exists on both
sides, the two entries are either both regular files or both directories
(recursively).  Entries existing on one side only are unconstrained. -/
def compat : Entry → Entry → Bool
  | .file _ _, .file _ _ => true
  | .dir cs, .dir cd => compatL cs cd
  | _, _ => false
/-- Compatibility of a source child list against a destination one. -/
def compatL : CList → CList → Bool
  | [], _ => true
  | (n, e) :: rest, cd =>
    (match lookupN cd n with
     | some e2 => compat e e2
     | none => true) && compatL rest cd
end

/-- Does Path.stat() succeed on this entry?  stat follows symlinks, so a
dangling link raises FileNotFoundError; everything else is statable. -/
def statOk : Entry → Bool
  | .brokenLink => false
  | _ => true

/-- st_size as the comparison at line 194 sees it.  For a regular file it
is the file size; directories and special files have OS-dependent sizes
not derivable from the source, modelled as 0. -/
def statSz : Entry → Nat
  | .file s _ => s
  | _ => 0

/-- st_mtime_ns as the comparison at line 195 sees it; 0 for non-files,
like statSz. -/
def statMt : Entry → Int
  | .file _ t => t
  | _ => 0

/-- Result of Path.is_dir(), which follows symlinks and never raises. -/
def isDirB : Entry → Bool
  | .dir _ => true
  | _ => false

/-- Result of Path.is_file(): true exactly on regular files. -/
def isFileB : Entry → Bool
  | .file _ _ => true
  | _ => false

/-- The uncaught exceptions that can escape dir_comp.  The except clauses
at lines 160, 176 and 199 catch PermissionError only, so every other
OSError propagates, as does a PermissionError raised outside those three
try blocks (listing at lines 143-144, stat at lines 187-188). -/
inductive Err where
  | permission
  | fileNotFound
  | notADirectory
  | specialFile
  | copytreeFailed
  | isADirectory
  | valueError
  deriving DecidableEq, Repr

/-- One logged filesystem operation of a run.  deleted and copied are the
log.info calls at lines 164, 180 and 203; delFailed and copyFailed are the
log.warning calls at lines 161, 177 and 200.  deleted records whether the
deletion was a tree delete (shutil.rmtree) or a file delete (unlink). -/
inductive Op where
  | deleted (p : Path) (tree : Bool)
  | delFailed (p : Path)
  | copied (p : Path)
  | copyFailed (p : Path)
  deriving DecidableEq, Repr

/-- Did this operation fail (and therefore set error_found)? -/
def opFailed : Op → Bool
  | .delFailed _ => true
  | .copyFailed _ => true
  | _ => false

/-- The environment's transient-failure oracle: the relative paths at which
one filesystem operation raises PermissionError.  failList covers the
iterdir calls of a level (lines 143-144, keyed by the level path), failStat
the stat calls (lines 187-188), failCopy shutil.copy2/copytree, failDel
unlink/rmtree. -/
structure Oracles where
  failList : Path → Bool
  failStat : Path → Bool
  failCopy : Path → Bool
  failDel : Path → Bool

/-- The oracle of a run during which no operation fails. -/
def noFail : Oracles := ⟨fun _ => false, fun _ => false, fun _ => false, fun _ => false⟩

/-- Lines 151-164: delete every destination-only item, catching
PermissionError per item.  items is the filtered listing of dest-only
pairs, ch the destination child list being mutated, p the level path. -/
def runDels (orc : Oracles) (p : Path) : List (Name × Entry) → CList → CList × List Op × Bool
  | [], ch => (ch, [], false)
  | (n, e) :: rest, ch =>
    if orc.failDel (p ++ [n]) then
      let r := runDels orc p rest ch
      (r.1, .delFailed (p ++ [n]) :: r.2.1, true)
    else
      let r := runDels orc p rest (removeN ch n)
      (r.1, .deleted (p ++ [n]) (isDirB e) :: r.2.1, r.2.2)

/-- Lines 167-180: copy every source-only item, catching PermissionError
per item.  Directories go through shutil.copytree: a caught PermissionError
at its root is the oracle; a special file or dangling link anywhere inside
makes copytree collect the failure and raise shutil.Error at the end, which
is not caught (the partially-copied state is simplified to no copy).
Non-directories go through shutil.copy2, which raises uncaught
SpecialFileError on a special file and FileNotFoundError on a dangling
link.  The fourth component is the uncaught exception, which stops the
level. -/
def runCopies (orc : Oracles) (p : Path) :
    List (Name × Entry) → CList → CList × List Op × Bool × Option Err
  | [], ch => (ch, [], false, none)
  | (n, e) :: rest, ch =>
    match e with
    | .dir _ =>
      if orc.failCopy (p ++ [n]) then
        let r := runCopies orc p rest ch
        (r.1, .copyFailed (p ++ [n]) :: r.2.1, true, r.2.2.2)
      else if properE e then
        let r := runCopies orc p rest (writeN ch n e)
        (r.1, .copied (p ++ [n]) :: r.2.1, r.2.2.1, r.2.2.2)
      else (ch, [], false, some .copytreeFailed)
    | .file s t =>
      if orc.failCopy (p ++ [n]) then
        let r := runCopies orc p rest ch
        (r.1, .copyFailed (p ++ [n]) :: r.2.1, true, r.2.2.2)
      else
        let r := runCopies orc p rest (writeN ch n (.file s t))
        (r.1, .copied (p ++ [n]) :: r.2.1, r.2.2.1, r.2.2.2)
    | .special => (ch, [], false, some .specialFile)
    | .brokenLink => (ch, [], false, some .fileNotFound)

/-- Lines 197-203 for one shared regular file whose change criterion fired:
shutil.copy2(src_path, dest_path) with dest_path existing.  If the
destination entry is a regular file it is overwritten with the source's
bytes and metadata.  If it is a directory, copy2 copies into it under the
source's base name (the same name n): uncaught IsADirectoryError if that
inner name is itself a directory, otherwise the inner name is written.  A
special destination raises uncaught SpecialFileError; writing through a
dangling destination link is simplified to uncaught FileNotFoundError. -/
def copy2Shared (n : Name) (s : Nat) (t : Int) (eD : Entry) (ch : CList) :
    CList × Option Err :=
  match eD with
  | .file _ _ => (writeN ch n (.file s t), none)
  | .dir dch =>
    match lookupN dch n with
    | some (.dir _) => (ch, some .isADirectory)
    | _ => (writeN ch n (.dir (writeN dch n (.file s t))), none)
  | .special => (ch, some .specialFile)
  | .brokenLink => (ch, some .fileNotFound)

/-- Lines 183-207: process the shared items.  Both sides are statted first
(lines 187-188, outside any try block: a dangling link or an oracle failure
raises an uncaught exception).  A shared regular source file is copied when
its size differs from the destination's or its mtime is strictly newer, the
copy catching PermissionError; a shared source directory is collected for
the worklist; any other source kind falls through both branches untouched.
Returns the new child list, the ops, error_found, the uncaught exception if
one occurred, and the collected subdirectory names in listing order. -/
def runShared (orc : Oracles) (p : Path) :
    List (Name × Entry) → CList → CList × List Op × Bool × Option Err × List Name
  | [], ch => (ch, [], false, none, [])
  | (n, eS) :: rest, ch =>
    if statOk eS = false then (ch, [], false, some .fileNotFound, [])
    else if orc.failStat (p ++ [n]) then (ch, [], false, some .permission, [])
    else
      match lookupN ch n with
      | none => (ch, [], false, some .fileNotFound, [])
      | some eD =>
        if statOk eD = false then (ch, [], false, some .fileNotFound, [])
        else
          match eS with
          | .file s t =>
            if s ≠ statSz eD ∨ t > statMt eD then
              if orc.failCopy (p ++ [n]) then
                let r := runShared orc p rest ch
                (r.1, .copyFailed (p ++ [n]) :: r.2.1, true, r.2.2.2)
              else
                match copy2Shared n s t eD ch with
                | (_, some e) => (ch, [], false, some e, [])
                | (ch2, none) =>
                  let r := runShared orc p rest ch2
                  (r.1, .copied (p ++ [n]) :: r.2.1, r.2.2.1, r.2.2.2)
            else runShared orc p rest ch
          | .dir _ =>
            let r := runShared orc p rest ch
            (r.1, r.2.1, r.2.2.1, r.2.2.2.1, n :: r.2.2.2.2)
          | _ => runShared orc p rest ch

/-- The body of dir_comp between the listings and the worklist update:
the three loops over dest-only, source-only and shared items, in program
order, over the two child lists of one level.  Python iterates these name
sets in unspecified set order; the embedding iterates in listing order.
Returns the new destination child list, ops, error_found, the uncaught
exception if any, and the shared subdirectory names. -/
def levelSync (orc : Oracles) (p : Path) (merge : Bool) (sCh dCh : CList) :
    CList × List Op × Bool × Option Err × List Name :=
  let sN := keysC sCh
  let dN := keysC dCh
  let r1 := if merge then (dCh, ([] : List Op), false)
            else runDels orc p (dCh.filter (fun x => !(sN.contains x.1))) dCh
  match runCopies orc p (sCh.filter (fun x => !(dN.contains x.1))) r1.1 with
  | (ch2, ops2, flag2, some e) => (ch2, r1.2.1 ++ ops2, r1.2.2 || flag2, some e, [])
  | (ch2, ops2, flag2, none) =>
    let r3 := runShared orc p (sCh.filter (fun x => dN.contains x.1)) ch2
    (r3.1, r1.2.1 ++ ops2 ++ r3.2.1, r1.2.2 || flag2 || r3.2.2.1, r3.2.2.2.1, r3.2.2.2.2)

/-- Lines 102-210, dir_comp: reconcile one level.  src and dest are the
same relative path p into the source tree fsS and destination tree fsD (the
main loop derives iter_dest from iter_src by re-applying the relative
path).  Lists both sides (lines 143-144: iterdir raises NotADirectoryError
on a non-directory, FileNotFoundError on a missing path or dangling link,
and the failList oracle models an uncaught PermissionError), runs the three
loops, then inserts each discovered shared subdirectory path at the front
of the worklist (line 207) and removes src from it (line 209, raising
ValueError if absent).  Returns the updated destination tree, the logged
ops, and either (updated worklist, error_found) or the uncaught
exception. -/
def dir_comp (fsS fsD : Entry) (p : Path) (wl : List Path) (merge : Bool)
    (orc : Oracles) : Entry × List Op × Except Err (List Path × Bool) :=
  match lookupE fsS p with
  | none => (fsD, [], .error .fileNotFound)
  | some (.file _ _) => (fsD, [], .error .notADirectory)
  | some .special => (fsD, [], .error .notADirectory)
  | some .brokenLink => (fsD, [], .error .fileNotFound)
  | some (.dir sCh) =>
    if orc.failList p then (fsD, [], .error .permission)
    else
      match lookupE fsD p with
      | none => (fsD, [], .error .fileNotFound)
      | some (.file _ _) => (fsD, [], .error .notADirectory)
      | some .special => (fsD, [], .error .notADirectory)
      | some .brokenLink => (fsD, [], .error .fileNotFound)
      | some (.dir dCh) =>
        match levelSync orc p merge sCh dCh with
        | (ch3, ops, _, some e, _) => (setSub fsD p (.dir ch3), ops, .error e)
        | (ch3, ops, flag, none, nd) =>
          let fsD2 := setSub fsD p (.dir ch3)
          let wlMid := (nd.map (fun n => p ++ [n])).reverse ++ wl
          if wlMid.contains p then (fsD2, ops, .ok (wlMid.erase p, flag))
          else (fsD2, ops, .error .valueError)

/-- Outcome of the main while loop (lines 271-287).  finished is the
normal exit with the final destination tree, all logged ops and
INFORM_USER; crashed is an uncaught exception escaping dir_comp, which
aborts the program with the destination as mutated so far; outOfFuel never
occurs for adequate fuel (proved below). -/
inductive RunResult where
  | finished (fsD : Entry) (ops : List Op) (inform : Bool)
  | crashed (fsD : Entry) (ops : List Op) (e : Err)
  | outOfFuel

/-- Lines 266-287, the worklist loop, fuelled: while the worklist is
nonempty, run dir_comp on its head (iter_src, with iter_dest derived from
the same relative path), replace the worklist by the returned one, and OR
the error flag into INFORM_USER. -/
def runFuel (fsS : Entry) (merge : Bool) (orc : Oracles) :
    Nat → Entry → List Path → List Op → Bool → RunResult
  | 0, _, _, _, _ => .outOfFuel
  | _ + 1, fsD, [], ops, inform => .finished fsD ops inform
  | n + 1, fsD, p :: rest, ops, inform =>
    match dir_comp fsS fsD p (p :: rest) merge orc with
    | (fsD2, ops2, .error e) => .crashed fsD2 (ops ++ ops2) e
    | (fsD2, ops2, .ok (wl2, flag)) =>
      runFuel fsS merge orc n fsD2 wl2 (ops ++ ops2) (inform || flag)

/-- One full synchronization run: worklist initialized to the root pair
(line 267), INFORM_USER to false (line 266).  The fuel sizeE fsS + 2
exceeds the node count of the source tree, which bounds the number of
iterations (each successful iteration consumes one source directory). -/
def sync (fsS fsD : Entry) (merge : Bool) (orc : Oracles) : RunResult :=
  runFuel fsS merge orc (sizeE fsS + 2) fsD [[]] [] false

/-- Index of the last dot of a name's characters. -/
def lastDotIdx : List Char → Option Nat
  | [] => none
  | c :: rest =>
    match lastDotIdx rest with
    | some i => some (i + 1)
    | none => if c = '.' then some 0 else none

/-- pathlib's PurePath.stem on one name: the name minus its final
extension.  The extension starts at the last dot, provided that dot is
neither the first nor the last character (i strictly between 0 and
len - 1); otherwise the stem is the whole name. -/
def stemStr (s : String) : String :=
  let cs := s.toList
  match lastDotIdx cs with
  | some i => if 0 < i ∧ i + 1 < cs.length then ⟨cs.take i⟩ else s
  | none => s

/-- The final component of a resolved path (its own name). -/
def lastName (p : Path) : Name := p.getLastD ""

/-- Outcome of the pre-run checks at lines 225-239. -/
inductive CheckOutcome where
  | errSource
  | errDest
  | errName
  | selfNoop
  | proceed
  deriving DecidableEq, Repr

/-- Lines 225-239: the orchestrator's validation, over the two resolved
paths and whether each is an existing directory.  Source checked first
(OSError), then destination (OSError), then equality of the two stems
(ValueError; Path.stem is the final component minus its final extension),
then identical paths (clean exit). -/
def checkArgs (srcIsDir destIsDir : Bool) (src dest : Path) : CheckOutcome :=
  if srcIsDir = false then .errSource
  else if destIsDir = false then .errDest
  else if stemStr (lastName src) ≠ stemStr (lastName dest) then .errName
  else if src = dest then .selfNoop
  else .proceed

mutual
/-- The reference result of one successful failure-free synchronization of
a destination tree against a compatible proper source tree: shared regular
files keep the destination's entry exactly when the sizes agree and the
destination mtime is not older, and are overwritten with the source's
otherwise; shared directories recurse; source-only entries are copied;
destination-only entries are kept in merge mode and dropped otherwise.
Used only inside proofs, to state what a completed run computes. -/
def syncE (merge : Bool) : Entry → Entry → Entry
  | .file s t, .file s2 t2 =>
    if s ≠ s2 ∨ t > t2 then .file s t else .file s2 t2
  | .dir cs, .dir cd => .dir (syncL merge cs cd)
  | s, _ => s
termination_by e1 e2 => sizeOf e1 + sizeOf e2
decreasing_by all_goals (simp_wf; try omega)
/-- Sorted merge of a source child list onto a destination one, combining
shared names with syncE. -/
def syncL (merge : Bool) : CList → CList → CList
  | [], cd => if merge then cd else []
  | cs, [] => cs
  | (n, e) :: cs2, (m, d) :: cd2 =>
    if n = m then (n, syncE merge e d) :: syncL merge cs2 cd2
    else if nameLt n m then (n, e) :: syncL merge cs2 ((m, d) :: cd2)
    else if merge then (m, d) :: syncL merge ((n, e) :: cs2) cd2
    else syncL merge ((n, e) :: cs2) cd2
termination_by cs cd => sizeOf cs + sizeOf cd
decreasing_by all_goals (simp_wf; try omega)
end

/-- The per-name combination the reference synchronization applies to the
two optional entries found under one name. -/
def syncOpt (merge : Bool) : Option Entry → Option Entry → Option Entry
  | some e, some d => some (syncE merge e d)
  | some e, none => some e
  | none, some d => if merge then some d else none
  | none, none => none

/-- Replace a performed operation by its failed variant wherever the given
oracle makes that copy or delete raise.  Relates a run under a failure
oracle to the failure-free run over the same trees. -/
def markOp (orc : Oracles) : Op → Op
  | .deleted q b => if orc.failDel q then .delFailed q else .deleted q b
  | .copied q => if orc.failCopy q then .copyFailed q else .copied q
  | op => op

/-- The shallow observation of one tree position: entry kind, file data,
and for directories the child names only (not the subtrees). -/
inductive NodeView where
  | nfile (size : Nat) (mtime : Int)
  | ndir (names : List Name)
  | nspecial
  | nbroken
  | nnone
  deriving DecidableEq

/-- Shallow view of an optional entry. -/
def nodeOf : Option Entry → NodeView
  | some (.file s t) => .nfile s t
  | some (.dir ch) => .ndir (keysC ch)
  | some .special => .nspecial
  | some .brokenLink => .nbroken
  | none => .nnone

/-- Shallow view of the tree at one path. -/
def nodeAt (fs : Entry) (q : Path) : NodeView := nodeOf (lookupE fs q)

/-- Contribution of one pending path to the traversal measure. -/
def sizeAtE (fs : Entry) (p : Path) : Nat :=
  match lookupE fs p with
  | some e => sizeE e
  | none => 1

/-- Traversal measure: total source-node count under the pending paths.
Each successful dir_comp call strictly decreases it. -/
def measWl (fs : Entry) (wl : List Path) : Nat := (wl.map (sizeAtE fs)).sum

/-- The shared subdirectory names a level discovers: the names present on
both sides whose source-side entry is a directory (line 204), in listing
order. -/
def sharedDirNames (fsS fsD : Entry) (p : Path) : List Name :=
  match lookupE fsS p, lookupE fsD p with
  | some (.dir sCh), some (.dir dCh) =>
    ((sCh.filter (fun x => (keysC dCh).contains x.1)).filter
      (fun x => isDirB x.2)).map Prod.fst
  | _, _ => []

/-- The pending paths are pairwise disjoint: none is an ancestor of
another.  An invariant of the worklist. -/
def DisjWl (wl : List Path) : Prop := List.Pairwise (fun p q => disj p q = true) wl

/-- A pending path denotes a directory on both sides and the two
directories are kind-compatible.  An invariant of the worklist. -/
def PairOk (fsS fsD : Entry) (p : Path) : Prop :=
  ∃ sCh dCh, lookupE fsS p = some (.dir sCh) ∧ lookupE fsD p = some (.dir dCh) ∧
    compat (.dir sCh) (.dir dCh) = true

/-- The per-item shape of the operations the shared-item loop performs,
as a function of the source-side pair and the destination entry at the
start of the loop. -/
def sharedOpOf (orc : Oracles) (p : Path) (ch : CList) (x : Name × Entry) :
    Option Op :=
  match x.2, lookupN ch x.1 with
  | .file s t, some d =>
    if s ≠ statSz d ∨ t > statMt d then
      some (if orc.failCopy (p ++ [x.1]) then Op.copyFailed (p ++ [x.1])
            else Op.copied (p ++ [x.1]))
    else none
  | _, _ => none

/-- The per-item failure flag of the shared-item loop. -/
def sharedFlagOf (orc : Oracles) (p : Path) (ch : CList) (x : Name × Entry) :
    Bool :=
  match x.2, lookupN ch x.1 with
  | .file s t, some d =>
    decide (s ≠ statSz d ∨ t > statMt d) && orc.failCopy (p ++ [x.1])
  | _, _ => false

/-! Lemmas about the name order. -/

theorem ltChars_irrefl : ∀ a, ltChars a a = false
  | [] => rfl
  | _ :: rest => by simp [ltChars, ltChars_irrefl rest]

theorem ltChars_cons_iff {a b : Char} {as_ bs : List Char} :
    ltChars (a :: as_) (b :: bs) = true ↔
      a.toNat < b.toNat ∨ (a.toNat = b.toNat ∧ ltChars as_ bs = true) := by
  simp only [ltChars]
  split_ifs with g1 g2
  · simp [g1]
  · constructor
    · intro h
      exact absurd h (by simp)
    · rintro (h | ⟨h, _⟩) <;> omega
  · constructor
    · intro h
      exact Or.inr ⟨by omega, h⟩
    · rintro (h | ⟨_, hr⟩)
      · omega
      · exact hr

theorem charEq_of_toNat {a b : Char} (h : a.toNat = b.toNat) : a = b :=
  Char.eq_of_val_eq (UInt32.ext (by simpa [Char.toNat] using h))

theorem ltChars_trans :
    ∀ a b c, ltChars a b = true → ltChars b c = true → ltChars a c = true
  | [], _ :: _, _ :: _, _, _ => rfl
  | [], [], _, h1, _ => by simp [ltChars] at h1
  | [], _ :: _, [], _, h2 => by simp [ltChars] at h2
  | _ :: _, [], _, h1, _ => by simp [ltChars] at h1
  | _ :: _, _ :: _, [], _, h2 => by simp [ltChars] at h2
  | a :: as_, b :: bs, c :: cs, h1, h2 => by
    rw [ltChars_cons_iff] at h1 h2 ⊢
    rcases h1 with h1 | ⟨h1e, h1r⟩ <;> rcases h2 with h2 | ⟨h2e, h2r⟩
    · exact Or.inl (by omega)
    · exact Or.inl (by omega)
    · exact Or.inl (by omega)
    · exact Or.inr ⟨by omega, ltChars_trans as_ bs cs h1r h2r⟩

theorem ltChars_conn : ∀ a b, ltChars a b = false → ltChars b a = false → a = b
  | [], [], _, _ => rfl
  | [], _ :: _, h1, _ => by simp [ltChars] at h1
  | _ :: _, [], _, h2 => by simp [ltChars] at h2
  | a :: as_, b :: bs, h1, h2 => by
    have h1' : ¬ (a.toNat < b.toNat ∨ (a.toNat = b.toNat ∧ ltChars as_ bs = true)) := by
      rw [← ltChars_cons_iff]
      simp [h1]
    have h2' : ¬ (b.toNat < a.toNat ∨ (b.toNat = a.toNat ∧ ltChars bs as_ = true)) := by
      rw [← ltChars_cons_iff]
      simp [h2]
    push_neg at h1' h2'
    have he : a.toNat = b.toNat := by omega
    have hr1 : ltChars as_ bs = false := by
      cases hx : ltChars as_ bs with
      | false => rfl
      | true => exact absurd hx (by simpa [he] using h1'.2 he)
    have hr2 : ltChars bs as_ = false := by
      cases hx : ltChars bs as_ with
      | false => rfl
      | true => exact absurd hx (by simpa using h2'.2 he.symm)
    rw [charEq_of_toNat he, ltChars_conn as_ bs hr1 hr2]

theorem nameLt_irrefl (a : Name) : nameLt a a = false := ltChars_irrefl _

theorem nameLt_trans {a b c : Name} (h1 : nameLt a b = true) (h2 : nameLt b c = true) :
    nameLt a c = true := ltChars_trans _ _ _ h1 h2

theorem string_toList_inj {a b : String} (h : a.toList = b.toList) : a = b := by
  cases a; cases b; simp [String.toList] at h; simp [h]

theorem nameLt_conn {a b : Name} (h1 : nameLt a b = false) (h2 : nameLt b a = false) :
    a = b := string_toList_inj (ltChars_conn _ _ h1 h2)

theorem nameLt_asymm {a b : Name} (h : nameLt a b = true) : nameLt b a = false := by
  by_contra hc
  have hba : nameLt b a = true := by
    cases hb : nameLt b a with
    | true => rfl
    | false => exact absurd hb hc
  have := nameLt_trans h hba
  rw [nameLt_irrefl] at this
  exact Bool.noConfusion this

theorem nameLt_ne {a b : Name} (h : nameLt a b = true) : a ≠ b := by
  rintro rfl
  rw [nameLt_irrefl] at h
  exact Bool.noConfusion h

theorem nameLt_tri (a b : Name) : nameLt a b = true ∨ a = b ∨ nameLt b a = true := by
  cases h1 : nameLt a b with
  | true => exact Or.inl rfl
  | false =>
    cases h2 : nameLt b a with
    | true => exact Or.inr (Or.inr rfl)
    | false => exact Or.inr (Or.inl (nameLt_conn h1 h2))

/-! Lemmas about child lists. -/

theorem lookupN_writeN (ch : CList) (n : Name) (e : Entry) (k : Name) :
    lookupN (writeN ch n e) k = if k = n then some e else lookupN ch k := by
  induction ch with
  | nil => simp [writeN, lookupN]
  | cons hd rest ih =>
    obtain ⟨m, d⟩ := hd
    by_cases hnm : n = m
    · subst hnm
      simp [writeN, lookupN]
      split_ifs <;> simp_all [lookupN]
    · simp only [writeN, if_neg hnm]
      by_cases hlt : nameLt n m = true
      · simp only [hlt, if_true]
        by_cases hk : k = n
        · simp [lookupN, hk, hnm]
        · simp [lookupN, hk]
      · simp only [hlt]
        simp only [Bool.false_eq_true, if_false, lookupN]
        by_cases hk : k = m
        · subst hk
          simp [Ne.symm hnm]
        · simp [hk, ih]

theorem lookupN_none_iff (ch : CList) (n : Name) :
    lookupN ch n = none ↔ n ∉ keysC ch := by
  induction ch with
  | nil => simp [lookupN, keysC]
  | cons hd rest ih =>
    obtain ⟨m, d⟩ := hd
    by_cases h : n = m
    · simp [lookupN, keysC, h]
    · simp [lookupN, keysC, h] at ih ⊢
      simp [ih]

theorem lookupN_isSome_iff (ch : CList) (n : Name) :
    (lookupN ch n).isSome = true ↔ n ∈ keysC ch := by
  cases h : lookupN ch n with
  | none => simp [(lookupN_none_iff ch n).mp h]
  | some e =>
    simp only [Option.isSome_some, true_iff]
    by_contra hc
    rw [← lookupN_none_iff ch n] at hc
    rw [h] at hc
    exact Option.noConfusion hc

theorem sortedKeysB_cons (x : Name × Entry) (rest : CList) :
    sortedKeysB (x :: rest) = true ↔
      (∀ y ∈ rest, nameLt x.1 y.1 = true) ∧ sortedKeysB rest = true := by
  induction rest generalizing x with
  | nil => simp [sortedKeysB]
  | cons y rest2 ih =>
    obtain ⟨n, e⟩ := x
    obtain ⟨m, d⟩ := y
    constructor
    · intro h
      simp only [sortedKeysB, Bool.and_eq_true] at h
      obtain ⟨hnm, hrest⟩ := h
      have := (ih (x := (m, d))).mp hrest
      refine ⟨?_, hrest⟩
      intro z hz
      rcases List.mem_cons.mp hz with h1 | h2
      · rw [h1]; exact hnm
      · exact nameLt_trans hnm (this.1 z h2)
    · rintro ⟨hall, hrest⟩
      simp only [sortedKeysB, Bool.and_eq_true]
      exact ⟨hall (m, d) (List.mem_cons_self _ _), hrest⟩

theorem sortedKeysB_tail {x : Name × Entry} {rest : CList}
    (h : sortedKeysB (x :: rest) = true) : sortedKeysB rest = true :=
  ((sortedKeysB_cons x rest).mp h).2

theorem sorted_nodup_keys {ch : CList} (h : sortedKeysB ch = true) :
    (keysC ch).Nodup := by
  induction ch with
  | nil => simp [keysC]
  | cons x rest ih =>
    have hc := (sortedKeysB_cons x rest).mp h
    simp only [keysC, List.map_cons, List.nodup_cons]
    constructor
    · intro hmem
      obtain ⟨y, hy, hxy⟩ := List.mem_map.mp hmem
      have := hc.1 y hy
      rw [hxy] at this
      rw [nameLt_irrefl] at this
      exact Bool.noConfusion this
    · exact ih hc.2

theorem mem_writeN {ch : CList} {n : Name} {e : Entry} :
    ∀ y ∈ writeN ch n e, y = (n, e) ∨ y ∈ ch := by
  induction ch with
  | nil =>
    intro y hy
    simp only [writeN] at hy
    exact Or.inl (by simpa using hy)
  | cons hd rest ih =>
    obtain ⟨m, d⟩ := hd
    intro y hy
    simp only [writeN] at hy
    split_ifs at hy with g1 g2
    · rcases List.mem_cons.mp hy with h1 | h2
      · exact Or.inl (by rw [h1])
      · exact Or.inr (List.mem_cons_of_mem _ h2)
    · rcases List.mem_cons.mp hy with h1 | h2
      · exact Or.inl (by rw [h1])
      · exact Or.inr h2
    · rcases List.mem_cons.mp hy with h1 | h2
      · exact Or.inr (by rw [h1]; exact List.mem_cons_self _ _)
      · rcases ih y h2 with h3 | h4
        · exact Or.inl h3
        · exact Or.inr (List.mem_cons_of_mem _ h4)

theorem writeN_sorted {ch : CList} (n : Name) (e : Entry)
    (h : sortedKeysB ch = true) : sortedKeysB (writeN ch n e) = true := by
  induction ch with
  | nil => simp [writeN, sortedKeysB]
  | cons hd rest ih =>
    obtain ⟨m, d⟩ := hd
    have hc := (sortedKeysB_cons (m, d) rest).mp h
    by_cases hnm : n = m
    · subst hnm
      simp only [writeN, if_pos rfl]
      exact (sortedKeysB_cons (n, e) rest).mpr ⟨hc.1, hc.2⟩
    · simp only [writeN, if_neg hnm]
      by_cases hlt : nameLt n m = true
      · simp only [hlt, if_true]
        refine (sortedKeysB_cons (n, e) _).mpr ⟨?_, h⟩
        intro y hy
        rcases List.mem_cons.mp hy with h1 | h2
        · rw [h1]; exact hlt
        · exact nameLt_trans hlt (hc.1 y h2)
      · simp only [hlt, Bool.false_eq_true, if_false]
        have hmn : nameLt m n = true := by
          rcases nameLt_tri n m with h1 | h2 | h3
          · exact absurd h1 (by simp [hlt])
          · exact absurd h2 hnm
          · exact h3
        refine (sortedKeysB_cons (m, d) _).mpr ⟨?_, ih hc.2⟩
        intro y hy
        rcases mem_writeN y hy with h1 | h2
        · rw [h1]; exact hmn
        · exact hc.1 y h2

theorem mem_removeN {ch : CList} {n : Name} : ∀ y ∈ removeN ch n, y ∈ ch := by
  induction ch with
  | nil => intro y hy; simp [removeN] at hy
  | cons hd rest ih =>
    obtain ⟨m, d⟩ := hd
    intro y hy
    simp only [removeN] at hy
    split_ifs at hy with g1
    · exact List.mem_cons_of_mem _ hy
    · rcases List.mem_cons.mp hy with h1 | h2
      · rw [h1]; exact List.mem_cons_self _ _
      · exact List.mem_cons_of_mem _ (ih y h2)

theorem removeN_sorted {ch : CList} (n : Name)
    (h : sortedKeysB ch = true) : sortedKeysB (removeN ch n) = true := by
  induction ch with
  | nil => simp [removeN, sortedKeysB]
  | cons hd rest ih =>
    obtain ⟨m, d⟩ := hd
    have hc := (sortedKeysB_cons (m, d) rest).mp h
    by_cases hnm : n = m
    · simp only [removeN, if_pos hnm]
      exact hc.2
    · simp only [removeN, if_neg hnm]
      refine (sortedKeysB_cons (m, d) _).mpr ⟨?_, ih hc.2⟩
      intro y hy
      exact hc.1 y (mem_removeN y hy)

theorem lookupN_none_of_lt {ch : CList} {k : Name}
    (h : ∀ y ∈ ch, nameLt k y.1 = true) : lookupN ch k = none := by
  induction ch with
  | nil => rfl
  | cons hd rest ih =>
    obtain ⟨m, d⟩ := hd
    have hlt := h (m, d) (List.mem_cons_self _ _)
    simp only [lookupN, if_neg (nameLt_ne hlt)]
    exact ih fun y hy => h y (List.mem_cons_of_mem _ hy)

theorem lookupN_head_tail_none {n : Name} {e : Entry} {rest : CList}
    (h : sortedKeysB ((n, e) :: rest) = true) : lookupN rest n = none :=
  lookupN_none_of_lt ((sortedKeysB_cons (n, e) rest).mp h).1

theorem lookupN_removeN {ch : CList} (h : sortedKeysB ch = true) (n k : Name) :
    lookupN (removeN ch n) k = if k = n then none else lookupN ch k := by
  induction ch with
  | nil => simp [removeN, lookupN]
  | cons hd rest ih =>
    obtain ⟨m, d⟩ := hd
    have hc := (sortedKeysB_cons (m, d) rest).mp h
    by_cases hnm : n = m
    · subst hnm
      simp only [removeN, if_pos rfl]
      by_cases hk : k = n
      · subst hk
        rw [if_pos rfl]
        exact lookupN_none_of_lt hc.1
      · simp [lookupN, hk]
    · simp only [removeN, if_neg hnm, lookupN]
      by_cases hk : k = m
      · have hkn : ¬ k = n := by
          rw [hk]
          exact fun he => hnm he.symm
        rw [if_pos hk, if_neg hkn, if_pos hk]
      · rw [if_neg hk, ih hc.2, if_neg hk]

theorem writeN_lookup_self {ch : CList} (h : sortedKeysB ch = true) {n : Name}
    {c : Entry} (hl : lookupN ch n = some c) : writeN ch n c = ch := by
  induction ch with
  | nil => simp [lookupN] at hl
  | cons hd rest ih =>
    obtain ⟨m, d⟩ := hd
    have hc := (sortedKeysB_cons (m, d) rest).mp h
    by_cases hnm : n = m
    · subst hnm
      rw [lookupN, if_pos rfl] at hl
      have : d = c := Option.some.inj hl
      subst this
      simp [writeN]
    · rw [lookupN, if_neg hnm] at hl
      have hmem : n ∈ keysC rest := by
        rw [← lookupN_isSome_iff]
        simp [hl]
      obtain ⟨y, hy, hxy⟩ := List.mem_map.mp hmem
      have hmn : nameLt m n = true := by
        have := hc.1 y hy
        rw [hxy] at this
        exact this
      have hlt : nameLt n m = false := nameLt_asymm hmn
      simp [writeN, hnm, hlt, ih hc.2 hl]

theorem keysC_writeN_mem {ch : CList} {n : Name} (e : Entry)
    (hs : sortedKeysB ch = true) (h : n ∈ keysC ch) :
    keysC (writeN ch n e) = keysC ch := by
  induction ch with
  | nil => simp [keysC] at h
  | cons hd rest ih =>
    obtain ⟨m, d⟩ := hd
    have hc := (sortedKeysB_cons (m, d) rest).mp hs
    by_cases hnm : n = m
    · subst hnm
      simp [writeN, keysC]
    · simp only [keysC, List.map_cons, List.mem_cons] at h
      rcases h with h1 | h2
      · exact absurd h1 hnm
      · obtain ⟨y, hy, hxy⟩ := List.mem_map.mp h2
        have hmn : nameLt m n = true := by rw [← hxy]; exact hc.1 y hy
        have hlt : nameLt n m = false := nameLt_asymm hmn
        simp only [writeN, if_neg hnm, hlt, Bool.false_eq_true, if_false, keysC,
          List.map_cons]
        rw [show List.map Prod.fst (writeN rest n e) = keysC (writeN rest n e) from rfl,
          ih hc.2 h2]
        rfl

theorem clist_ext {cs cd : CList} (hs : sortedKeysB cs = true)
    (hd : sortedKeysB cd = true) (h : ∀ n, lookupN cs n = lookupN cd n) :
    cs = cd := by
  induction cs generalizing cd with
  | nil =>
    cases cd with
    | nil => rfl
    | cons y rest =>
      have := h y.1
      simp [lookupN] at this
  | cons x rest ih =>
    obtain ⟨n, e⟩ := x
    cases cd with
    | nil =>
      have := h n
      simp [lookupN] at this
    | cons y rest2 =>
      obtain ⟨m, d⟩ := y
      have hcs := (sortedKeysB_cons (n, e) rest).mp hs
      have hcd := (sortedKeysB_cons (m, d) rest2).mp hd
      have hnm : n = m := by
        rcases nameLt_tri n m with h1 | h2 | h3
        · exfalso
          have hv1 : lookupN ((n, e) :: rest) n = some e := by simp [lookupN]
          have hv2 : lookupN ((m, d) :: rest2) n = none := by
            simp only [lookupN]
            rw [if_neg (nameLt_ne h1)]
            exact lookupN_none_of_lt fun y hy => nameLt_trans h1 (hcd.1 y hy)
          have hx := h n
          rw [hv1, hv2] at hx
          exact Option.noConfusion hx
        · exact h2
        · exfalso
          have hv1 : lookupN ((n, e) :: rest) m = none := by
            simp only [lookupN]
            rw [if_neg (nameLt_ne h3)]
            exact lookupN_none_of_lt fun y hy => nameLt_trans h3 (hcs.1 y hy)
          have hv2 : lookupN ((m, d) :: rest2) m = some d := by simp [lookupN]
          have hx := h m
          rw [hv1, hv2] at hx
          exact Option.noConfusion hx
      subst hnm
      have hed : e = d := by
        have hx := h n
        rw [lookupN, if_pos rfl, lookupN, if_pos rfl] at hx
        exact Option.some.inj hx
      subst hed
      congr 1
      refine ih hcs.2 hcd.2 fun k => ?_
      by_cases hk : k = n
      · subst hk
        rw [lookupN_head_tail_none hs, lookupN_head_tail_none hd]
      · have hx := h k
        simpa only [lookupN, if_neg hk] using hx

/-! Lemmas about whole-tree lookup, subtree replacement and the
well-formedness, properness and compatibility predicates. -/

theorem lookupN_mem {ch : CList} {n : Name} {c : Entry}
    (h : lookupN ch n = some c) : (n, c) ∈ ch := by
  induction ch with
  | nil => simp [lookupN] at h
  | cons hd rest ih =>
    obtain ⟨m, d⟩ := hd
    by_cases hnm : n = m
    · subst hnm
      rw [lookupN, if_pos rfl] at h
      rw [Option.some.inj h]
      exact List.mem_cons_self _ _
    · rw [lookupN, if_neg hnm] at h
      exact List.mem_cons_of_mem _ (ih h)

theorem wfL_iff (ch : CList) : wfL ch = true ↔ ∀ y ∈ ch, wfE y.2 = true := by
  induction ch with
  | nil => simp [wfL]
  | cons hd rest ih =>
    obtain ⟨m, d⟩ := hd
    simp [wfL, ih]

theorem properL_iff (ch : CList) : properL ch = true ↔ ∀ y ∈ ch, properE y.2 = true := by
  induction ch with
  | nil => simp [properL]
  | cons hd rest ih =>
    obtain ⟨m, d⟩ := hd
    simp [properL, ih]

theorem wf_dir_sorted {ch : CList} (h : wfE (.dir ch) = true) :
    sortedKeysB ch = true := by
  rw [wfE, Bool.and_eq_true] at h
  exact h.1

theorem wf_dir_child {ch : CList} {n : Name} {c : Entry}
    (h : wfE (.dir ch) = true) (hl : lookupN ch n = some c) : wfE c = true := by
  rw [wfE, Bool.and_eq_true] at h
  exact (wfL_iff ch).mp h.2 (n, c) (lookupN_mem hl)

theorem proper_dir_child {ch : CList} {n : Name} {c : Entry}
    (h : properE (.dir ch) = true) (hl : lookupN ch n = some c) : properE c = true := by
  rw [properE] at h
  exact (properL_iff ch).mp h (n, c) (lookupN_mem hl)

theorem wf_lookupE {fs : Entry} {p : Path} {e : Entry}
    (h : wfE fs = true) (hl : lookupE fs p = some e) : wfE e = true := by
  induction p generalizing fs with
  | nil =>
    rw [lookupE] at hl
    rw [← Option.some.inj hl]
    exact h
  | cons n rest ih =>
    cases fs with
    | dir ch =>
      rw [lookupE] at hl
      cases hc : lookupN ch n with
      | some c =>
        rw [hc] at hl
        exact ih (wf_dir_child h hc) hl
      | none => rw [hc] at hl; exact Option.noConfusion hl
    | file s t => simp [lookupE] at hl
    | special => simp [lookupE] at hl
    | brokenLink => simp [lookupE] at hl

theorem proper_lookupE {fs : Entry} {p : Path} {e : Entry}
    (h : properE fs = true) (hl : lookupE fs p = some e) : properE e = true := by
  induction p generalizing fs with
  | nil =>
    rw [lookupE] at hl
    rw [← Option.some.inj hl]
    exact h
  | cons n rest ih =>
    cases fs with
    | dir ch =>
      rw [lookupE] at hl
      cases hc : lookupN ch n with
      | some c =>
        rw [hc] at hl
        exact ih (proper_dir_child h hc) hl
      | none => rw [hc] at hl; exact Option.noConfusion hl
    | file s t => simp [lookupE] at hl
    | special => simp [lookupE] at hl
    | brokenLink => simp [lookupE] at hl

theorem compat_children {cs cd : CList} {n : Name} {e d : Entry}
    (h : compat (.dir cs) (.dir cd) = true)
    (hs : lookupN cs n = some e) (hd : lookupN cd n = some d) :
    compat e d = true := by
  rw [compat] at h
  induction cs with
  | nil => simp [lookupN] at hs
  | cons hd2 rest ih =>
    obtain ⟨m, e2⟩ := hd2
    rw [compatL, Bool.and_eq_true] at h
    by_cases hnm : n = m
    · subst hnm
      rw [lookupN, if_pos rfl] at hs
      rw [← Option.some.inj hs]
      have := h.1
      rw [hd] at this
      exact this
    · rw [lookupN, if_neg hnm] at hs
      exact ih h.2 hs

theorem lookupE_append (fs : Entry) (p q : Path) :
    lookupE fs (p ++ q) = (lookupE fs p).bind (fun e => lookupE e q) := by
  induction p generalizing fs with
  | nil => simp [lookupE]
  | cons n rest ih =>
    cases fs with
    | dir ch =>
      simp only [List.cons_append, lookupE]
      cases lookupN ch n with
      | some c => exact ih c
      | none => simp
    | file s t => simp [lookupE]
    | special => simp [lookupE]
    | brokenLink => simp [lookupE]

theorem lookupE_setSub_at (fs v : Entry) {p : Path}
    (h : (lookupE fs p).isSome = true) (q : Path) :
    lookupE (setSub fs p v) (p ++ q) = lookupE v q := by
  induction p generalizing fs with
  | nil => simp [setSub, lookupE]
  | cons n rest ih =>
    cases fs with
    | dir ch =>
      rw [lookupE] at h
      cases hc : lookupN ch n with
      | some c =>
        rw [hc] at h
        simp only [setSub, hc, List.cons_append, lookupE, lookupN_writeN, if_pos rfl]
        exact ih c h
      | none => rw [hc] at h; simp at h
    | file s t => simp [lookupE] at h
    | special => simp [lookupE] at h
    | brokenLink => simp [lookupE] at h

theorem lookupE_setSub_disj (fs v : Entry) {p q : Path}
    (h : disj p q = true) : lookupE (setSub fs p v) q = lookupE fs q := by
  induction p generalizing fs q with
  | nil => simp [disj, anc] at h
  | cons n pr ih =>
    cases q with
    | nil => simp [disj, anc] at h
    | cons m qr =>
      cases fs with
      | dir ch =>
        by_cases hmn : m = n
        · subst hmn
          have hd : disj pr qr = true := by
            simpa [disj, anc] using h
          cases hc : lookupN ch m with
          | some c =>
            simp only [setSub, hc, lookupE, lookupN_writeN, if_pos rfl, hc]
            exact ih c hd
          | none => simp [setSub, hc]
        · cases hc : lookupN ch n with
          | some c =>
            simp only [setSub, hc, lookupE, lookupN_writeN, if_neg hmn]
          | none => simp [setSub, hc]
      | file s t => simp [setSub]
      | special => simp [setSub]
      | brokenLink => simp [setSub]

theorem nodeAt_setSub_above {fs v : Entry} {p q : Path}
    (hw : wfE fs = true) (ha : anc q p = true) (hne : q ≠ p)
    (hs : (lookupE fs p).isSome = true) :
    nodeAt (setSub fs p v) q = nodeAt fs q := by
  induction q generalizing fs p with
  | nil =>
    cases p with
    | nil => exact absurd rfl hne
    | cons n pr =>
      cases fs with
      | dir ch =>
        rw [lookupE] at hs
        cases hc : lookupN ch n with
        | some c =>
          rw [hc] at hs
          simp only [setSub, hc, nodeAt, lookupE, nodeOf]
          rw [keysC_writeN_mem _ (wf_dir_sorted hw)]
          rw [← lookupN_isSome_iff]
          simp [hc]
        | none => rw [hc] at hs; simp at hs
      | file s t => simp [lookupE] at hs
      | special => simp [lookupE] at hs
      | brokenLink => simp [lookupE] at hs
  | cons m qr ih =>
    cases p with
    | nil => simp [anc] at ha
    | cons n pr =>
      have hmn : m = n := by
        simp only [anc, Bool.and_eq_true, beq_iff_eq] at ha
        exact ha.1
      subst hmn
      have ha2 : anc qr pr = true := by
        simpa [anc] using ha
      have hne2 : qr ≠ pr := fun he => hne (by rw [he])
      cases fs with
      | dir ch =>
        rw [lookupE] at hs
        cases hc : lookupN ch m with
        | some c =>
          rw [hc] at hs
          simp only [setSub, hc, nodeAt, lookupE, lookupN_writeN, if_pos rfl, hc]
          exact ih (wf_dir_child hw hc) ha2 hne2 hs
        | none => rw [hc] at hs; simp at hs
      | file s t => simp [lookupE] at hs
      | special => simp [lookupE] at hs
      | brokenLink => simp [lookupE] at hs

theorem setSub_lookup_eq {fs : Entry} {p : Path} {e : Entry}
    (hw : wfE fs = true) (hl : lookupE fs p = some e) : setSub fs p e = fs := by
  induction p generalizing fs with
  | nil =>
    rw [lookupE] at hl
    rw [setSub, Option.some.inj hl]
  | cons n rest ih =>
    cases fs with
    | dir ch =>
      rw [lookupE] at hl
      cases hc : lookupN ch n with
      | some c =>
        rw [hc] at hl
        rw [setSub]
        simp only [hc]
        rw [ih (wf_dir_child hw hc) hl, writeN_lookup_self (wf_dir_sorted hw) hc]
      | none => rw [hc] at hl; exact Option.noConfusion hl
    | file s t => simp [lookupE] at hl
    | special => simp [lookupE] at hl
    | brokenLink => simp [lookupE] at hl

theorem wfE_setSub {fs v : Entry} (p : Path)
    (hw : wfE fs = true) (hv : wfE v = true) : wfE (setSub fs p v) = true := by
  induction p generalizing fs with
  | nil => cases fs <;> exact hv
  | cons n rest ih =>
    cases fs with
    | dir ch =>
      cases hc : lookupN ch n with
      | some c =>
        rw [setSub]
        simp only [hc]
        rw [wfE, Bool.and_eq_true]
        constructor
        · exact writeN_sorted _ _ (wf_dir_sorted hw)
        · rw [wfL_iff]
          intro y hy
          rcases mem_writeN y hy with h1 | h2
          · rw [h1]
            exact ih (wf_dir_child hw hc)
          · rw [wfE, Bool.and_eq_true] at hw
            exact (wfL_iff ch).mp hw.2 y h2
      | none =>
        rw [setSub]
        simp only [hc]
        exact hw
    | file s t => exact hw
    | special => exact hw
    | brokenLink => exact hw

/-! Trees that agree in every shallow observation are equal. -/

theorem sizeE_pos (e : Entry) : 1 ≤ sizeE e := by
  cases e <;> simp [sizeE]

theorem sizeE_mem_le {ch : CList} {y : Name × Entry} (h : y ∈ ch) :
    sizeE y.2 ≤ sizeL ch := by
  induction ch with
  | nil => simp at h
  | cons hd rest ih =>
    rcases List.mem_cons.mp h with h1 | h2
    · rw [h1, sizeL]
      omega
    · have := ih h2
      rw [sizeL]
      omega

theorem sizeE_child_lt {ch : CList} {n : Name} {c : Entry}
    (h : lookupN ch n = some c) : sizeE c < sizeE (.dir ch) := by
  have h2 : sizeE c ≤ sizeL ch := by simpa using sizeE_mem_le (lookupN_mem h)
  rw [sizeE]
  omega

theorem nodeAt_cons_dir {ch : CList} {n : Name} {c : Entry}
    (hc : lookupN ch n = some c) (q : Path) :
    nodeAt (.dir ch) (n :: q) = nodeAt c q := by
  simp [nodeAt, lookupE, hc]

theorem entry_ext_aux :
    ∀ (k : Nat) (fs gs : Entry), sizeE fs ≤ k → wfE fs = true → wfE gs = true →
      (∀ q, nodeAt fs q = nodeAt gs q) → fs = gs := by
  intro k
  induction k with
  | zero =>
    intro fs gs hsz
    have := sizeE_pos fs
    omega
  | succ k ih =>
    intro fs gs hsz hwf hwg h
    have h0 := h []
    simp only [nodeAt, lookupE, nodeOf] at h0
    cases fs with
    | file s t =>
      cases gs with
      | file s2 t2 =>
        obtain ⟨h1, h2⟩ := NodeView.nfile.inj h0
        rw [h1, h2]
      | dir cd => exact NodeView.noConfusion h0
      | special => exact NodeView.noConfusion h0
      | brokenLink => exact NodeView.noConfusion h0
    | special =>
      cases gs with
      | file s2 t2 => exact NodeView.noConfusion h0
      | dir cd => exact NodeView.noConfusion h0
      | special => rfl
      | brokenLink => exact NodeView.noConfusion h0
    | brokenLink =>
      cases gs with
      | file s2 t2 => exact NodeView.noConfusion h0
      | dir cd => exact NodeView.noConfusion h0
      | special => exact NodeView.noConfusion h0
      | brokenLink => rfl
    | dir cs =>
      cases gs with
      | file s2 t2 => exact NodeView.noConfusion h0
      | special => exact NodeView.noConfusion h0
      | brokenLink => exact NodeView.noConfusion h0
      | dir cd =>
        have hkeys : keysC cs = keysC cd := NodeView.ndir.inj h0
        have : cs = cd := by
          apply clist_ext (wf_dir_sorted hwf) (wf_dir_sorted hwg)
          intro n
          cases hcs : lookupN cs n with
          | none =>
            have hn : n ∉ keysC cs := (lookupN_none_iff cs n).mp hcs
            rw [hkeys] at hn
            rw [(lookupN_none_iff cd n).mpr hn]
          | some c =>
            have hn : n ∈ keysC cs := by
              rw [← lookupN_isSome_iff]
              simp [hcs]
            rw [hkeys] at hn
            rw [← lookupN_isSome_iff] at hn
            cases hcd : lookupN cd n with
            | none => rw [hcd] at hn; simp at hn
            | some d =>
              have hlt := sizeE_child_lt hcs
              have heq : c = d := by
                apply ih c d (by omega)
                  (wf_dir_child hwf hcs) (wf_dir_child hwg hcd)
                intro q
                have := h (n :: q)
                rw [nodeAt_cons_dir hcs, nodeAt_cons_dir hcd] at this
                exact this
              rw [heq]
        rw [this]

theorem entry_ext {fs gs : Entry} (hwf : wfE fs = true) (hwg : wfE gs = true)
    (h : ∀ q, nodeAt fs q = nodeAt gs q) : fs = gs :=
  entry_ext_aux (sizeE fs) fs gs le_rfl hwf hwg h

/-! Small helper lemmas about paths and filtered listings. -/

theorem pathApp_inj {p : Path} {a b : Name} (h : p ++ [a] = p ++ [b]) : a = b := by
  have := List.append_cancel_left h
  exact List.singleton_inj.mp this

theorem lookupN_filter_name (ch : CList) (f : Name → Bool) (k : Name) :
    lookupN (ch.filter fun x => f x.1) k =
      if f k then lookupN ch k else none := by
  induction ch with
  | nil => simp [lookupN]
  | cons hd rest ih =>
    obtain ⟨m, d⟩ := hd
    by_cases hk : k = m
    · subst hk
      cases hf : f k with
      | true => simp [List.filter, hf, lookupN]
      | false =>
        simp only [List.filter, hf]
        rw [ih, if_neg (by simp [hf])]
        rw [if_neg (by simp [hf])]
    · cases hf : f m with
      | true =>
        simp only [List.filter, hf, lookupN, if_neg hk]
        exact ih
      | false =>
        simp only [List.filter, hf]
        rw [ih]
        by_cases hfk : f k = true
        · rw [if_pos hfk, if_pos hfk, lookupN, if_neg hk]
        · rw [if_neg hfk, if_neg hfk]

theorem keysC_filter_sublist (ch : CList) (f : Name × Entry → Bool) :
    List.Sublist (keysC (ch.filter f)) (keysC ch) :=
  List.Sublist.map Prod.fst (List.filter_sublist ch)

theorem keysC_filter_nodup {ch : CList} (f : Name × Entry → Bool)
    (h : (keysC ch).Nodup) : (keysC (ch.filter f)).Nodup :=
  List.Nodup.sublist (keysC_filter_sublist ch f) h

theorem mem_keysC_of_lookup {ch : CList} {n : Name} {c : Entry}
    (h : lookupN ch n = some c) : n ∈ keysC ch := by
  rw [← lookupN_isSome_iff]
  simp [h]

/-! Step equations for the destination-only deletion loop. -/

theorem runDels_nil (orc : Oracles) (p : Path) (ch : CList) :
    runDels orc p [] ch = (ch, [], false) := rfl

theorem runDels_cons_fail {orc : Oracles} {p : Path} {n : Name}
    (e : Entry) (rest : List (Name × Entry)) (ch : CList)
    (hf : orc.failDel (p ++ [n]) = true) :
    runDels orc p ((n, e) :: rest) ch =
      ((runDels orc p rest ch).1,
        .delFailed (p ++ [n]) :: (runDels orc p rest ch).2.1, true) := by
  simp [runDels, hf]

theorem runDels_cons_del {orc : Oracles} {p : Path} {n : Name}
    (e : Entry) (rest : List (Name × Entry)) (ch : CList)
    (hf : orc.failDel (p ++ [n]) = false) :
    runDels orc p ((n, e) :: rest) ch =
      ((runDels orc p rest (removeN ch n)).1,
        .deleted (p ++ [n]) (isDirB e) :: (runDels orc p rest (removeN ch n)).2.1,
        (runDels orc p rest (removeN ch n)).2.2) := by
  simp [runDels, hf]

/-! Characterization of the destination-only deletion loop (phase 1). -/

theorem runDels_ops (orc : Oracles) (p : Path) :
    ∀ (items : List (Name × Entry)) (ch : CList),
      (runDels orc p items ch).2.1 =
        items.map fun x =>
          if orc.failDel (p ++ [x.1]) then Op.delFailed (p ++ [x.1])
          else Op.deleted (p ++ [x.1]) (isDirB x.2)
  | [], ch => by simp [runDels_nil]
  | (n, e) :: rest, ch => by
    cases hf : orc.failDel (p ++ [n]) with
    | true =>
      rw [runDels_cons_fail e rest ch hf]
      simp [hf, runDels_ops orc p rest ch]
    | false =>
      rw [runDels_cons_del e rest ch hf]
      simp [hf, runDels_ops orc p rest (removeN ch n)]

theorem runDels_flag (orc : Oracles) (p : Path) :
    ∀ (items : List (Name × Entry)) (ch : CList),
      (runDels orc p items ch).2.2 =
        items.any fun x => orc.failDel (p ++ [x.1])
  | [], ch => by simp [runDels_nil]
  | (n, e) :: rest, ch => by
    cases hf : orc.failDel (p ++ [n]) with
    | true =>
      rw [runDels_cons_fail e rest ch hf]
      simp [hf]
    | false =>
      rw [runDels_cons_del e rest ch hf]
      simp [hf, runDels_flag orc p rest (removeN ch n)]

theorem runDels_sorted (orc : Oracles) (p : Path) :
    ∀ (items : List (Name × Entry)) (ch : CList),
      sortedKeysB ch = true → sortedKeysB (runDels orc p items ch).1 = true
  | [], ch, h => by simpa [runDels_nil] using h
  | (n, e) :: rest, ch, h => by
    cases hf : orc.failDel (p ++ [n]) with
    | true =>
      rw [runDels_cons_fail e rest ch hf]
      exact runDels_sorted orc p rest ch h
    | false =>
      rw [runDels_cons_del e rest ch hf]
      exact runDels_sorted orc p rest (removeN ch n) (removeN_sorted n h)

theorem runDels_wfL (orc : Oracles) (p : Path) :
    ∀ (items : List (Name × Entry)) (ch : CList),
      wfL ch = true → wfL (runDels orc p items ch).1 = true
  | [], ch, h => by simpa [runDels_nil] using h
  | (n, e) :: rest, ch, h => by
    cases hf : orc.failDel (p ++ [n]) with
    | true =>
      rw [runDels_cons_fail e rest ch hf]
      exact runDels_wfL orc p rest ch h
    | false =>
      rw [runDels_cons_del e rest ch hf]
      refine runDels_wfL orc p rest (removeN ch n) ?_
      rw [wfL_iff]
      intro y hy
      exact (wfL_iff ch).mp h y (mem_removeN y hy)

theorem runDels_lookup (orc : Oracles) (p : Path) :
    ∀ (items : List (Name × Entry)) (ch : CList), sortedKeysB ch = true →
      ∀ k, lookupN (runDels orc p items ch).1 k =
        if items.any fun x => x.1 == k && !orc.failDel (p ++ [x.1]) then none
        else lookupN ch k
  | [], ch, h, k => by simp [runDels_nil]
  | (n, e) :: rest, ch, h, k => by
    cases hf : orc.failDel (p ++ [n]) with
    | true =>
      rw [runDels_cons_fail e rest ch hf]
      rw [runDels_lookup orc p rest ch h k]
      simp only [List.any_cons, hf, Bool.not_true, Bool.and_false, Bool.false_or]
    | false =>
      rw [runDels_cons_del e rest ch hf]
      rw [runDels_lookup orc p rest (removeN ch n) (removeN_sorted n h) k]
      by_cases hk : k = n
      · subst hk
        simp [List.any_cons, hf, lookupN_removeN h]
      · rw [lookupN_removeN h, if_neg hk]
        have hnk : (n == k) = false := by simp [Ne.symm hk]
        simp only [List.any_cons, hnk, Bool.false_and, Bool.false_or]

/-! Step equations for the source-only copy loop. -/

theorem runCopies_nil (orc : Oracles) (p : Path) (ch : CList) :
    runCopies orc p [] ch = (ch, [], false, none) := rfl

theorem runCopies_file_fail {orc : Oracles} {p : Path} {n : Name}
    (s : Nat) (t : Int) (rest : List (Name × Entry)) (ch : CList)
    (hf : orc.failCopy (p ++ [n]) = true) :
    runCopies orc p ((n, .file s t) :: rest) ch =
      ((runCopies orc p rest ch).1,
        .copyFailed (p ++ [n]) :: (runCopies orc p rest ch).2.1, true,
        (runCopies orc p rest ch).2.2.2) := by
  simp [runCopies, hf]

theorem runCopies_file_ok {orc : Oracles} {p : Path} {n : Name}
    (s : Nat) (t : Int) (rest : List (Name × Entry)) (ch : CList)
    (hf : orc.failCopy (p ++ [n]) = false) :
    runCopies orc p ((n, .file s t) :: rest) ch =
      ((runCopies orc p rest (writeN ch n (.file s t))).1,
        .copied (p ++ [n]) :: (runCopies orc p rest (writeN ch n (.file s t))).2.1,
        (runCopies orc p rest (writeN ch n (.file s t))).2.2.1,
        (runCopies orc p rest (writeN ch n (.file s t))).2.2.2) := by
  simp [runCopies, hf]

theorem runCopies_dir_fail {orc : Oracles} {p : Path} {n : Name}
    (dch : CList) (rest : List (Name × Entry)) (ch : CList)
    (hf : orc.failCopy (p ++ [n]) = true) :
    runCopies orc p ((n, .dir dch) :: rest) ch =
      ((runCopies orc p rest ch).1,
        .copyFailed (p ++ [n]) :: (runCopies orc p rest ch).2.1, true,
        (runCopies orc p rest ch).2.2.2) := by
  simp [runCopies, hf]

theorem runCopies_dir_ok {orc : Oracles} {p : Path} {n : Name}
    (dch : CList) (rest : List (Name × Entry)) (ch : CList)
    (hf : orc.failCopy (p ++ [n]) = false)
    (hp : properE (.dir dch) = true) :
    runCopies orc p ((n, .dir dch) :: rest) ch =
      ((runCopies orc p rest (writeN ch n (.dir dch))).1,
        .copied (p ++ [n]) :: (runCopies orc p rest (writeN ch n (.dir dch))).2.1,
        (runCopies orc p rest (writeN ch n (.dir dch))).2.2.1,
        (runCopies orc p rest (writeN ch n (.dir dch))).2.2.2) := by
  simp [runCopies, hf, hp]

theorem runCopies_dir_bad {orc : Oracles} {p : Path} {n : Name}
    (dch : CList) (rest : List (Name × Entry)) (ch : CList)
    (hf : orc.failCopy (p ++ [n]) = false)
    (hp : properE (.dir dch) = false) :
    runCopies orc p ((n, .dir dch) :: rest) ch =
      (ch, [], false, some .copytreeFailed) := by
  simp [runCopies, hf, hp]

theorem runCopies_special {orc : Oracles} {p : Path} {n : Name}
    (rest : List (Name × Entry)) (ch : CList) :
    runCopies orc p ((n, .special) :: rest) ch =
      (ch, [], false, some .specialFile) := rfl

theorem runCopies_broken {orc : Oracles} {p : Path} {n : Name}
    (rest : List (Name × Entry)) (ch : CList) :
    runCopies orc p ((n, .brokenLink) :: rest) ch =
      (ch, [], false, some .fileNotFound) := rfl

/-! Characterization of the source-only copy loop (phase 2). -/

theorem runCopies_ok (orc : Oracles) (p : Path) :
    ∀ (items : List (Name × Entry)) (ch : CList),
      (∀ x ∈ items, properE x.2 = true) →
      (runCopies orc p items ch).2.2.2 = none
  | [], ch, _ => by simp [runCopies_nil]
  | (n, e) :: rest, ch, hp => by
    have hpe := hp (n, e) (List.mem_cons_self _ _)
    have hrest : ∀ x ∈ rest, properE x.2 = true :=
      fun x hx => hp x (List.mem_cons_of_mem _ hx)
    cases e with
    | file s t =>
      cases hf : orc.failCopy (p ++ [n]) with
      | true =>
        rw [runCopies_file_fail s t rest ch hf]
        exact runCopies_ok orc p rest ch hrest
      | false =>
        rw [runCopies_file_ok s t rest ch hf]
        exact runCopies_ok orc p rest _ hrest
    | dir dch =>
      cases hf : orc.failCopy (p ++ [n]) with
      | true =>
        rw [runCopies_dir_fail dch rest ch hf]
        exact runCopies_ok orc p rest ch hrest
      | false =>
        rw [runCopies_dir_ok dch rest ch hf hpe]
        exact runCopies_ok orc p rest _ hrest
    | special => simp [properE] at hpe
    | brokenLink => simp [properE] at hpe

theorem runCopies_ops (orc : Oracles) (p : Path) :
    ∀ (items : List (Name × Entry)) (ch : CList),
      (runCopies orc p items ch).2.2.2 = none →
      (runCopies orc p items ch).2.1 =
        items.map fun x =>
          if orc.failCopy (p ++ [x.1]) then Op.copyFailed (p ++ [x.1])
          else Op.copied (p ++ [x.1])
  | [], ch, _ => by simp [runCopies_nil]
  | (n, e) :: rest, ch, hok => by
    cases e with
    | file s t =>
      cases hf : orc.failCopy (p ++ [n]) with
      | true =>
        rw [runCopies_file_fail s t rest ch hf] at hok ⊢
        simp [hf, runCopies_ops orc p rest ch hok]
      | false =>
        rw [runCopies_file_ok s t rest ch hf] at hok ⊢
        simp [hf, runCopies_ops orc p rest (writeN ch n (.file s t)) hok]
    | dir dch =>
      cases hf : orc.failCopy (p ++ [n]) with
      | true =>
        rw [runCopies_dir_fail dch rest ch hf] at hok ⊢
        simp [hf, runCopies_ops orc p rest ch hok]
      | false =>
        cases hpe : properE (.dir dch) with
        | false => rw [runCopies_dir_bad dch rest ch hf hpe] at hok; simp at hok
        | true =>
          rw [runCopies_dir_ok dch rest ch hf hpe] at hok ⊢
          simp [hf, runCopies_ops orc p rest (writeN ch n (.dir dch)) hok]
    | special => rw [runCopies_special] at hok; simp at hok
    | brokenLink => rw [runCopies_broken] at hok; simp at hok

theorem runCopies_flag (orc : Oracles) (p : Path) :
    ∀ (items : List (Name × Entry)) (ch : CList),
      (runCopies orc p items ch).2.2.2 = none →
      (runCopies orc p items ch).2.2.1 =
        items.any fun x => orc.failCopy (p ++ [x.1])
  | [], ch, _ => by simp [runCopies_nil]
  | (n, e) :: rest, ch, hok => by
    cases e with
    | file s t =>
      cases hf : orc.failCopy (p ++ [n]) with
      | true =>
        rw [runCopies_file_fail s t rest ch hf]
        simp [hf]
      | false =>
        rw [runCopies_file_ok s t rest ch hf] at hok ⊢
        simp [hf, runCopies_flag orc p rest (writeN ch n (.file s t)) hok]
    | dir dch =>
      cases hf : orc.failCopy (p ++ [n]) with
      | true =>
        rw [runCopies_dir_fail dch rest ch hf]
        simp [hf]
      | false =>
        cases hpe : properE (.dir dch) with
        | false => rw [runCopies_dir_bad dch rest ch hf hpe] at hok; simp at hok
        | true =>
          rw [runCopies_dir_ok dch rest ch hf hpe] at hok ⊢
          simp [hf, runCopies_flag orc p rest (writeN ch n (.dir dch)) hok]
    | special => rw [runCopies_special] at hok; simp at hok
    | brokenLink => rw [runCopies_broken] at hok; simp at hok

theorem runCopies_lookup (orc : Oracles) (p : Path) :
    ∀ (items : List (Name × Entry)) (ch : CList),
      (runCopies orc p items ch).2.2.2 = none → (keysC items).Nodup →
      ∀ k, lookupN (runCopies orc p items ch).1 k =
        match lookupN items k with
        | some e => if orc.failCopy (p ++ [k]) then lookupN ch k else some e
        | none => lookupN ch k
  | [], ch, _, _, k => by simp [runCopies_nil, lookupN]
  | (n, e) :: rest, ch, hok, hnd, k => by
    have hnd2 : (keysC rest).Nodup := by
      simp only [keysC, List.map_cons, List.nodup_cons] at hnd
      exact hnd.2
    have hnmem : n ∉ keysC rest := by
      simp only [keysC, List.map_cons, List.nodup_cons] at hnd
      exact hnd.1
    have hlkrest : lookupN rest n = none := (lookupN_none_iff rest n).mpr hnmem
    cases e with
    | file s t =>
      cases hf : orc.failCopy (p ++ [n]) with
      | true =>
        rw [runCopies_file_fail s t rest ch hf] at hok ⊢
        rw [runCopies_lookup orc p rest ch hok hnd2 k]
        by_cases hk : k = n
        · subst hk
          simp [lookupN, hlkrest, hf]
        · simp [lookupN, hk]
      | false =>
        rw [runCopies_file_ok s t rest ch hf] at hok ⊢
        rw [runCopies_lookup orc p rest (writeN ch n (.file s t)) hok hnd2 k]
        by_cases hk : k = n
        · subst hk
          simp [lookupN, hlkrest, hf, lookupN_writeN]
        · simp only [lookupN, if_neg hk, lookupN_writeN]
          try rw [if_neg hk]
    | dir dch =>
      cases hf : orc.failCopy (p ++ [n]) with
      | true =>
        rw [runCopies_dir_fail dch rest ch hf] at hok ⊢
        rw [runCopies_lookup orc p rest ch hok hnd2 k]
        by_cases hk : k = n
        · subst hk
          simp [lookupN, hlkrest, hf]
        · simp [lookupN, hk]
      | false =>
        cases hpe : properE (.dir dch) with
        | false => rw [runCopies_dir_bad dch rest ch hf hpe] at hok; simp at hok
        | true =>
          rw [runCopies_dir_ok dch rest ch hf hpe] at hok ⊢
          rw [runCopies_lookup orc p rest (writeN ch n (.dir dch)) hok hnd2 k]
          by_cases hk : k = n
          · subst hk
            simp [lookupN, hlkrest, hf, lookupN_writeN]
          · simp only [lookupN, if_neg hk, lookupN_writeN]
            try rw [if_neg hk]
    | special => rw [runCopies_special] at hok; simp at hok
    | brokenLink => rw [runCopies_broken] at hok; simp at hok

theorem runCopies_sorted (orc : Oracles) (p : Path) :
    ∀ (items : List (Name × Entry)) (ch : CList),
      sortedKeysB ch = true → sortedKeysB (runCopies orc p items ch).1 = true
  | [], ch, h => by simpa [runCopies_nil] using h
  | (n, e) :: rest, ch, h => by
    cases e with
    | file s t =>
      cases hf : orc.failCopy (p ++ [n]) with
      | true =>
        rw [runCopies_file_fail s t rest ch hf]
        exact runCopies_sorted orc p rest ch h
      | false =>
        rw [runCopies_file_ok s t rest ch hf]
        exact runCopies_sorted orc p rest _ (writeN_sorted _ _ h)
    | dir dch =>
      cases hf : orc.failCopy (p ++ [n]) with
      | true =>
        rw [runCopies_dir_fail dch rest ch hf]
        exact runCopies_sorted orc p rest ch h
      | false =>
        cases hpe : properE (.dir dch) with
        | false =>
          rw [runCopies_dir_bad dch rest ch hf hpe]
          exact h
        | true =>
          rw [runCopies_dir_ok dch rest ch hf hpe]
          exact runCopies_sorted orc p rest _ (writeN_sorted _ _ h)
    | special => simpa [runCopies_special] using h
    | brokenLink => simpa [runCopies_broken] using h

theorem runCopies_wfL (orc : Oracles) (p : Path) :
    ∀ (items : List (Name × Entry)) (ch : CList),
      (∀ x ∈ items, wfE x.2 = true) → wfL ch = true →
      wfL (runCopies orc p items ch).1 = true
  | [], ch, _, h => by simpa [runCopies_nil] using h
  | (n, e) :: rest, ch, hw, h => by
    have hwe := hw (n, e) (List.mem_cons_self _ _)
    have hwr : ∀ x ∈ rest, wfE x.2 = true :=
      fun x hx => hw x (List.mem_cons_of_mem _ hx)
    have hwrite : wfL (writeN ch n e) = true := by
      rw [wfL_iff]
      intro y hy
      rcases mem_writeN y hy with h1 | h2
      · rw [h1]; exact hwe
      · exact (wfL_iff ch).mp h y h2
    cases e with
    | file s t =>
      cases hf : orc.failCopy (p ++ [n]) with
      | true =>
        rw [runCopies_file_fail s t rest ch hf]
        exact runCopies_wfL orc p rest ch hwr h
      | false =>
        rw [runCopies_file_ok s t rest ch hf]
        exact runCopies_wfL orc p rest _ hwr hwrite
    | dir dch =>
      cases hf : orc.failCopy (p ++ [n]) with
      | true =>
        rw [runCopies_dir_fail dch rest ch hf]
        exact runCopies_wfL orc p rest ch hwr h
      | false =>
        cases hpe : properE (.dir dch) with
        | false =>
          rw [runCopies_dir_bad dch rest ch hf hpe]
          exact h
        | true =>
          rw [runCopies_dir_ok dch rest ch hf hpe]
          exact runCopies_wfL orc p rest _ hwr hwrite
    | special => simpa [runCopies_special] using h
    | brokenLink => simpa [runCopies_broken] using h

/-! Lemmas about one shared-file copy (shutil.copy2 onto an existing
destination path). -/

theorem copy2Shared_file (n : Name) (s : Nat) (t : Int) (s2 : Nat) (t2 : Int)
    (ch : CList) :
    copy2Shared n s t (.file s2 t2) ch = (writeN ch n (.file s t), none) := rfl

theorem copy2Shared_ok_lookup_other {n : Name} {s : Nat} {t : Int} {eD : Entry}
    {ch ch2 : CList} (h : copy2Shared n s t eD ch = (ch2, none))
    {k : Name} (hk : k ≠ n) : lookupN ch2 k = lookupN ch k := by
  cases eD with
  | file s2 t2 =>
    rw [copy2Shared_file] at h
    obtain ⟨h1, _⟩ := Prod.mk.inj h
    rw [← h1, lookupN_writeN, if_neg hk]
  | dir dch =>
    rw [copy2Shared] at h
    cases hin : lookupN dch n with
    | some c =>
      cases c with
      | dir dch2 => rw [hin] at h; simp at h
      | file s3 t3 =>
        rw [hin] at h
        obtain ⟨h1, _⟩ := Prod.mk.inj h
        rw [← h1, lookupN_writeN, if_neg hk]
      | special =>
        rw [hin] at h
        obtain ⟨h1, _⟩ := Prod.mk.inj h
        rw [← h1, lookupN_writeN, if_neg hk]
      | brokenLink =>
        rw [hin] at h
        obtain ⟨h1, _⟩ := Prod.mk.inj h
        rw [← h1, lookupN_writeN, if_neg hk]
    | none =>
      rw [hin] at h
      obtain ⟨h1, _⟩ := Prod.mk.inj h
      rw [← h1, lookupN_writeN, if_neg hk]
  | special => rw [copy2Shared] at h; simp at h
  | brokenLink => rw [copy2Shared] at h; simp at h

theorem copy2Shared_ok_wf {n : Name} {s : Nat} {t : Int} {eD : Entry}
    {ch ch2 : CList} (h : copy2Shared n s t eD ch = (ch2, none))
    (hs : sortedKeysB ch = true) (hw : wfL ch = true)
    (hD : lookupN ch n = some eD) :
    sortedKeysB ch2 = true ∧ wfL ch2 = true := by
  have hwrite : ∀ v : Entry, wfE v = true →
      sortedKeysB (writeN ch n v) = true ∧ wfL (writeN ch n v) = true := by
    intro v hv
    refine ⟨writeN_sorted _ _ hs, ?_⟩
    rw [wfL_iff]
    intro y hy
    rcases mem_writeN y hy with h1 | h2
    · rw [h1]; exact hv
    · exact (wfL_iff ch).mp hw y h2
  cases eD with
  | file s2 t2 =>
    rw [copy2Shared_file] at h
    obtain ⟨h1, _⟩ := Prod.mk.inj h
    rw [← h1]
    exact hwrite _ (by rfl)
  | dir dch =>
    have hwd : wfE (.dir dch) = true := (wfL_iff ch).mp hw (n, .dir dch) (lookupN_mem hD)
    rw [copy2Shared] at h
    cases hin : lookupN dch n with
    | some c =>
      cases c with
      | dir dch2 => rw [hin] at h; simp at h
      | file s3 t3 =>
        rw [hin] at h
        obtain ⟨h1, _⟩ := Prod.mk.inj h
        rw [← h1]
        refine hwrite _ ?_
        rw [wfE, Bool.and_eq_true]
        refine ⟨writeN_sorted _ _ (wf_dir_sorted hwd), ?_⟩
        rw [wfL_iff]
        intro y hy
        rcases mem_writeN y hy with h2 | h3
        · rw [h2]; rfl
        · rw [wfE, Bool.and_eq_true] at hwd
          exact (wfL_iff dch).mp hwd.2 y h3
      | special =>
        rw [hin] at h
        obtain ⟨h1, _⟩ := Prod.mk.inj h
        rw [← h1]
        refine hwrite _ ?_
        rw [wfE, Bool.and_eq_true]
        refine ⟨writeN_sorted _ _ (wf_dir_sorted hwd), ?_⟩
        rw [wfL_iff]
        intro y hy
        rcases mem_writeN y hy with h2 | h3
        · rw [h2]; rfl
        · rw [wfE, Bool.and_eq_true] at hwd
          exact (wfL_iff dch).mp hwd.2 y h3
      | brokenLink =>
        rw [hin] at h
        obtain ⟨h1, _⟩ := Prod.mk.inj h
        rw [← h1]
        refine hwrite _ ?_
        rw [wfE, Bool.and_eq_true]
        refine ⟨writeN_sorted _ _ (wf_dir_sorted hwd), ?_⟩
        rw [wfL_iff]
        intro y hy
        rcases mem_writeN y hy with h2 | h3
        · rw [h2]; rfl
        · rw [wfE, Bool.and_eq_true] at hwd
          exact (wfL_iff dch).mp hwd.2 y h3
    | none =>
      rw [hin] at h
      obtain ⟨h1, _⟩ := Prod.mk.inj h
      rw [← h1]
      refine hwrite _ ?_
      rw [wfE, Bool.and_eq_true]
      refine ⟨writeN_sorted _ _ (wf_dir_sorted hwd), ?_⟩
      rw [wfL_iff]
      intro y hy
      rcases mem_writeN y hy with h2 | h3
      · rw [h2]; rfl
      · rw [wfE, Bool.and_eq_true] at hwd
        exact (wfL_iff dch).mp hwd.2 y h3
  | special => rw [copy2Shared] at h; simp at h
  | brokenLink => rw [copy2Shared] at h; simp at h

/-! Step equations for the shared-item loop. -/

theorem statOk_file (s : Nat) (t : Int) : statOk (.file s t) = true := rfl

theorem statOk_dir (ch : CList) : statOk (.dir ch) = true := rfl

theorem statOk_special : statOk .special = true := rfl

theorem runShared_nil (orc : Oracles) (p : Path) (ch : CList) :
    runShared orc p [] ch = (ch, [], false, none, []) := rfl

theorem runShared_srcBroken (orc : Oracles) (p : Path) (n : Name)
    (rest : List (Name × Entry)) (ch : CList) :
    runShared orc p ((n, .brokenLink) :: rest) ch =
      (ch, [], false, some .fileNotFound, []) := by
  simp [runShared, statOk]

theorem runShared_failStat {orc : Oracles} {p : Path} {n : Name} {eS : Entry}
    (rest : List (Name × Entry)) (ch : CList)
    (hS : statOk eS = true) (hF : orc.failStat (p ++ [n]) = true) :
    runShared orc p ((n, eS) :: rest) ch =
      (ch, [], false, some .permission, []) := by
  simp [runShared, hS, hF]

theorem runShared_missing {orc : Oracles} {p : Path} {n : Name} {eS : Entry}
    (rest : List (Name × Entry)) (ch : CList)
    (hS : statOk eS = true) (hF : orc.failStat (p ++ [n]) = false)
    (hD : lookupN ch n = none) :
    runShared orc p ((n, eS) :: rest) ch =
      (ch, [], false, some .fileNotFound, []) := by
  simp [runShared, hS, hF, hD]

theorem runShared_destBroken {orc : Oracles} {p : Path} {n : Name} {eS : Entry}
    (rest : List (Name × Entry)) (ch : CList)
    (_hS : statOk eS = true) (hF : orc.failStat (p ++ [n]) = false)
    (hD : lookupN ch n = some .brokenLink) :
    runShared orc p ((n, eS) :: rest) ch =
      (ch, [], false, some .fileNotFound, []) := by
  simp [runShared, hF, hD, statOk]

theorem runShared_file_skip {orc : Oracles} {p : Path} {n : Name}
    {s : Nat} {t : Int} {eD : Entry}
    (rest : List (Name × Entry)) (ch : CList)
    (hF : orc.failStat (p ++ [n]) = false)
    (hD : lookupN ch n = some eD) (hDS : statOk eD = true)
    (hc : ¬ (s ≠ statSz eD ∨ t > statMt eD)) :
    runShared orc p ((n, .file s t) :: rest) ch = runShared orc p rest ch := by
  simp [runShared, statOk_file, hF, hD, hDS, hc]

theorem runShared_file_fail {orc : Oracles} {p : Path} {n : Name}
    {s : Nat} {t : Int} {eD : Entry}
    (rest : List (Name × Entry)) (ch : CList)
    (hF : orc.failStat (p ++ [n]) = false)
    (hD : lookupN ch n = some eD) (hDS : statOk eD = true)
    (hc : s ≠ statSz eD ∨ t > statMt eD)
    (hcp : orc.failCopy (p ++ [n]) = true) :
    runShared orc p ((n, .file s t) :: rest) ch =
      ((runShared orc p rest ch).1,
        .copyFailed (p ++ [n]) :: (runShared orc p rest ch).2.1, true,
        (runShared orc p rest ch).2.2.2.1, (runShared orc p rest ch).2.2.2.2) := by
  simp [runShared, statOk_file, hF, hD, hDS, hc, hcp]

theorem runShared_file_ok {orc : Oracles} {p : Path} {n : Name}
    {s : Nat} {t : Int} {eD : Entry} {ch2 : CList}
    (rest : List (Name × Entry)) (ch : CList)
    (hF : orc.failStat (p ++ [n]) = false)
    (hD : lookupN ch n = some eD) (hDS : statOk eD = true)
    (hc : s ≠ statSz eD ∨ t > statMt eD)
    (hcp : orc.failCopy (p ++ [n]) = false)
    (hcs : copy2Shared n s t eD ch = (ch2, none)) :
    runShared orc p ((n, .file s t) :: rest) ch =
      ((runShared orc p rest ch2).1,
        .copied (p ++ [n]) :: (runShared orc p rest ch2).2.1,
        (runShared orc p rest ch2).2.2.1,
        (runShared orc p rest ch2).2.2.2.1, (runShared orc p rest ch2).2.2.2.2) := by
  simp [runShared, statOk_file, hF, hD, hDS, hc, hcp, hcs]

theorem runShared_file_err {orc : Oracles} {p : Path} {n : Name}
    {s : Nat} {t : Int} {eD : Entry} {ch2 : CList} {er : Err}
    (rest : List (Name × Entry)) (ch : CList)
    (hF : orc.failStat (p ++ [n]) = false)
    (hD : lookupN ch n = some eD) (hDS : statOk eD = true)
    (hc : s ≠ statSz eD ∨ t > statMt eD)
    (hcp : orc.failCopy (p ++ [n]) = false)
    (hcs : copy2Shared n s t eD ch = (ch2, some er)) :
    runShared orc p ((n, .file s t) :: rest) ch =
      (ch, [], false, some er, []) := by
  simp [runShared, statOk_file, hF, hD, hDS, hc, hcp, hcs]

theorem runShared_dir {orc : Oracles} {p : Path} {n : Name} {dch : CList}
    {eD : Entry} (rest : List (Name × Entry)) (ch : CList)
    (hF : orc.failStat (p ++ [n]) = false)
    (hD : lookupN ch n = some eD) (hDS : statOk eD = true) :
    runShared orc p ((n, .dir dch) :: rest) ch =
      ((runShared orc p rest ch).1, (runShared orc p rest ch).2.1,
        (runShared orc p rest ch).2.2.1, (runShared orc p rest ch).2.2.2.1,
        n :: (runShared orc p rest ch).2.2.2.2) := by
  simp [runShared, statOk_dir, hF, hD, hDS]

theorem runShared_special {orc : Oracles} {p : Path} {n : Name} {eD : Entry}
    (rest : List (Name × Entry)) (ch : CList)
    (hF : orc.failStat (p ++ [n]) = false)
    (hD : lookupN ch n = some eD) (hDS : statOk eD = true) :
    runShared orc p ((n, .special) :: rest) ch = runShared orc p rest ch := by
  simp [runShared, statOk_special, hF, hD, hDS]

theorem filterMap_congr2 {α β : Type} (f g : α → Option β) :
    ∀ l : List α, (∀ a ∈ l, f a = g a) → l.filterMap f = l.filterMap g
  | [], _ => rfl
  | a :: l, h => by
    have h1 := h a (List.mem_cons_self _ _)
    have h2 := filterMap_congr2 f g l fun x hx => h x (List.mem_cons_of_mem _ hx)
    simp only [List.filterMap_cons, h1, h2]

theorem any_congr2 {α : Type} (f g : α → Bool) :
    ∀ l : List α, (∀ a ∈ l, f a = g a) → l.any f = l.any g
  | [], _ => rfl
  | a :: l, h => by
    have h1 := h a (List.mem_cons_self _ _)
    have h2 := any_congr2 f g l fun x hx => h x (List.mem_cons_of_mem _ hx)
    simp only [List.any_cons, h1, h2]

theorem statOk_true_of_ne {e : Entry} (h : e ≠ .brokenLink) : statOk e = true := by
  cases e with
  | brokenLink => exact absurd rfl h
  | file s t => rfl
  | dir ch => rfl
  | special => rfl

theorem runShared_main (orc : Oracles) (p : Path) :
    ∀ (items : List (Name × Entry)) (ch : CList),
      (runShared orc p items ch).2.2.2.1 = none → (keysC items).Nodup →
      ((runShared orc p items ch).2.2.2.2 =
          (items.filter fun x => isDirB x.2).map Prod.fst)
      ∧ (∀ k, k ∉ keysC items →
          lookupN (runShared orc p items ch).1 k = lookupN ch k)
      ∧ (∀ n s t s2 t2, lookupN items n = some (.file s t) →
          lookupN ch n = some (.file s2 t2) →
          lookupN (runShared orc p items ch).1 n =
            (if (s ≠ s2 ∨ t > t2) ∧ orc.failCopy (p ++ [n]) = false
             then some (.file s t) else some (.file s2 t2)))
      ∧ (∀ n e, lookupN items n = some e → isFileB e = false →
          lookupN (runShared orc p items ch).1 n = lookupN ch n)
      ∧ ((runShared orc p items ch).2.1 = items.filterMap (sharedOpOf orc p ch))
      ∧ ((runShared orc p items ch).2.2.1 = items.any (sharedFlagOf orc p ch))
  | [], ch, _, _ => by
    rw [runShared_nil]
    refine ⟨rfl, fun k _ => rfl, fun n s t s2 t2 h1 _ => by simp [lookupN] at h1,
      fun n e h1 _ => by simp [lookupN] at h1, rfl, rfl⟩
  | (n, eS) :: rest, ch, hok, hnd => by
    have hnd2 : (keysC rest).Nodup := by
      simp only [keysC, List.map_cons, List.nodup_cons] at hnd
      exact hnd.2
    have hnmem : n ∉ keysC rest := by
      simp only [keysC, List.map_cons, List.nodup_cons] at hnd
      exact hnd.1
    have hlkrest : lookupN rest n = none := (lookupN_none_iff rest n).mpr hnmem
    cases eS with
    | brokenLink => rw [runShared_srcBroken] at hok; simp at hok
    | file s0 t0 =>
      cases hF : orc.failStat (p ++ [n]) with
      | true =>
        rw [runShared_failStat rest ch (statOk_file s0 t0) hF] at hok
        simp at hok
      | false =>
        cases hD : lookupN ch n with
        | none =>
          rw [runShared_missing rest ch (statOk_file s0 t0) hF hD] at hok
          simp at hok
        | some eD =>
          cases hDSb : statOk eD with
          | false =>
            have heD : eD = .brokenLink := by
              cases eD <;> first | rfl | simp [statOk] at hDSb
            subst heD
            rw [runShared_destBroken rest ch (statOk_file s0 t0) hF hD] at hok
            simp at hok
          | true =>
            by_cases hc : s0 ≠ statSz eD ∨ t0 > statMt eD
            · cases hcp : orc.failCopy (p ++ [n]) with
              | true =>
                rw [runShared_file_fail rest ch hF hD hDSb hc hcp] at hok ⊢
                simp only at hok
                obtain ⟨ihA, ihB, ihC, ihD2, ihF, ihG⟩ :=
                  runShared_main orc p rest ch hok hnd2
                refine ⟨?_, ?_, ?_, ?_, ?_, ?_⟩
                · simpa [List.filter, isDirB] using ihA
                · intro k hk
                  simp only [keysC, List.map_cons, List.mem_cons, not_or] at hk
                  exact ihB k (by
                    intro hmem
                    exact hk.2 (by simpa [keysC] using hmem))
                · intro n2 s t s2 t2 h1 h2
                  by_cases hn2 : n2 = n
                  · subst hn2
                    rw [lookupN, if_pos rfl] at h1
                    obtain ⟨hs0, ht0⟩ := Entry.file.inj (Option.some.inj h1)
                    subst hs0
                    subst ht0
                    rw [hD] at h2
                    have heD2 := Option.some.inj h2
                    subst heD2
                    rw [if_neg (by simp [hcp])]
                    rw [ihB n2 hnmem, hD]
                  · rw [lookupN, if_neg hn2] at h1
                    exact ihC n2 s t s2 t2 h1 h2
                · intro n2 e h1 h2
                  by_cases hn2 : n2 = n
                  · subst hn2
                    rw [lookupN, if_pos rfl] at h1
                    have := Option.some.inj h1
                    rw [← this] at h2
                    simp [isFileB] at h2
                  · rw [lookupN, if_neg hn2] at h1
                    exact ihD2 n2 e h1 h2
                · simp only [List.filterMap_cons]
                  have hhead : sharedOpOf orc p ch (n, .file s0 t0) =
                      some (.copyFailed (p ++ [n])) := by
                    simp [sharedOpOf, hD, hc, hcp]
                  rw [hhead, ihF]
                · simp only [List.any_cons]
                  have hhead : sharedFlagOf orc p ch (n, .file s0 t0) = true := by
                    simp [sharedFlagOf, hD, hc, hcp]
                  rw [hhead]
                  simp
              | false =>
                cases hcs : copy2Shared n s0 t0 eD ch with
                | mk ch2 er =>
                  cases er with
                  | some e2 =>
                    rw [runShared_file_err rest ch hF hD hDSb hc hcp hcs] at hok
                    simp at hok
                  | none =>
                    rw [runShared_file_ok rest ch hF hD hDSb hc hcp hcs] at hok ⊢
                    simp only at hok
                    obtain ⟨ihA, ihB, ihC, ihD2, ihF, ihG⟩ :=
                      runShared_main orc p rest ch2 hok hnd2
                    have hother : ∀ x ∈ rest, lookupN ch2 x.1 = lookupN ch x.1 := by
                      intro x hx
                      refine copy2Shared_ok_lookup_other hcs ?_
                      intro hxn
                      exact hnmem (by
                        rw [← hxn]
                        exact List.mem_map_of_mem Prod.fst hx)
                    refine ⟨?_, ?_, ?_, ?_, ?_, ?_⟩
                    · simpa [List.filter, isDirB] using ihA
                    · intro k hk
                      simp only [keysC, List.map_cons, List.mem_cons, not_or] at hk
                      rw [ihB k (by
                        intro hmem
                        exact hk.2 (by simpa [keysC] using hmem))]
                      exact copy2Shared_ok_lookup_other hcs hk.1
                    · intro n2 s t s2 t2 h1 h2
                      by_cases hn2 : n2 = n
                      · subst hn2
                        rw [lookupN, if_pos rfl] at h1
                        obtain ⟨hs0, ht0⟩ := Entry.file.inj (Option.some.inj h1)
                        subst hs0
                        subst ht0
                        rw [hD] at h2
                        have heD2 := Option.some.inj h2
                        subst heD2
                        rw [if_pos ⟨by simpa [statSz, statMt] using hc, hcp⟩]
                        rw [ihB n2 hnmem]
                        rw [copy2Shared_file] at hcs
                        obtain ⟨hch2, _⟩ := Prod.mk.inj hcs
                        rw [← hch2, lookupN_writeN, if_pos rfl]
                      · rw [lookupN, if_neg hn2] at h1
                        rw [ihC n2 s t s2 t2 h1 (by
                          rw [copy2Shared_ok_lookup_other hcs hn2]
                          exact h2)]
                    · intro n2 e h1 h2
                      by_cases hn2 : n2 = n
                      · subst hn2
                        rw [lookupN, if_pos rfl] at h1
                        have := Option.some.inj h1
                        rw [← this] at h2
                        simp [isFileB] at h2
                      · rw [lookupN, if_neg hn2] at h1
                        rw [ihD2 n2 e h1 h2]
                        exact copy2Shared_ok_lookup_other hcs hn2
                    · simp only [List.filterMap_cons]
                      have hhead : sharedOpOf orc p ch (n, .file s0 t0) =
                          some (.copied (p ++ [n])) := by
                        simp [sharedOpOf, hD, hc, hcp]
                      rw [hhead, ihF]
                      rw [filterMap_congr2 (sharedOpOf orc p ch2) (sharedOpOf orc p ch)
                        rest (by
                          intro x hx
                          simp only [sharedOpOf, hother x hx])]
                    · simp only [List.any_cons]
                      have hhead : sharedFlagOf orc p ch (n, .file s0 t0) = false := by
                        simp [sharedFlagOf, hD, hc, hcp]
                      rw [hhead, ihG]
                      rw [any_congr2 (sharedFlagOf orc p ch2) (sharedFlagOf orc p ch)
                        rest (by
                          intro x hx
                          simp only [sharedFlagOf, hother x hx])]
                      simp
            · rw [runShared_file_skip rest ch hF hD hDSb hc] at hok ⊢
              obtain ⟨ihA, ihB, ihC, ihD2, ihF, ihG⟩ :=
                runShared_main orc p rest ch hok hnd2
              refine ⟨?_, ?_, ?_, ?_, ?_, ?_⟩
              · simpa [List.filter, isDirB] using ihA
              · intro k hk
                simp only [keysC, List.map_cons, List.mem_cons, not_or] at hk
                exact ihB k (by
                  intro hmem
                  exact hk.2 (by simpa [keysC] using hmem))
              · intro n2 s t s2 t2 h1 h2
                by_cases hn2 : n2 = n
                · subst hn2
                  rw [lookupN, if_pos rfl] at h1
                  obtain ⟨hs0, ht0⟩ := Entry.file.inj (Option.some.inj h1)
                  subst hs0
                  subst ht0
                  rw [hD] at h2
                  have heD2 := Option.some.inj h2
                  subst heD2
                  rw [if_neg (by
                    rintro ⟨hcc, _⟩
                    exact hc (by simpa [statSz, statMt] using hcc))]
                  rw [ihB n2 hnmem, hD]
                · rw [lookupN, if_neg hn2] at h1
                  exact ihC n2 s t s2 t2 h1 h2
              · intro n2 e h1 h2
                by_cases hn2 : n2 = n
                · subst hn2
                  rw [lookupN, if_pos rfl] at h1
                  have := Option.some.inj h1
                  rw [← this] at h2
                  simp [isFileB] at h2
                · rw [lookupN, if_neg hn2] at h1
                  exact ihD2 n2 e h1 h2
              · simp only [List.filterMap_cons]
                have hhead : sharedOpOf orc p ch (n, .file s0 t0) = none := by
                  simp [sharedOpOf, hD, hc]
                rw [hhead, ihF]
              · simp only [List.any_cons]
                have hhead : sharedFlagOf orc p ch (n, .file s0 t0) = false := by
                  simp [sharedFlagOf, hD, hc]
                rw [hhead, ihG]
                simp
    | dir dch =>
      cases hF : orc.failStat (p ++ [n]) with
      | true =>
        rw [runShared_failStat rest ch (statOk_dir dch) hF] at hok
        simp at hok
      | false =>
        cases hD : lookupN ch n with
        | none =>
          rw [runShared_missing rest ch (statOk_dir dch) hF hD] at hok
          simp at hok
        | some eD =>
          cases hDSb : statOk eD with
          | false =>
            have heD : eD = .brokenLink := by
              cases eD <;> first | rfl | simp [statOk] at hDSb
            subst heD
            rw [runShared_destBroken rest ch (statOk_dir dch) hF hD] at hok
            simp at hok
          | true =>
            rw [runShared_dir rest ch hF hD hDSb] at hok ⊢
            simp only at hok
            obtain ⟨ihA, ihB, ihC, ihD2, ihF, ihG⟩ :=
              runShared_main orc p rest ch hok hnd2
            refine ⟨?_, ?_, ?_, ?_, ?_, ?_⟩
            · simpa [List.filter, isDirB] using ihA
            · intro k hk
              simp only [keysC, List.map_cons, List.mem_cons, not_or] at hk
              exact ihB k (by
                intro hmem
                exact hk.2 (by simpa [keysC] using hmem))
            · intro n2 s t s2 t2 h1 h2
              by_cases hn2 : n2 = n
              · subst hn2
                rw [lookupN, if_pos rfl] at h1
                exact absurd (Option.some.inj h1) (by simp)
              · rw [lookupN, if_neg hn2] at h1
                exact ihC n2 s t s2 t2 h1 h2
            · intro n2 e h1 h2
              by_cases hn2 : n2 = n
              · subst hn2
                rw [ihB n2 hnmem]
              · rw [lookupN, if_neg hn2] at h1
                exact ihD2 n2 e h1 h2
            · simp only [List.filterMap_cons]
              have hhead : sharedOpOf orc p ch (n, .dir dch) = none := by
                simp [sharedOpOf, hD]
              rw [hhead, ihF]
            · simp only [List.any_cons]
              have hhead : sharedFlagOf orc p ch (n, .dir dch) = false := by
                simp [sharedFlagOf, hD]
              rw [hhead, ihG]
              simp
    | special =>
      cases hF : orc.failStat (p ++ [n]) with
      | true =>
        rw [runShared_failStat rest ch statOk_special hF] at hok
        simp at hok
      | false =>
        cases hD : lookupN ch n with
        | none =>
          rw [runShared_missing rest ch statOk_special hF hD] at hok
          simp at hok
        | some eD =>
          cases hDSb : statOk eD with
          | false =>
            have heD : eD = .brokenLink := by
              cases eD <;> first | rfl | simp [statOk] at hDSb
            subst heD
            rw [runShared_destBroken rest ch statOk_special hF hD] at hok
            simp at hok
          | true =>
            rw [runShared_special rest ch hF hD hDSb] at hok ⊢
            obtain ⟨ihA, ihB, ihC, ihD2, ihF, ihG⟩ :=
              runShared_main orc p rest ch hok hnd2
            refine ⟨?_, ?_, ?_, ?_, ?_, ?_⟩
            · simpa [List.filter, isDirB] using ihA
            · intro k hk
              simp only [keysC, List.map_cons, List.mem_cons, not_or] at hk
              exact ihB k (by
                intro hmem
                exact hk.2 (by simpa [keysC] using hmem))
            · intro n2 s t s2 t2 h1 h2
              by_cases hn2 : n2 = n
              · subst hn2
                rw [lookupN, if_pos rfl] at h1
                exact absurd (Option.some.inj h1) (by simp)
              · rw [lookupN, if_neg hn2] at h1
                exact ihC n2 s t s2 t2 h1 h2
            · intro n2 e h1 h2
              by_cases hn2 : n2 = n
              · subst hn2
                rw [ihB n2 hnmem]
              · rw [lookupN, if_neg hn2] at h1
                exact ihD2 n2 e h1 h2
            · simp only [List.filterMap_cons]
              have hhead : sharedOpOf orc p ch (n, .special) = none := by
                simp [sharedOpOf]
              rw [hhead, ihF]
            · simp only [List.any_cons]
              have hhead : sharedFlagOf orc p ch (n, .special) = false := by
                simp [sharedFlagOf]
              rw [hhead, ihG]
              simp

theorem lookupN_of_mem_nodup {ch : CList} {a : Name} {b : Entry}
    (hnd : (keysC ch).Nodup) (hx : (a, b) ∈ ch) : lookupN ch a = some b := by
  induction ch with
  | nil => simp at hx
  | cons hd rest ih =>
    obtain ⟨m, d⟩ := hd
    simp only [keysC, List.map_cons, List.nodup_cons] at hnd
    rcases List.mem_cons.mp hx with h1 | h2
    · obtain ⟨ha, hb⟩ := Prod.mk.inj h1
      subst ha
      subst hb
      simp [lookupN]
    · by_cases ham : a = m
      · subst ham
        exfalso
        exact hnd.1 (List.mem_map_of_mem Prod.fst h2)
      · rw [lookupN, if_neg ham]
        exact ih hnd.2 h2

theorem runShared_ok (orc : Oracles) (p : Path) :
    ∀ (items : List (Name × Entry)) (ch : CList), (keysC items).Nodup →
      (∀ x ∈ items, statOk x.2 = true ∧ orc.failStat (p ++ [x.1]) = false ∧
        ∃ d, lookupN ch x.1 = some d ∧ statOk d = true ∧
          (isFileB x.2 = true → isFileB d = true)) →
      (runShared orc p items ch).2.2.2.1 = none
  | [], ch, _, _ => by rw [runShared_nil]
  | (n, eS) :: rest, ch, hnd, hyp => by
    have hnd2 : (keysC rest).Nodup := by
      simp only [keysC, List.map_cons, List.nodup_cons] at hnd
      exact hnd.2
    have hnmem : n ∉ keysC rest := by
      simp only [keysC, List.map_cons, List.nodup_cons] at hnd
      exact hnd.1
    obtain ⟨hS, hF, d, hD, hDS, hfile⟩ := hyp (n, eS) (List.mem_cons_self _ _)
    have hyprest : ∀ x ∈ rest, statOk x.2 = true ∧ orc.failStat (p ++ [x.1]) = false ∧
        ∃ d2, lookupN ch x.1 = some d2 ∧ statOk d2 = true ∧
          (isFileB x.2 = true → isFileB d2 = true) :=
      fun x hx => hyp x (List.mem_cons_of_mem _ hx)
    cases eS with
    | brokenLink => simp [statOk] at hS
    | file s0 t0 =>
      have hdf : ∃ s2 t2, d = .file s2 t2 := by
        have := hfile rfl
        cases d with
        | file s2 t2 => exact ⟨s2, t2, rfl⟩
        | dir _ => simp [isFileB] at this
        | special => simp [isFileB] at this
        | brokenLink => simp [isFileB] at this
      obtain ⟨s2, t2, hd2⟩ := hdf
      subst hd2
      by_cases hc : s0 ≠ statSz (Entry.file s2 t2) ∨ t0 > statMt (Entry.file s2 t2)
      · cases hcp : orc.failCopy (p ++ [n]) with
        | true =>
          rw [runShared_file_fail rest ch hF hD hDS hc hcp]
          exact runShared_ok orc p rest ch hnd2 hyprest
        | false =>
          rw [runShared_file_ok rest ch hF hD hDS hc hcp
            (copy2Shared_file n s0 t0 s2 t2 ch)]
          refine runShared_ok orc p rest (writeN ch n (.file s0 t0)) hnd2 ?_
          intro x hx
          obtain ⟨g1, g2, d2, g3, g4, g5⟩ := hyprest x hx
          refine ⟨g1, g2, d2, ?_, g4, g5⟩
          rw [lookupN_writeN, if_neg ?_]
          · exact g3
          · intro hxn
            exact hnmem (by
              rw [← hxn]
              exact List.mem_map_of_mem Prod.fst hx)
      · rw [runShared_file_skip rest ch hF hD hDS hc]
        exact runShared_ok orc p rest ch hnd2 hyprest
    | dir dch =>
      rw [runShared_dir rest ch hF hD hDS]
      exact runShared_ok orc p rest ch hnd2 hyprest
    | special =>
      rw [runShared_special rest ch hF hD hDS]
      exact runShared_ok orc p rest ch hnd2 hyprest

theorem runShared_wf (orc : Oracles) (p : Path) :
    ∀ (items : List (Name × Entry)) (ch : CList),
      sortedKeysB ch = true → wfL ch = true →
      sortedKeysB (runShared orc p items ch).1 = true ∧
        wfL (runShared orc p items ch).1 = true
  | [], ch, hs, hw => by
    rw [runShared_nil]
    exact ⟨hs, hw⟩
  | (n, eS) :: rest, ch, hs, hw => by
    cases eS with
    | brokenLink =>
      rw [runShared_srcBroken]
      exact ⟨hs, hw⟩
    | file s0 t0 =>
      cases hF : orc.failStat (p ++ [n]) with
      | true =>
        rw [runShared_failStat rest ch (statOk_file s0 t0) hF]
        exact ⟨hs, hw⟩
      | false =>
        cases hD : lookupN ch n with
        | none =>
          rw [runShared_missing rest ch (statOk_file s0 t0) hF hD]
          exact ⟨hs, hw⟩
        | some eD =>
          cases hDSb : statOk eD with
          | false =>
            have heD : eD = .brokenLink := by
              cases eD <;> first | rfl | simp [statOk] at hDSb
            subst heD
            rw [runShared_destBroken rest ch (statOk_file s0 t0) hF hD]
            exact ⟨hs, hw⟩
          | true =>
            by_cases hc : s0 ≠ statSz eD ∨ t0 > statMt eD
            · cases hcp : orc.failCopy (p ++ [n]) with
              | true =>
                rw [runShared_file_fail rest ch hF hD hDSb hc hcp]
                exact runShared_wf orc p rest ch hs hw
              | false =>
                cases hcs : copy2Shared n s0 t0 eD ch with
                | mk ch2 er =>
                  cases er with
                  | some e2 =>
                    rw [runShared_file_err rest ch hF hD hDSb hc hcp hcs]
                    exact ⟨hs, hw⟩
                  | none =>
                    rw [runShared_file_ok rest ch hF hD hDSb hc hcp hcs]
                    obtain ⟨g1, g2⟩ := copy2Shared_ok_wf hcs hs hw hD
                    exact runShared_wf orc p rest ch2 g1 g2
            · rw [runShared_file_skip rest ch hF hD hDSb hc]
              exact runShared_wf orc p rest ch hs hw
    | dir dch =>
      cases hF : orc.failStat (p ++ [n]) with
      | true =>
        rw [runShared_failStat rest ch (statOk_dir dch) hF]
        exact ⟨hs, hw⟩
      | false =>
        cases hD : lookupN ch n with
        | none =>
          rw [runShared_missing rest ch (statOk_dir dch) hF hD]
          exact ⟨hs, hw⟩
        | some eD =>
          cases hDSb : statOk eD with
          | false =>
            have heD : eD = .brokenLink := by
              cases eD <;> first | rfl | simp [statOk] at hDSb
            subst heD
            rw [runShared_destBroken rest ch (statOk_dir dch) hF hD]
            exact ⟨hs, hw⟩
          | true =>
            rw [runShared_dir rest ch hF hD hDSb]
            exact runShared_wf orc p rest ch hs hw
    | special =>
      cases hF : orc.failStat (p ++ [n]) with
      | true =>
        rw [runShared_failStat rest ch statOk_special hF]
        exact ⟨hs, hw⟩
      | false =>
        cases hD : lookupN ch n with
        | none =>
          rw [runShared_missing rest ch statOk_special hF hD]
          exact ⟨hs, hw⟩
        | some eD =>
          cases hDSb : statOk eD with
          | false =>
            have heD : eD = .brokenLink := by
              cases eD <;> first | rfl | simp [statOk] at hDSb
            subst heD
            rw [runShared_destBroken rest ch statOk_special hF hD]
            exact ⟨hs, hw⟩
          | true =>
            rw [runShared_special rest ch hF hD hDSb]
            exact runShared_wf orc p rest ch hs hw

theorem runShared_copied_iff (orc : Oracles) (p : Path)
    (items : List (Name × Entry)) (ch : CList)
    (hok : (runShared orc p items ch).2.2.2.1 = none)
    (hnd : (keysC items).Nodup)
    {n : Name} {s s2 : Nat} {t t2 : Int}
    (h1 : lookupN items n = some (.file s t))
    (h2 : lookupN ch n = some (.file s2 t2)) :
    Op.copied (p ++ [n]) ∈ (runShared orc p items ch).2.1 ↔
      ((s ≠ s2 ∨ t > t2) ∧ orc.failCopy (p ++ [n]) = false) := by
  obtain ⟨_, _, _, _, ihF, _⟩ := runShared_main orc p items ch hok hnd
  rw [ihF]
  constructor
  · intro hmem
    obtain ⟨x, hx, hfx⟩ := List.mem_filterMap.mp hmem
    obtain ⟨xn, xe⟩ := x
    cases xe with
    | file xs xt =>
      cases hxd : lookupN ch xn with
      | none => simp [sharedOpOf, hxd] at hfx
      | some d =>
        simp only [sharedOpOf, hxd] at hfx
        by_cases hcc : xs ≠ statSz d ∨ xt > statMt d
        · rw [if_pos hcc] at hfx
          have heq := Option.some.inj hfx
          cases hcp : orc.failCopy (p ++ [xn]) with
          | true => rw [hcp] at heq; simp at heq
          | false =>
            rw [hcp] at heq
            simp only [if_neg (by simp : ¬ false = true)] at heq
            have hxn : xn = n := pathApp_inj (Op.copied.inj heq)
            subst hxn
            have hlk := lookupN_of_mem_nodup hnd hx
            rw [h1] at hlk
            obtain ⟨hss, htt⟩ := Entry.file.inj (Option.some.inj hlk)
            subst hss
            subst htt
            rw [h2] at hxd
            have hdd := Option.some.inj hxd
            subst hdd
            exact ⟨by simpa [statSz, statMt] using hcc, hcp⟩
        · rw [if_neg hcc] at hfx
          simp at hfx
    | dir dch => simp [sharedOpOf] at hfx
    | special => simp [sharedOpOf] at hfx
    | brokenLink => simp [sharedOpOf] at hfx
  · rintro ⟨hcc, hcp⟩
    refine List.mem_filterMap.mpr ⟨(n, .file s t), lookupN_mem h1, ?_⟩
    simp only [sharedOpOf, h2]
    rw [if_pos (by simpa [statSz, statMt] using hcc), hcp]
    simp

/-! Lemmas about the reference synchronization function syncE / syncL. -/

theorem keysC_pairwise {ch : CList} (h : sortedKeysB ch = true) :
    List.Pairwise (fun a b => nameLt a b = true) (keysC ch) := by
  induction ch with
  | nil => simp [keysC]
  | cons hd rest ih =>
    have hc := (sortedKeysB_cons hd rest).mp h
    simp only [keysC, List.map_cons, List.pairwise_cons]
    constructor
    · intro b hb
      obtain ⟨y, hy, hxy⟩ := List.mem_map.mp hb
      rw [← hxy]
      exact hc.1 y hy
    · exact ih hc.2

theorem sorted_names_ext :
    ∀ {l1 l2 : List Name},
      List.Pairwise (fun a b => nameLt a b = true) l1 →
      List.Pairwise (fun a b => nameLt a b = true) l2 →
      (∀ n, n ∈ l1 ↔ n ∈ l2) → l1 = l2
  | [], [], _, _, _ => rfl
  | [], b :: l2, _, _, h => by
    have := (h b).mpr (List.mem_cons_self _ _)
    simp at this
  | a :: l1, [], _, _, h => by
    have := (h a).mp (List.mem_cons_self _ _)
    simp at this
  | a :: l1, b :: l2, h1, h2, h => by
    rw [List.pairwise_cons] at h1 h2
    have hab : a = b := by
      rcases nameLt_tri a b with hlt | heq | hgt
      · exfalso
        have := (h a).mp (List.mem_cons_self _ _)
        rcases List.mem_cons.mp this with he | hm
        · exact nameLt_ne hlt he
        · have := h2.1 a hm
          have h3 := nameLt_trans hlt this
          rw [nameLt_irrefl] at h3
          exact Bool.noConfusion h3
      · exact heq
      · exfalso
        have := (h b).mpr (List.mem_cons_self _ _)
        rcases List.mem_cons.mp this with he | hm
        · exact nameLt_ne hgt he
        · have := h1.1 b hm
          have h3 := nameLt_trans hgt this
          rw [nameLt_irrefl] at h3
          exact Bool.noConfusion h3
    subst hab
    have htl : l1 = l2 := by
      refine sorted_names_ext h1.2 h2.2 fun n => ?_
      constructor
      · intro hn
        have := (h n).mp (List.mem_cons_of_mem _ hn)
        rcases List.mem_cons.mp this with he | hm
        · subst he
          have h3 := h1.1 n hn
          rw [nameLt_irrefl] at h3
          exact Bool.noConfusion h3
        · exact hm
      · intro hn
        have := (h n).mpr (List.mem_cons_of_mem _ hn)
        rcases List.mem_cons.mp this with he | hm
        · subst he
          have h3 := h2.1 n hn
          rw [nameLt_irrefl] at h3
          exact Bool.noConfusion h3
        · exact hm
    rw [htl]

theorem syncL_names (merge : Bool) :
    ∀ (cs cd : CList) (y : Name × Entry), y ∈ syncL merge cs cd →
      y.1 ∈ keysC cs ∨ y.1 ∈ keysC cd
  | [], cd, y, hy => by
    cases merge with
    | true =>
      have hy2 : y ∈ cd := by simpa [syncL] using hy
      exact Or.inr (List.mem_map_of_mem Prod.fst hy2)
    | false =>
      rw [show syncL false [] cd = [] by simp [syncL]] at hy
      simp at hy
  | (n, e) :: cs2, [], y, hy => by
    have hy2 : y ∈ (n, e) :: cs2 := by simpa [syncL] using hy
    exact Or.inl (List.mem_map_of_mem Prod.fst hy2)
  | (n, e) :: cs2, (m, d) :: cd2, y, hy => by
    rw [syncL] at hy
    by_cases hnm : n = m
    · rw [if_pos hnm] at hy
      rcases List.mem_cons.mp hy with h1 | h2
      · exact Or.inl (by rw [h1]; exact List.mem_cons_self _ _)
      · rcases syncL_names merge cs2 cd2 y h2 with h3 | h4
        · exact Or.inl (List.mem_cons_of_mem _ h3)
        · exact Or.inr (List.mem_cons_of_mem _ h4)
    · rw [if_neg hnm] at hy
      by_cases hlt : nameLt n m = true
      · rw [if_pos hlt] at hy
        rcases List.mem_cons.mp hy with h1 | h2
        · exact Or.inl (by rw [h1]; exact List.mem_cons_self _ _)
        · rcases syncL_names merge cs2 ((m, d) :: cd2) y h2 with h3 | h4
          · exact Or.inl (List.mem_cons_of_mem _ h3)
          · exact Or.inr h4
      · rw [if_neg hlt] at hy
        cases merge with
        | true =>
          rw [if_pos rfl] at hy
          rcases List.mem_cons.mp hy with h1 | h2
          · exact Or.inr (by rw [h1]; exact List.mem_cons_self _ _)
          · rcases syncL_names true ((n, e) :: cs2) cd2 y h2 with h3 | h4
            · exact Or.inl h3
            · exact Or.inr (List.mem_cons_of_mem _ h4)
        | false =>
          simp only [Bool.false_eq_true, if_false] at hy
          rcases syncL_names false ((n, e) :: cs2) cd2 y hy with h3 | h4
          · exact Or.inl h3
          · exact Or.inr (List.mem_cons_of_mem _ h4)
termination_by cs cd => sizeOf cs + sizeOf cd
decreasing_by all_goals (simp_wf; try omega)

theorem syncL_lookup (merge : Bool) :
    ∀ (cs cd : CList), sortedKeysB cs = true → sortedKeysB cd = true →
      ∀ k, lookupN (syncL merge cs cd) k =
        syncOpt merge (lookupN cs k) (lookupN cd k)
  | [], cd, _, _, k => by
    cases merge with
    | true =>
      show lookupN (syncL true [] cd) k = _
      rw [show syncL true [] cd = cd by simp [syncL]]
      cases hcd : lookupN cd k with
      | some d => simp [lookupN, syncOpt]
      | none => simp [lookupN, syncOpt]
    | false =>
      show lookupN (syncL false [] cd) k = _
      rw [show syncL false [] cd = [] by simp [syncL]]
      cases hcd : lookupN cd k with
      | some d => simp [lookupN, syncOpt]
      | none => simp [lookupN, syncOpt]
  | (n, e) :: cs2, [], _, _, k => by
    rw [show syncL merge ((n, e) :: cs2) [] = (n, e) :: cs2 by simp [syncL]]
    cases hcs : lookupN ((n, e) :: cs2) k with
    | some c => simp [hcs, lookupN, syncOpt]
    | none => simp [hcs, lookupN, syncOpt]
  | (n, e) :: cs2, (m, d) :: cd2, hs, hd, k => by
    have hcs := (sortedKeysB_cons (n, e) cs2).mp hs
    have hcd := (sortedKeysB_cons (m, d) cd2).mp hd
    by_cases hnm : n = m
    · subst hnm
      rw [show syncL merge ((n, e) :: cs2) ((n, d) :: cd2) =
          (n, syncE merge e d) :: syncL merge cs2 cd2 by simp [syncL]]
      by_cases hk : k = n
      · subst hk
        simp [lookupN, syncOpt]
      · simp only [lookupN, if_neg hk]
        exact syncL_lookup merge cs2 cd2 hcs.2 hcd.2 k
    · by_cases hlt : nameLt n m = true
      · rw [show syncL merge ((n, e) :: cs2) ((m, d) :: cd2) =
            (n, e) :: syncL merge cs2 ((m, d) :: cd2) by simp [syncL, hnm, hlt]]
        by_cases hk : k = n
        · subst hk
          have hnone : lookupN ((m, d) :: cd2) k = none := by
            simp only [lookupN, if_neg hnm]
            exact lookupN_none_of_lt fun y hy => nameLt_trans hlt (hcd.1 y hy)
          rw [hnone]
          have h1 : lookupN ((k, e) :: cs2) k = some e := by simp [lookupN]
          rw [h1]
          simp [lookupN, syncOpt]
        · simp only [lookupN, if_neg hk]
          exact syncL_lookup merge cs2 ((m, d) :: cd2) hcs.2 hd k
      · have hmn : nameLt m n = true := by
          rcases nameLt_tri n m with h1 | h2 | h3
          · exact absurd h1 (by simp [hlt])
          · exact absurd h2 hnm
          · exact h3
        cases merge with
        | true =>
          rw [show syncL true ((n, e) :: cs2) ((m, d) :: cd2) =
              (m, d) :: syncL true ((n, e) :: cs2) cd2 by simp [syncL, hnm, hlt]]
          by_cases hk : k = m
          · subst hk
            have hnone : lookupN ((n, e) :: cs2) k = none := by
              simp only [lookupN, if_neg (fun he : k = n => hnm he.symm)]
              exact lookupN_none_of_lt fun y hy => nameLt_trans hmn (hcs.1 y hy)
            rw [hnone]
            have h1 : lookupN ((k, d) :: cd2) k = some d := by simp [lookupN]
            rw [h1]
            simp [lookupN, syncOpt]
          · simp only [lookupN, if_neg hk]
            rw [syncL_lookup true ((n, e) :: cs2) cd2 hs hcd.2 k]
            simp [lookupN]
        | false =>
          rw [show syncL false ((n, e) :: cs2) ((m, d) :: cd2) =
              syncL false ((n, e) :: cs2) cd2 by simp [syncL, hnm, hlt]]
          rw [syncL_lookup false ((n, e) :: cs2) cd2 hs hcd.2 k]
          by_cases hk : k = m
          · subst hk
            have hnone1 : lookupN ((n, e) :: cs2) k = none := by
              simp only [lookupN, if_neg (fun he : k = n => hnm he.symm)]
              exact lookupN_none_of_lt fun y hy => nameLt_trans hmn (hcs.1 y hy)
            have hnone2 : lookupN cd2 k = none :=
              lookupN_none_of_lt hcd.1
            rw [hnone1, hnone2]
            have h1 : lookupN ((k, d) :: cd2) k = some d := by simp [lookupN]
            rw [h1]
            simp [syncOpt]
          · rw [show lookupN ((m, d) :: cd2) k = lookupN cd2 k by
              simp [lookupN, if_neg hk]]
termination_by cs cd => sizeOf cs + sizeOf cd
decreasing_by all_goals (simp_wf; try omega)

theorem wfL_cons_iff (x : Name × Entry) (rest : CList) :
    wfL (x :: rest) = true ↔ wfE x.2 = true ∧ wfL rest = true := by
  obtain ⟨n, e⟩ := x
  rw [wfL, Bool.and_eq_true]

mutual
theorem syncE_wf (merge : Bool) :
    ∀ (s d : Entry), wfE s = true → wfE d = true → wfE (syncE merge s d) = true
  | .file a b, .file c e, _, _ => by
    rw [show syncE merge (.file a b) (.file c e) =
        (if a ≠ c ∨ b > e then .file a b else .file c e) by simp [syncE]]
    split_ifs <;> rfl
  | .dir cs, .dir cd, hs, hd => by
    rw [show syncE merge (.dir cs) (.dir cd) = .dir (syncL merge cs cd) by
      simp [syncE]]
    rw [wfE, Bool.and_eq_true] at hs hd ⊢
    exact syncL_wf merge cs cd hs.1 hs.2 hd.1 hd.2
  | .file a b, .dir cd, _, _ => by
    rw [show syncE merge (.file a b) (.dir cd) = .file a b by simp [syncE]]
    rfl
  | .file a b, .special, _, _ => by
    rw [show syncE merge (.file a b) .special = .file a b by simp [syncE]]
    rfl
  | .file a b, .brokenLink, _, _ => by
    rw [show syncE merge (.file a b) .brokenLink = .file a b by simp [syncE]]
    rfl

  | .dir cs, .file c e, hs, _ => by
    rw [show syncE merge (.dir cs) (.file c e) = .dir cs by simp [syncE]]
    exact hs
  | .dir cs, .special, hs, _ => by
    rw [show syncE merge (.dir cs) .special = .dir cs by simp [syncE]]
    exact hs
  | .dir cs, .brokenLink, hs, _ => by
    rw [show syncE merge (.dir cs) .brokenLink = .dir cs by simp [syncE]]
    exact hs
  | .special, d, _, _ => by
    rw [show syncE merge .special d = .special by
      cases d <;> simp [syncE]]
    rfl
  | .brokenLink, d, _, _ => by
    rw [show syncE merge .brokenLink d = .brokenLink by
      cases d <;> simp [syncE]]
    rfl
termination_by s d => sizeOf s + sizeOf d
decreasing_by all_goals (simp_wf; try omega)

theorem syncL_wf (merge : Bool) :
    ∀ (cs cd : CList), sortedKeysB cs = true → wfL cs = true →
      sortedKeysB cd = true → wfL cd = true →
      sortedKeysB (syncL merge cs cd) = true ∧ wfL (syncL merge cs cd) = true
  | [], cd, _, _, hsd, hwd => by
    cases merge with
    | true =>
      rw [show syncL true [] cd = cd by simp [syncL]]
      exact ⟨hsd, hwd⟩
    | false =>
      rw [show syncL false [] cd = [] by simp [syncL]]
      exact ⟨rfl, rfl⟩
  | (n, e) :: cs2, [], hss, hws, _, _ => by
    rw [show syncL merge ((n, e) :: cs2) [] = (n, e) :: cs2 by simp [syncL]]
    exact ⟨hss, hws⟩
  | (n, e) :: cs2, (m, d) :: cd2, hss, hws, hsd, hwd => by
    have hcs := (sortedKeysB_cons (n, e) cs2).mp hss
    have hcd := (sortedKeysB_cons (m, d) cd2).mp hsd
    have hwse := (wfL_cons_iff (n, e) cs2).mp hws
    have hwde := (wfL_cons_iff (m, d) cd2).mp hwd
    by_cases hnm : n = m
    · subst hnm
      rw [show syncL merge ((n, e) :: cs2) ((n, d) :: cd2) =
          (n, syncE merge e d) :: syncL merge cs2 cd2 by simp [syncL]]
      obtain ⟨ih1, ih2⟩ := syncL_wf merge cs2 cd2 hcs.2 hwse.2 hcd.2 hwde.2
      constructor
      · refine (sortedKeysB_cons _ _).mpr ⟨?_, ih1⟩
        intro y hy
        rcases syncL_names merge cs2 cd2 y hy with h1 | h2
        · obtain ⟨z, hz, hzy⟩ := List.mem_map.mp h1
          rw [← hzy]
          exact hcs.1 z hz
        · obtain ⟨z, hz, hzy⟩ := List.mem_map.mp h2
          rw [← hzy]
          exact hcd.1 z hz
      · refine (wfL_cons_iff _ _).mpr ⟨?_, ih2⟩
        exact syncE_wf merge e d hwse.1 hwde.1
    · by_cases hlt : nameLt n m = true
      · rw [show syncL merge ((n, e) :: cs2) ((m, d) :: cd2) =
            (n, e) :: syncL merge cs2 ((m, d) :: cd2) by simp [syncL, hnm, hlt]]
        obtain ⟨ih1, ih2⟩ := syncL_wf merge cs2 ((m, d) :: cd2) hcs.2 hwse.2 hsd hwd
        constructor
        · refine (sortedKeysB_cons _ _).mpr ⟨?_, ih1⟩
          intro y hy
          rcases syncL_names merge cs2 ((m, d) :: cd2) y hy with h1 | h2
          · obtain ⟨z, hz, hzy⟩ := List.mem_map.mp h1
            rw [← hzy]
            exact hcs.1 z hz
          · simp only [keysC, List.map_cons, List.mem_cons] at h2
            rcases h2 with h3 | h4
            · rw [h3]; exact hlt
            · obtain ⟨z, hz, hzy⟩ := List.mem_map.mp h4
              rw [← hzy]
              exact nameLt_trans hlt (hcd.1 z hz)
        · exact (wfL_cons_iff _ _).mpr ⟨hwse.1, ih2⟩
      · have hmn : nameLt m n = true := by
          rcases nameLt_tri n m with h1 | h2 | h3
          · exact absurd h1 (by simp [hlt])
          · exact absurd h2 hnm
          · exact h3
        cases merge with
        | true =>
          rw [show syncL true ((n, e) :: cs2) ((m, d) :: cd2) =
              (m, d) :: syncL true ((n, e) :: cs2) cd2 by simp [syncL, hnm, hlt]]
          obtain ⟨ih1, ih2⟩ := syncL_wf true ((n, e) :: cs2) cd2 hss hws hcd.2 hwde.2
          constructor
          · refine (sortedKeysB_cons _ _).mpr ⟨?_, ih1⟩
            intro y hy
            rcases syncL_names true ((n, e) :: cs2) cd2 y hy with h1 | h2
            · simp only [keysC, List.map_cons, List.mem_cons] at h1
              rcases h1 with h3 | h4
              · rw [h3]; exact hmn
              · obtain ⟨z, hz, hzy⟩ := List.mem_map.mp h4
                rw [← hzy]
                exact nameLt_trans hmn (hcs.1 z hz)
            · obtain ⟨z, hz, hzy⟩ := List.mem_map.mp h2
              rw [← hzy]
              exact hcd.1 z hz
          · exact (wfL_cons_iff _ _).mpr ⟨hwde.1, ih2⟩
        | false =>
          rw [show syncL false ((n, e) :: cs2) ((m, d) :: cd2) =
              syncL false ((n, e) :: cs2) cd2 by simp [syncL, hnm, hlt]]
          exact syncL_wf false ((n, e) :: cs2) cd2 hss hws hcd.2 hwde.2
termination_by cs cd => sizeOf cs + sizeOf cd
decreasing_by all_goals (simp_wf; try omega)
end

theorem syncE_false_none :
    ∀ (q : Path) (s d : Entry), wfE s = true → wfE d = true →
      lookupE s q = none → lookupE (syncE false s d) q = none := by
  intro q
  induction q with
  | nil =>
    intro s d _ _ h
    simp [lookupE] at h
  | cons n r ih =>
    intro s d hws hwd h
    cases s with
    | file a b =>
      cases d with
      | file c e =>
        rw [show syncE false (.file a b) (.file c e) =
            (if a ≠ c ∨ b > e then .file a b else .file c e) by simp [syncE]]
        split_ifs <;> simp [lookupE]
      | dir cd =>
        rw [show syncE false (.file a b) (.dir cd) = .file a b by simp [syncE]]
        simp [lookupE]
      | special =>
        rw [show syncE false (.file a b) .special = .file a b by simp [syncE]]
        simp [lookupE]
      | brokenLink =>
        rw [show syncE false (.file a b) .brokenLink = .file a b by simp [syncE]]
        simp [lookupE]
    | special =>
      rw [show syncE false .special d = .special by cases d <;> simp [syncE]]
      simp [lookupE]
    | brokenLink =>
      rw [show syncE false .brokenLink d = .brokenLink by cases d <;> simp [syncE]]
      simp [lookupE]
    | dir cs =>
      cases d with
      | file c e =>
        rw [show syncE false (.dir cs) (.file c e) = .dir cs by simp [syncE]]
        exact h
      | special =>
        rw [show syncE false (.dir cs) .special = .dir cs by simp [syncE]]
        exact h
      | brokenLink =>
        rw [show syncE false (.dir cs) .brokenLink = .dir cs by simp [syncE]]
        exact h
      | dir cd =>
        rw [show syncE false (.dir cs) (.dir cd) = .dir (syncL false cs cd) by
          simp [syncE]]
        rw [lookupE] at h ⊢
        rw [syncL_lookup false cs cd (wf_dir_sorted hws) (wf_dir_sorted hwd) n]
        cases hcs : lookupN cs n with
        | none =>
          cases hcd : lookupN cd n with
          | some d2 => simp [syncOpt]
          | none => simp [syncOpt]
        | some c =>
          rw [hcs] at h
          have hcr : lookupE c r = none := by simpa using h
          cases hcd : lookupN cd n with
          | some d2 =>
            have hrec := ih c d2 (wf_dir_child hws hcs) (wf_dir_child hwd hcd) hcr
            simpa [syncOpt] using hrec
          | none =>
            simpa [syncOpt] using hcr

/-! Helper lemmas for listings filtered by a name predicate. -/

theorem containsN_iff (l : List Name) (a : Name) : l.contains a = true ↔ a ∈ l := by
  induction l with
  | nil => simp
  | cons b rest ih =>
    rw [List.contains_cons, Bool.or_eq_true, beq_iff_eq, ih]
    exact (List.mem_cons).symm

theorem keysC_cons (n : Name) (e : Entry) (rest : CList) :
    keysC ((n, e) :: rest) = n :: keysC rest := rfl

theorem any_name_eq (k : Name) (f : Name → Bool) :
    ∀ items : List (Name × Entry),
      (items.any fun x => x.1 == k && f x.1) = ((keysC items).contains k && f k)
  | [] => by simp [keysC]
  | (n, e) :: rest => by
    have ih := any_name_eq k f rest
    rw [List.any_cons, keysC_cons, List.contains_cons]
    rw [show (rest.any fun x => x.1 == k && f x.1) =
        ((keysC rest).contains k && f k) from ih]
    by_cases hnk : n = k
    · subst hnk
      cases hf : f n <;> cases hcc : (keysC rest).contains n <;> simp [hf, hcc]
    · have h1 : (n == k) = false := by simp [hnk]
      have h2 : (k == n) = false := by simp [Ne.symm hnk]
      simp [h1, h2]

theorem keysC_filter_name_mem (ch : CList) (f : Name → Bool) (k : Name) :
    k ∈ keysC (ch.filter fun x => f x.1) ↔ k ∈ keysC ch ∧ f k = true := by
  rw [← lookupN_isSome_iff, lookupN_filter_name]
  by_cases hf : f k = true
  · rw [if_pos hf, lookupN_isSome_iff]
    simp [hf]
  · rw [if_neg hf]
    simp [hf]

theorem mem_filter_entry {ch : CList} {f : Name × Entry → Bool} {x : Name × Entry}
    (h : x ∈ ch.filter f) : x ∈ ch :=
  (List.mem_filter.mp h).1

/-! The combined characterization of one failure-free-listing level over
well-formed, kind-compatible listings with a proper source side. -/

theorem levelSync_good (orc : Oracles) (p : Path) (merge : Bool) (sCh dCh : CList)
    (hwS : wfE (.dir sCh) = true) (hwD : wfE (.dir dCh) = true)
    (hpS : properE (.dir sCh) = true)
    (hcomp : compat (.dir sCh) (.dir dCh) = true)
    (hFS : ∀ n, orc.failStat (p ++ [n]) = false) :
    (levelSync orc p merge sCh dCh).2.2.2.1 = none
    ∧ (levelSync orc p merge sCh dCh).2.2.2.2 =
        ((sCh.filter fun x => (keysC dCh).contains x.1).filter
          (fun x => isDirB x.2)).map Prod.fst
    ∧ (∀ k, lookupN sCh k = none →
        lookupN (levelSync orc p merge sCh dCh).1 k =
          if merge then lookupN dCh k
          else if orc.failDel (p ++ [k]) then lookupN dCh k else none)
    ∧ (∀ k e, lookupN sCh k = some e → lookupN dCh k = none →
        lookupN (levelSync orc p merge sCh dCh).1 k =
          if orc.failCopy (p ++ [k]) then none else some e)
    ∧ (∀ k s t s2 t2, lookupN sCh k = some (.file s t) →
        lookupN dCh k = some (.file s2 t2) →
        lookupN (levelSync orc p merge sCh dCh).1 k =
          if (s ≠ s2 ∨ t > t2) ∧ orc.failCopy (p ++ [k]) = false
          then some (.file s t) else some (.file s2 t2))
    ∧ (∀ k c d2, lookupN sCh k = some (.dir c) → lookupN dCh k = some d2 →
        lookupN (levelSync orc p merge sCh dCh).1 k = some d2)
    ∧ ((levelSync orc p merge sCh dCh).2.1 =
        (if merge then [] else
          (dCh.filter fun x => !((keysC sCh).contains x.1)).map fun x =>
            if orc.failDel (p ++ [x.1]) then Op.delFailed (p ++ [x.1])
            else Op.deleted (p ++ [x.1]) (isDirB x.2)) ++
        ((sCh.filter fun x => !((keysC dCh).contains x.1)).map fun x =>
          if orc.failCopy (p ++ [x.1]) then Op.copyFailed (p ++ [x.1])
          else Op.copied (p ++ [x.1])) ++
        ((sCh.filter fun x => (keysC dCh).contains x.1).filterMap
          (sharedOpOf orc p dCh)))
    ∧ ((levelSync orc p merge sCh dCh).2.2.1 =
        ((if merge then false else
          (dCh.filter fun x => !((keysC sCh).contains x.1)).any fun x =>
            orc.failDel (p ++ [x.1])) ||
         ((sCh.filter fun x => !((keysC dCh).contains x.1)).any fun x =>
           orc.failCopy (p ++ [x.1])) ||
         ((sCh.filter fun x => (keysC dCh).contains x.1).any
           (sharedFlagOf orc p dCh))))
    ∧ (sortedKeysB (levelSync orc p merge sCh dCh).1 = true
        ∧ wfL (levelSync orc p merge sCh dCh).1 = true) := by
  have hsS := wf_dir_sorted hwS
  have hsD := wf_dir_sorted hwD
  have hndS : (keysC sCh).Nodup := sorted_nodup_keys hsS
  have hndD : (keysC dCh).Nodup := sorted_nodup_keys hsD
  have hphase1 : (if merge then (dCh, ([] : List Op), false)
      else runDels orc p (dCh.filter fun x => !((keysC sCh).contains x.1)) dCh) =
      runDels orc p
        (if merge then [] else dCh.filter fun x => !((keysC sCh).contains x.1))
        dCh := by
    cases merge <;> rfl
  have hLS : levelSync orc p merge sCh dCh =
      (let r1 := runDels orc p
        (if merge then [] else dCh.filter fun x => !((keysC sCh).contains x.1)) dCh
       match runCopies orc p (sCh.filter fun x => !((keysC dCh).contains x.1)) r1.1 with
       | (ch2, ops2, flag2, some e) => (ch2, r1.2.1 ++ ops2, r1.2.2 || flag2, some e, [])
       | (ch2, ops2, flag2, none) =>
         let r3 := runShared orc p (sCh.filter fun x => (keysC dCh).contains x.1) ch2
         (r3.1, r1.2.1 ++ ops2 ++ r3.2.1, r1.2.2 || flag2 || r3.2.2.1,
           r3.2.2.2.1, r3.2.2.2.2)) := by
    rw [levelSync, hphase1]
  -- phase 1 facts
  have hch1s : sortedKeysB (runDels orc p
      (if merge then [] else dCh.filter fun x => !((keysC sCh).contains x.1)) dCh).1 =
      true := runDels_sorted orc p _ dCh hsD
  have hch1w : wfL (runDels orc p
      (if merge then [] else dCh.filter fun x => !((keysC sCh).contains x.1)) dCh).1 =
      true := by
    refine runDels_wfL orc p _ dCh ?_
    rw [wfE, Bool.and_eq_true] at hwD
    exact hwD.2
  have hch1lk : ∀ k, lookupN (runDels orc p
      (if merge then [] else dCh.filter fun x => !((keysC sCh).contains x.1)) dCh).1 k =
      if (if merge then ([] : List (Name × Entry))
          else dCh.filter fun x => !((keysC sCh).contains x.1)).any
          (fun x => x.1 == k && !orc.failDel (p ++ [x.1])) then none
      else lookupN dCh k :=
    fun k => runDels_lookup orc p _ dCh hsD k
  have hch1frame : ∀ k, k ∈ keysC sCh → lookupN (runDels orc p
      (if merge then [] else dCh.filter fun x => !((keysC sCh).contains x.1))
        dCh).1 k = lookupN dCh k := by
    intro k hk
    rw [hch1lk k]
    cases merge with
    | true => simp
    | false =>
      rw [if_neg ?_]
      rw [show (if false = true then ([] : List (Name × Entry))
          else dCh.filter fun x => !((keysC sCh).contains x.1)) =
          dCh.filter fun x => !((keysC sCh).contains x.1) by simp]
      rw [any_name_eq k (fun n => !orc.failDel (p ++ [n]))]
      intro hcon
      rw [Bool.and_eq_true] at hcon
      have h2 := (keysC_filter_name_mem dCh (fun n => !((keysC sCh).contains n)) k).mp
        ((containsN_iff _ k).mp hcon.1)
      have hb : k ∉ keysC sCh := by simpa using h2.2
      exact hb hk
  -- phase 2
  rcases hRC : runCopies orc p (sCh.filter fun x => !((keysC dCh).contains x.1))
      (runDels orc p (if merge then []
        else dCh.filter fun x => !((keysC sCh).contains x.1)) dCh).1
    with ⟨ch2, ops2, flag2, err2⟩
  have h2ok : err2 = none := by
    have hok := runCopies_ok orc p
      (sCh.filter fun x => !((keysC dCh).contains x.1))
      (runDels orc p (if merge then []
        else dCh.filter fun x => !((keysC sCh).contains x.1)) dCh).1
      (fun x hx => by
        rw [properE] at hpS
        exact (properL_iff sCh).mp hpS x (mem_filter_entry hx))
    rw [hRC] at hok
    exact hok
  subst h2ok
  have hndSrcU : (keysC (sCh.filter fun x => !((keysC dCh).contains x.1))).Nodup :=
    keysC_filter_nodup _ hndS
  have hch2lk : ∀ k, lookupN ch2 k =
      match lookupN (sCh.filter fun x => !((keysC dCh).contains x.1)) k with
      | some e => if orc.failCopy (p ++ [k]) then
          lookupN (runDels orc p (if merge then []
            else dCh.filter fun x => !((keysC sCh).contains x.1)) dCh).1 k
        else some e
      | none => lookupN (runDels orc p (if merge then []
          else dCh.filter fun x => !((keysC sCh).contains x.1)) dCh).1 k := by
    intro k
    have := runCopies_lookup orc p
      (sCh.filter fun x => !((keysC dCh).contains x.1)) _ (by rw [hRC]) hndSrcU k
    rw [hRC] at this
    exact this
  have hch2s : sortedKeysB ch2 = true := by
    have := runCopies_sorted orc p
      (sCh.filter fun x => !((keysC dCh).contains x.1)) _ hch1s
    rw [hRC] at this
    exact this
  have hch2w : wfL ch2 = true := by
    have := runCopies_wfL orc p
      (sCh.filter fun x => !((keysC dCh).contains x.1)) _ ?_ hch1w
    · rw [hRC] at this
      exact this
    · intro x hx
      rw [wfE, Bool.and_eq_true] at hwS
      exact (wfL_iff sCh).mp hwS.2 x (mem_filter_entry hx)
  have hch2ops : ops2 = (sCh.filter fun x => !((keysC dCh).contains x.1)).map
      fun x => if orc.failCopy (p ++ [x.1]) then Op.copyFailed (p ++ [x.1])
        else Op.copied (p ++ [x.1]) := by
    have := runCopies_ops orc p
      (sCh.filter fun x => !((keysC dCh).contains x.1)) _ (by rw [hRC])
    rw [hRC] at this
    exact this
  have hch2flag : flag2 = (sCh.filter fun x => !((keysC dCh).contains x.1)).any
      fun x => orc.failCopy (p ++ [x.1]) := by
    have := runCopies_flag orc p
      (sCh.filter fun x => !((keysC dCh).contains x.1)) _ (by rw [hRC])
    rw [hRC] at this
    exact this
  -- shared lookups are untouched by phases 1 and 2
  have hch2shared : ∀ k, k ∈ keysC sCh → k ∈ keysC dCh →
      lookupN ch2 k = lookupN dCh k := by
    intro k hks hkd
    rw [hch2lk k]
    rw [show lookupN (sCh.filter fun x => !((keysC dCh).contains x.1)) k =
        (if !((keysC dCh).contains k) then lookupN sCh k else none) from
      lookupN_filter_name sCh (fun n => !((keysC dCh).contains n)) k]
    rw [if_neg ?_]
    · rw [hch1frame k hks]
    · simpa using hkd
  -- the H-items hypotheses for the shared loop
  have hHitems : ∀ x ∈ (sCh.filter fun x => (keysC dCh).contains x.1),
      statOk x.2 = true ∧ orc.failStat (p ++ [x.1]) = false ∧
      ∃ d, lookupN ch2 x.1 = some d ∧ statOk d = true ∧
        (isFileB x.2 = true → isFileB d = true) := by
    intro x hx
    obtain ⟨hxs, hxp⟩ := List.mem_filter.mp hx
    have hxkd : x.1 ∈ keysC dCh := (containsN_iff _ _).mp hxp
    have hxks : x.1 ∈ keysC sCh := List.mem_map_of_mem Prod.fst hxs
    obtain ⟨x1, x2⟩ := x
    have hlkS : lookupN sCh x1 = some x2 := lookupN_of_mem_nodup hndS hxs
    obtain ⟨d0, hd0⟩ : ∃ d0, lookupN dCh x1 = some d0 := by
      cases hld : lookupN dCh x1 with
      | some d0 => exact ⟨d0, rfl⟩
      | none =>
        rw [lookupN_none_iff] at hld
        exact absurd hxkd hld
    have hcpt : compat x2 d0 = true := compat_children hcomp hlkS hd0
    have hx2p : properE x2 = true := by
      rw [properE] at hpS
      exact (properL_iff sCh).mp hpS (x1, x2) hxs
    refine ⟨?_, hFS x1, d0, ?_, ?_, ?_⟩
    · cases x2 with
      | file s t => rfl
      | dir c => rfl
      | special => simp [properE] at hx2p
      | brokenLink => simp [properE] at hx2p
    · rw [hch2shared x1 hxks hxkd]
      exact hd0
    · cases x2 with
      | file s t =>
        cases d0 with
        | file s2 t2 => rfl
        | dir c => simp [compat] at hcpt
        | special => simp [compat] at hcpt
        | brokenLink => simp [compat] at hcpt
      | dir c =>
        cases d0 with
        | file s2 t2 => simp [compat] at hcpt
        | dir c2 => rfl
        | special => simp [compat] at hcpt
        | brokenLink => simp [compat] at hcpt
      | special => simp [properE] at hx2p
      | brokenLink => simp [properE] at hx2p
    · intro hf
      cases x2 with
      | file s t =>
        cases d0 with
        | file s2 t2 => rfl
        | dir c => simp [compat] at hcpt
        | special => simp [compat] at hcpt
        | brokenLink => simp [compat] at hcpt
      | dir c => simp [isFileB] at hf
      | special => simp [isFileB] at hf
      | brokenLink => simp [isFileB] at hf
  have hndShared : (keysC (sCh.filter fun x => (keysC dCh).contains x.1)).Nodup :=
    keysC_filter_nodup _ hndS
  have h3ok : (runShared orc p (sCh.filter fun x => (keysC dCh).contains x.1)
      ch2).2.2.2.1 = none :=
    runShared_ok orc p _ ch2 hndShared hHitems
  obtain ⟨mA, mB, mC, mD, mF, mG⟩ :=
    runShared_main orc p (sCh.filter fun x => (keysC dCh).contains x.1) ch2
      h3ok hndShared
  obtain ⟨h3s, h3w⟩ :=
    runShared_wf orc p (sCh.filter fun x => (keysC dCh).contains x.1) ch2 hch2s hch2w
  -- reduce the goal to the shared-loop results
  rw [hLS]
  simp only [hRC]
  refine ⟨h3ok, ?_, ?_, ?_, ?_, ?_, ?_, ?_, h3s, h3w⟩
  · rw [mA, List.filter_filter]
  · -- destination-only names
    intro k hknone
    have hknotS : k ∉ keysC sCh := by
      rw [← lookupN_none_iff]
      exact hknone
    have hkshared : k ∉ keysC (sCh.filter fun x => (keysC dCh).contains x.1) := by
      intro hmem
      exact hknotS
        ((keysC_filter_name_mem sCh (fun n => (keysC dCh).contains n) k).mp hmem).1
    have hsrcU : lookupN (sCh.filter fun x => !((keysC dCh).contains x.1)) k =
        none := by
      rw [show lookupN (sCh.filter fun x => !((keysC dCh).contains x.1)) k =
          (if !((keysC dCh).contains k) then lookupN sCh k else none) from
        lookupN_filter_name sCh (fun n => !((keysC dCh).contains n)) k]
      cases hc : (keysC dCh).contains k with
      | true => simp
      | false => simp [hknone]
    rw [mB k hkshared, hch2lk k, hsrcU, hch1lk k]
    cases merge with
    | true => simp
    | false =>
      rw [show (if false = true then ([] : List (Name × Entry))
          else dCh.filter fun x => !((keysC sCh).contains x.1)) =
          dCh.filter fun x => !((keysC sCh).contains x.1) by simp]
      rw [any_name_eq k (fun n => !orc.failDel (p ++ [n]))]
      cases hkd : lookupN dCh k with
      | some d0 =>
        have hkdm : k ∈ keysC dCh := mem_keysC_of_lookup hkd
        have hcon : (keysC (dCh.filter fun x =>
            !((keysC sCh).contains x.1))).contains k = true := by
          rw [containsN_iff]
          refine (keysC_filter_name_mem dCh
            (fun n => !((keysC sCh).contains n)) k).mpr ⟨hkdm, ?_⟩
          simpa using hknotS
        rw [hcon]
        cases hfd : orc.failDel (p ++ [k]) with
        | true => simp
        | false => simp
      | none =>
        have hkdm : k ∉ keysC dCh := (lookupN_none_iff dCh k).mp hkd
        have hcon : (keysC (dCh.filter fun x =>
            !((keysC sCh).contains x.1))).contains k = false := by
          cases hcc : (keysC (dCh.filter fun x =>
              !((keysC sCh).contains x.1))).contains k with
          | false => rfl
          | true =>
            have := ((keysC_filter_name_mem dCh
              (fun n => !((keysC sCh).contains n)) k).mp
                ((containsN_iff _ k).mp hcc)).1
            exact absurd this hkdm
        rw [hcon]
        cases hfd : orc.failDel (p ++ [k]) with
        | true => simp [hkd]
        | false => simp [hkd]
  · -- source-only names
    intro k e hkS hkD
    have hkdm : k ∉ keysC dCh := (lookupN_none_iff dCh k).mp hkD
    have hkshared : k ∉ keysC (sCh.filter fun x => (keysC dCh).contains x.1) := by
      intro hmem
      have h2 := (keysC_filter_name_mem sCh (fun n => (keysC dCh).contains n) k).mp hmem
      exact hkdm ((containsN_iff _ _).mp h2.2)
    have hsrcU : lookupN (sCh.filter fun x => !((keysC dCh).contains x.1)) k =
        some e := by
      rw [show lookupN (sCh.filter fun x => !((keysC dCh).contains x.1)) k =
          (if !((keysC dCh).contains k) then lookupN sCh k else none) from
        lookupN_filter_name sCh (fun n => !((keysC dCh).contains n)) k]
      cases hc : (keysC dCh).contains k with
      | true => exact absurd ((containsN_iff _ _).mp hc) hkdm
      | false => simp [hkS]
    rw [mB k hkshared, hch2lk k, hsrcU]
    have hchk1 : lookupN (runDels orc p (if merge then []
        else dCh.filter fun x => !((keysC sCh).contains x.1)) dCh).1 k =
        lookupN dCh k :=
      hch1frame k (mem_keysC_of_lookup hkS)
    cases hfc : orc.failCopy (p ++ [k]) with
    | true =>
      simp only [if_pos rfl]
      rw [hchk1, hkD]
    | false => simp
  · -- shared regular files
    intro k s t s2 t2 hkS hkD
    have hkks : k ∈ keysC sCh := mem_keysC_of_lookup hkS
    have hkkd : k ∈ keysC dCh := mem_keysC_of_lookup hkD
    have hlkSh : lookupN (sCh.filter fun x => (keysC dCh).contains x.1) k =
        some (.file s t) := by
      rw [show lookupN (sCh.filter fun x => (keysC dCh).contains x.1) k =
          (if (keysC dCh).contains k then lookupN sCh k else none) from
        lookupN_filter_name sCh (fun n => (keysC dCh).contains n) k,
        if_pos ((containsN_iff _ _).mpr hkkd), hkS]
    have hlk2 : lookupN ch2 k = some (.file s2 t2) := by
      rw [hch2shared k hkks hkkd]
      exact hkD
    exact mC k s t s2 t2 hlkSh hlk2
  · -- shared directories
    intro k c d2 hkS hkD
    have hkks : k ∈ keysC sCh := mem_keysC_of_lookup hkS
    have hkkd : k ∈ keysC dCh := mem_keysC_of_lookup hkD
    have hlkSh : lookupN (sCh.filter fun x => (keysC dCh).contains x.1) k =
        some (.dir c) := by
      rw [show lookupN (sCh.filter fun x => (keysC dCh).contains x.1) k =
          (if (keysC dCh).contains k then lookupN sCh k else none) from
        lookupN_filter_name sCh (fun n => (keysC dCh).contains n) k,
        if_pos ((containsN_iff _ _).mpr hkkd), hkS]
    rw [mD k (.dir c) hlkSh (by rfl)]
    rw [hch2shared k hkks hkkd]
    exact hkD
  · -- operations
    rw [mF, hch2ops]
    have hops1 : (runDels orc p (if merge then []
        else dCh.filter fun x => !((keysC sCh).contains x.1)) dCh).2.1 =
        (if merge then [] else
          (dCh.filter fun x => !((keysC sCh).contains x.1)).map fun x =>
            if orc.failDel (p ++ [x.1]) then Op.delFailed (p ++ [x.1])
            else Op.deleted (p ++ [x.1]) (isDirB x.2)) := by
      rw [runDels_ops orc p _ dCh]
      cases merge <;> simp
    rw [hops1]
    have hcongr : (sCh.filter fun x => (keysC dCh).contains x.1).filterMap
        (sharedOpOf orc p ch2) =
        (sCh.filter fun x => (keysC dCh).contains x.1).filterMap
          (sharedOpOf orc p dCh) := by
      refine filterMap_congr2 _ _ _ fun x hx => ?_
      obtain ⟨hxs, hxp⟩ := List.mem_filter.mp hx
      have hxkd : x.1 ∈ keysC dCh := (containsN_iff _ _).mp hxp
      have hxks : x.1 ∈ keysC sCh := List.mem_map_of_mem Prod.fst hxs
      rw [sharedOpOf, sharedOpOf, hch2shared x.1 hxks hxkd]
    rw [hcongr]
  · -- error flag
    rw [mG, hch2flag]
    have hflag1 : (runDels orc p (if merge then []
        else dCh.filter fun x => !((keysC sCh).contains x.1)) dCh).2.2 =
        (if merge then false else
          (dCh.filter fun x => !((keysC sCh).contains x.1)).any fun x =>
            orc.failDel (p ++ [x.1])) := by
      rw [runDels_flag orc p _ dCh]
      cases merge <;> simp
    rw [hflag1]
    have hcongr : (sCh.filter fun x => (keysC dCh).contains x.1).any
        (sharedFlagOf orc p ch2) =
        (sCh.filter fun x => (keysC dCh).contains x.1).any
          (sharedFlagOf orc p dCh) := by
      refine any_congr2 _ _ _ fun x hx => ?_
      obtain ⟨hxs, hxp⟩ := List.mem_filter.mp hx
      have hxkd : x.1 ∈ keysC dCh := (containsN_iff _ _).mp hxp
      have hxks : x.1 ∈ keysC sCh := List.mem_map_of_mem Prod.fst hxs
      rw [sharedFlagOf, sharedFlagOf, hch2shared x.1 hxks hxkd]
    rw [hcongr]

/-! Ancestry and disjointness facts used by the worklist invariants. -/

theorem anc_refl : ∀ p : Path, anc p p = true
  | [] => rfl
  | a :: r => by simp [anc, anc_refl r]

theorem anc_self_append : ∀ (p q : Path), anc p (p ++ q) = true
  | [], _ => rfl
  | a :: r, q => by simp [anc, anc_self_append r q]

theorem anc_trans : ∀ {a b c : Path}, anc a b = true → anc b c = true →
    anc a c = true
  | [], _, _, _, _ => rfl
  | _ :: _, [], _, h, _ => by simp [anc] at h
  | _ :: _, _ :: _, [], _, h2 => by simp [anc] at h2
  | x :: a, y :: b, z :: c, h, h2 => by
    simp only [anc, Bool.and_eq_true, beq_iff_eq] at h h2 ⊢
    exact ⟨h.1.trans h2.1, anc_trans h.2 h2.2⟩

theorem anc_length_le : ∀ {a b : Path}, anc a b = true → a.length ≤ b.length
  | [], _, _ => Nat.zero_le _
  | _ :: _, [], h => by simp [anc] at h
  | x :: a, y :: b, h => by
    simp only [anc, Bool.and_eq_true] at h
    simpa [List.length_cons] using Nat.succ_le_succ (anc_length_le h.2)

theorem anc_append_singleton_false (p : Path) (n : Name) :
    anc (p ++ [n]) p = false := by
  cases h : anc (p ++ [n]) p with
  | false => rfl
  | true =>
    have := anc_length_le h
    simp at this

theorem ne_append_singleton (p : Path) (n : Name) : p ++ [n] ≠ p := by
  intro h
  have := congrArg List.length h
  simp at this

theorem prefix_comparable : ∀ {a b c : Path}, anc a c = true → anc b c = true →
    anc a b = true ∨ anc b a = true
  | [], _, _, _, _ => Or.inl rfl
  | _ :: _, [], _, _, _ => Or.inr rfl
  | _ :: _, _ :: _, [], h, _ => by simp [anc] at h
  | x :: a, y :: b, z :: c, h, h2 => by
    simp only [anc, Bool.and_eq_true, beq_iff_eq] at h h2 ⊢
    rcases prefix_comparable h.2 h2.2 with h3 | h3
    · exact Or.inl ⟨h.1.trans h2.1.symm, h3⟩
    · exact Or.inr ⟨h2.1.trans h.1.symm, h3⟩

theorem disj_symm (p q : Path) : disj p q = disj q p := by
  rw [disj, disj, Bool.and_comm]

theorem disj_extend {p q : Path} (h : disj p q = true) (r : Path) :
    disj (p ++ r) q = true := by
  rw [disj, Bool.and_eq_true] at h ⊢
  simp only [Bool.not_eq_true'] at h ⊢
  constructor
  · cases ha : anc (p ++ r) q with
    | false => rfl
    | true =>
      have h3 := anc_trans (anc_self_append p r) ha
      rw [h.1] at h3
      exact h3.symm
  · cases ha : anc q (p ++ r) with
    | false => rfl
    | true =>
      rcases prefix_comparable ha (anc_self_append p r) with h3 | h3
      · rw [h.2] at h3
        exact h3.symm
      · rw [h.1] at h3
        exact h3.symm

theorem anc_cancel_left : ∀ (p a b : Path), anc (p ++ a) (p ++ b) = anc a b
  | [], _, _ => rfl
  | x :: p, a, b => by simp [anc, anc_cancel_left p a b]

theorem disj_sibling {a b : Name} (p : Path) (h : a ≠ b) :
    disj (p ++ [a]) (p ++ [b]) = true := by
  rw [disj, Bool.and_eq_true]
  constructor
  · rw [anc_cancel_left p [a] [b]]
    simp [anc, h]
  · rw [anc_cancel_left p [b] [a]]
    simp [anc, Ne.symm h]

/-! Size bookkeeping for the termination measure. -/

theorem sizeL_eq_sum : ∀ ch : CList, sizeL ch = (ch.map fun x => sizeE x.2).sum
  | [] => rfl
  | (n, e) :: rest => by simp [sizeL, sizeL_eq_sum rest]

theorem sublist_sum_le : ∀ {l1 l2 : List Nat}, List.Sublist l1 l2 → l1.sum ≤ l2.sum
  | _, _, List.Sublist.slnil => le_rfl
  | _, _, List.Sublist.cons a h => by
    have := sublist_sum_le h
    simp only [List.sum_cons]
    omega
  | _, _, List.Sublist.cons₂ a h => by
    have := sublist_sum_le h
    simp only [List.sum_cons]
    omega

theorem map_sum_congr {α : Type} (f g : α → Nat) :
    ∀ l : List α, (∀ a ∈ l, f a = g a) → (l.map f).sum = (l.map g).sum
  | [], _ => rfl
  | a :: l, h => by
    have h1 := h a (List.mem_cons_self _ _)
    have h2 := map_sum_congr f g l fun x hx => h x (List.mem_cons_of_mem _ hx)
    simp [h1, h2]

theorem lookupE_child {fs : Entry} {p : Path} {ch : CList}
    (h : lookupE fs p = some (.dir ch)) (n : Name) :
    lookupE fs (p ++ [n]) = lookupN ch n := by
  rw [lookupE_append, h, Option.some_bind]
  cases hc : lookupN ch n with
  | some c => simp [lookupE, hc]
  | none => simp [lookupE, hc]

theorem nodeAt_lookup_append {fs e : Entry} {p : Path}
    (h : lookupE fs p = some e) (r : Path) :
    nodeAt fs (p ++ r) = nodeAt e r := by
  rw [nodeAt, nodeAt, lookupE_append, h, Option.some_bind]

theorem containsP_iff (l : List Path) (a : Path) : l.contains a = true ↔ a ∈ l := by
  induction l with
  | nil => simp
  | cons b rest ih =>
    rw [List.contains_cons, Bool.or_eq_true, beq_iff_eq, ih]
    exact (List.mem_cons).symm

/-- The subdirectory names a shared-item loop collects form a sublist of the
directory-kind items, whatever the oracle does. -/
theorem runShared_nd_sublist (orc : Oracles) (p : Path) :
    ∀ (items : List (Name × Entry)) (ch : CList),
      List.Sublist (runShared orc p items ch).2.2.2.2
        ((items.filter fun x => isDirB x.2).map Prod.fst)
  | [], ch => by simp [runShared_nil]
  | (n, eS) :: rest, ch => by
    cases hS : statOk eS with
    | false =>
      rw [show runShared orc p ((n, eS) :: rest) ch =
          (ch, [], false, some .fileNotFound, []) by simp [runShared, hS]]
      simp
    | true =>
      cases hF : orc.failStat (p ++ [n]) with
      | true =>
        rw [runShared_failStat rest ch hS hF]
        simp
      | false =>
        cases hD : lookupN ch n with
        | none =>
          rw [runShared_missing rest ch hS hF hD]
          simp
        | some eD =>
          cases hDS : statOk eD with
          | false =>
            have heD : eD = .brokenLink := by
              cases eD with
              | brokenLink => rfl
              | file s t => simp [statOk] at hDS
              | dir c => simp [statOk] at hDS
              | special => simp [statOk] at hDS
            rw [heD] at hD
            rw [runShared_destBroken rest ch hS hF hD]
            simp
          | true =>
            cases eS with
            | brokenLink => simp [statOk] at hS
            | special =>
              rw [runShared_special rest ch hF hD hDS]
              simpa [isDirB] using runShared_nd_sublist orc p rest ch
            | dir dch =>
              rw [runShared_dir rest ch hF hD hDS]
              simp only [List.filter_cons, isDirB, List.map_cons]
              exact List.Sublist.cons₂ n (runShared_nd_sublist orc p rest ch)
            | file s t =>
              by_cases hc : s ≠ statSz eD ∨ t > statMt eD
              · cases hcp : orc.failCopy (p ++ [n]) with
                | true =>
                  rw [runShared_file_fail rest ch hF hD hDS hc hcp]
                  simpa [isDirB] using runShared_nd_sublist orc p rest ch
                | false =>
                  rcases hcs : copy2Shared n s t eD ch with ⟨ch2, er⟩
                  cases er with
                  | some e =>
                    rw [runShared_file_err rest ch hF hD hDS hc hcp hcs]
                    simp
                  | none =>
                    rw [runShared_file_ok rest ch hF hD hDS hc hcp hcs]
                    simpa [isDirB] using runShared_nd_sublist orc p rest ch2
              · rw [runShared_file_skip rest ch hF hD hDS hc]
                simpa [isDirB] using runShared_nd_sublist orc p rest ch

theorem levelSync_nd_sublist (orc : Oracles) (p : Path) (merge : Bool)
    (sCh dCh : CList) :
    List.Sublist (levelSync orc p merge sCh dCh).2.2.2.2
      (((sCh.filter fun x => (keysC dCh).contains x.1).filter
        fun x => isDirB x.2).map Prod.fst) := by
  rw [levelSync]
  rcases hRC : runCopies orc p (sCh.filter fun x => !((keysC dCh).contains x.1))
      (if merge then (dCh, ([] : List Op), false)
        else runDels orc p (dCh.filter fun x => !((keysC sCh).contains x.1)) dCh).1
    with ⟨ch2, ops2, flag2, err2⟩
  cases err2 with
  | some e => simp
  | none =>
    simp only
    exact runShared_nd_sublist orc p _ ch2

/-- Each iteration that hands back an updated worklist strictly decreases
the traversal measure. -/
theorem dir_comp_ok_meas {fsS fsD : Entry} {p : Path} {rest : List Path}
    {merge : Bool} {orc : Oracles} {fsD2 : Entry} {ops2 : List Op}
    {wl2 : List Path} {flag : Bool} (hwS : wfE fsS = true)
    (h : dir_comp fsS fsD p (p :: rest) merge orc = (fsD2, ops2, .ok (wl2, flag))) :
    measWl fsS wl2 < measWl fsS (p :: rest) := by
  rw [dir_comp] at h
  rcases hS : lookupE fsS p with _ | e
  · rw [hS] at h
    simp at h
  rw [hS] at h
  cases e with
  | file s t => simp at h
  | special => simp at h
  | brokenLink => simp at h
  | dir sCh =>
    simp only at h
    cases hfl : orc.failList p with
    | true => rw [hfl] at h; simp at h
    | false =>
      rw [hfl] at h
      simp only [Bool.false_eq_true, if_false] at h
      rcases hD : lookupE fsD p with _ | e2
      · rw [hD] at h
        simp at h
      rw [hD] at h
      cases e2 with
      | file s t => simp at h
      | special => simp at h
      | brokenLink => simp at h
      | dir dCh =>
        simp only at h
        rcases hL : levelSync orc p merge sCh dCh with ⟨ch3, ops, flag3, err, nd⟩
        rw [hL] at h
        cases err with
        | some e => simp at h
        | none =>
          simp only at h
          cases hct : ((nd.map (fun n => p ++ [n])).reverse ++ p :: rest).contains p with
          | false => rw [hct] at h; simp at h
          | true =>
            rw [hct] at h
            simp only [if_true] at h
            have hwl2 : wl2 = (nd.map (fun n => p ++ [n])).reverse ++ rest := by
              have h3 := (Prod.mk.injEq _ _ _ _).mp h
              have h4 := (Prod.mk.injEq _ _ _ _).mp h3.2
              have h5 := h4.2
              rw [Except.ok.injEq, Prod.mk.injEq] at h5
              rw [← h5.1]
              rw [List.erase_append_right _ ?_, List.erase_cons_head]
              intro hmem
              rw [List.mem_reverse] at hmem
              obtain ⟨n, _, hn⟩ := List.mem_map.mp hmem
              exact ne_append_singleton p n hn
            -- bound the total size of the discovered subdirectories
            have hwS2 : wfE (.dir sCh) = true := wf_lookupE hwS hS
            have hnd : List.Sublist nd
                (((sCh.filter fun x => (keysC dCh).contains x.1).filter
                  fun x => isDirB x.2).map Prod.fst) := by
              have := levelSync_nd_sublist orc p merge sCh dCh
              rw [hL] at this
              exact this
            have hlsub : List.Sublist
                ((sCh.filter fun x => (keysC dCh).contains x.1).filter
                  fun x => isDirB x.2) sCh :=
              (List.filter_sublist _).trans (List.filter_sublist _)
            have hsum : ((nd.map fun n => sizeAtE fsS (p ++ [n])).sum ≤ sizeL sCh) := by
              calc (nd.map fun n => sizeAtE fsS (p ++ [n])).sum
                  ≤ ((((sCh.filter fun x => (keysC dCh).contains x.1).filter
                      fun x => isDirB x.2).map Prod.fst).map
                        fun n => sizeAtE fsS (p ++ [n])).sum :=
                    sublist_sum_le (List.Sublist.map _ hnd)
                _ = (((sCh.filter fun x => (keysC dCh).contains x.1).filter
                      fun x => isDirB x.2).map
                        ((fun n => sizeAtE fsS (p ++ [n])) ∘ Prod.fst)).sum := by
                    rw [List.map_map]
                _ = (((sCh.filter fun x => (keysC dCh).contains x.1).filter
                      fun x => isDirB x.2).map fun x => sizeE x.2).sum := by
                    refine map_sum_congr _ _ _ fun x hx => ?_
                    have hxs : x ∈ sCh := hlsub.mem hx
                    have hlk : lookupN sCh x.1 = some x.2 :=
                      lookupN_of_mem_nodup (sorted_nodup_keys
                        (wf_dir_sorted hwS2)) hxs
                    show sizeAtE fsS (p ++ [x.1]) = sizeE x.2
                    rw [sizeAtE, lookupE_child hS x.1, hlk]
                _ ≤ (sCh.map fun x => sizeE x.2).sum :=
                    sublist_sum_le (List.Sublist.map (fun x => sizeE x.2) hlsub)
                _ = sizeL sCh := (sizeL_eq_sum sCh).symm
            rw [hwl2]
            rw [measWl, measWl, List.map_append, List.sum_append, List.map_cons,
              List.sum_cons, List.map_reverse, List.sum_reverse, List.map_map]
            have hszp : sizeAtE fsS p = 1 + sizeL sCh := by
              rw [sizeAtE, hS]
              rfl
            rw [hszp]
            have hfin : ((nd.map (sizeAtE fsS ∘ fun n => p ++ [n])).sum ≤
                sizeL sCh) := by
              have he : (nd.map (sizeAtE fsS ∘ fun n => p ++ [n])) =
                  (nd.map fun n => sizeAtE fsS (p ++ [n])) := rfl
              rw [he]
              exact hsum
            omega

/-- With fuel exceeding the measure the loop never runs out: every
iteration either finishes, crashes, or strictly shrinks the measure. -/
theorem runFuel_not_outOfFuel (fsS : Entry) (merge : Bool) (orc : Oracles)
    (hwS : wfE fsS = true) :
    ∀ (fuel : Nat) (fsD : Entry) (wl : List Path) (ops : List Op) (inf : Bool),
      measWl fsS wl < fuel →
      runFuel fsS merge orc fuel fsD wl ops inf ≠ .outOfFuel
  | 0, _, _, _, _, hm => by omega
  | fuel + 1, fsD, [], ops, inf, _ => by
    rw [runFuel]
    intro hcon
    exact RunResult.noConfusion hcon
  | fuel + 1, fsD, p :: rest, ops, inf, hm => by
    rw [runFuel]
    rcases hd : dir_comp fsS fsD p (p :: rest) merge orc with ⟨fsD2, ops2, r⟩
    cases r with
    | error e =>
      simp only
      intro hcon
      exact RunResult.noConfusion hcon
    | ok wf2 =>
      obtain ⟨wl2, flag⟩ := wf2
      simp only
      refine runFuel_not_outOfFuel fsS merge orc hwS fuel fsD2 wl2 _ _ ?_
      have := dir_comp_ok_meas hwS hd
      omega

/-! The reference synchronization fixes already-synced trees. -/

mutual
theorem syncE_self (merge : Bool) : ∀ e : Entry, syncE merge e e = e
  | .file a b => by
    rw [show syncE merge (.file a b) (.file a b) =
        (if a ≠ a ∨ b > b then .file a b else .file a b) by simp [syncE]]
    split_ifs <;> rfl
  | .dir cs => by
    rw [show syncE merge (.dir cs) (.dir cs) = .dir (syncL merge cs cs) by
      simp [syncE]]
    rw [syncL_self merge cs]
  | .special => by
    rw [show syncE merge .special .special = .special by simp [syncE]]
  | .brokenLink => by
    rw [show syncE merge .brokenLink .brokenLink = .brokenLink by simp [syncE]]
termination_by e => sizeOf e
decreasing_by all_goals (simp_wf; try omega)

theorem syncL_self (merge : Bool) : ∀ cs : CList, syncL merge cs cs = cs
  | [] => by cases merge <;> simp [syncL]
  | (n, e) :: cs2 => by
    rw [show syncL merge ((n, e) :: cs2) ((n, e) :: cs2) =
        (n, syncE merge e e) :: syncL merge cs2 cs2 by simp [syncL]]
    rw [syncE_self merge e, syncL_self merge cs2]
termination_by cs => sizeOf cs
decreasing_by all_goals (simp_wf; try omega)
end

theorem compatL_of_forall : ∀ {cs cd : CList},
    (∀ x ∈ cs, ∀ e2, lookupN cd x.1 = some e2 → compat x.2 e2 = true) →
    compatL cs cd = true
  | [], _, _ => rfl
  | (n, e) :: cs2, cd, h => by
    rw [compatL, Bool.and_eq_true]
    refine ⟨?_, compatL_of_forall fun x hx => h x (List.mem_cons_of_mem _ hx)⟩
    cases hlk : lookupN cd n with
    | none => rfl
    | some e2 => exact h (n, e) (List.mem_cons_self _ _) e2 hlk

theorem compat_syncE_aux : ∀ (N : Nat) (merge : Bool) (e d : Entry),
    sizeE e ≤ N → properE e = true → wfE e = true → wfE d = true →
    compat e (syncE merge e d) = true
  | 0, _, e, _, hN, _, _, _ => by
    have := sizeE_pos e
    omega
  | N + 1, merge, .file a b, d, _, _, _, _ => by
    cases d with
    | file c e' =>
      rw [show syncE merge (.file a b) (.file c e') =
          (if a ≠ c ∨ b > e' then .file a b else .file c e') by simp [syncE]]
      split_ifs <;> rfl
    | dir cd =>
      rw [show syncE merge (.file a b) (.dir cd) = .file a b by simp [syncE]]
      rfl
    | special =>
      rw [show syncE merge (.file a b) .special = .file a b by simp [syncE]]
      rfl
    | brokenLink =>
      rw [show syncE merge (.file a b) .brokenLink = .file a b by simp [syncE]]
      rfl
  | N + 1, merge, .special, d, _, hp, _, _ => by simp [properE] at hp
  | N + 1, merge, .brokenLink, d, _, hp, _, _ => by simp [properE] at hp
  | N + 1, merge, .dir cs, d, hN, hp, hw, hwd => by
    have hsz : ∀ x ∈ cs, sizeE x.2 ≤ N := by
      intro x hx
      have := sizeE_mem_le hx
      rw [sizeE] at hN
      omega
    have hnd := sorted_nodup_keys (wf_dir_sorted hw)
    have hmem : ∀ x ∈ cs, properE x.2 = true ∧ wfE x.2 = true := by
      intro x hx
      rw [properE] at hp
      rw [wfE, Bool.and_eq_true] at hw
      exact ⟨(properL_iff cs).mp hp x hx, (wfL_iff cs).mp hw.2 x hx⟩
    cases d with
    | dir cd =>
      rw [show syncE merge (.dir cs) (.dir cd) = .dir (syncL merge cs cd) by
        simp [syncE]]
      rw [compat]
      refine compatL_of_forall fun x hx e2 hlk => ?_
      rw [syncL_lookup merge cs cd (wf_dir_sorted hw) (wf_dir_sorted hwd) x.1,
        lookupN_of_mem_nodup hnd (by exact hx : (x.1, x.2) ∈ cs)] at hlk
      cases hxd : lookupN cd x.1 with
      | some d2 =>
        rw [hxd] at hlk
        rw [show syncOpt merge (some x.2) (some d2) = some (syncE merge x.2 d2)
          from rfl] at hlk
        rw [← Option.some.inj hlk]
        exact compat_syncE_aux N merge x.2 d2 (hsz x hx) (hmem x hx).1 (hmem x hx).2
          (wf_dir_child hwd hxd)
      | none =>
        rw [hxd] at hlk
        rw [show syncOpt merge (some x.2) none = some x.2 from rfl] at hlk
        rw [← Option.some.inj hlk]
        nth_rewrite 2 [← syncE_self merge x.2]
        exact compat_syncE_aux N merge x.2 x.2 (hsz x hx) (hmem x hx).1 (hmem x hx).2
          (hmem x hx).2
    | file c e' =>
      rw [show syncE merge (.dir cs) (.file c e') = .dir cs by simp [syncE]]
      rw [compat]
      refine compatL_of_forall fun x hx e2 hlk => ?_
      rw [lookupN_of_mem_nodup hnd (by exact hx : (x.1, x.2) ∈ cs)] at hlk
      rw [← Option.some.inj hlk]
      nth_rewrite 2 [← syncE_self merge x.2]
      exact compat_syncE_aux N merge x.2 x.2 (hsz x hx) (hmem x hx).1 (hmem x hx).2
        (hmem x hx).2
    | special =>
      rw [show syncE merge (.dir cs) .special = .dir cs by simp [syncE]]
      rw [compat]
      refine compatL_of_forall fun x hx e2 hlk => ?_
      rw [lookupN_of_mem_nodup hnd (by exact hx : (x.1, x.2) ∈ cs)] at hlk
      rw [← Option.some.inj hlk]
      nth_rewrite 2 [← syncE_self merge x.2]
      exact compat_syncE_aux N merge x.2 x.2 (hsz x hx) (hmem x hx).1 (hmem x hx).2
        (hmem x hx).2
    | brokenLink =>
      rw [show syncE merge (.dir cs) .brokenLink = .dir cs by simp [syncE]]
      rw [compat]
      refine compatL_of_forall fun x hx e2 hlk => ?_
      rw [lookupN_of_mem_nodup hnd (by exact hx : (x.1, x.2) ∈ cs)] at hlk
      rw [← Option.some.inj hlk]
      nth_rewrite 2 [← syncE_self merge x.2]
      exact compat_syncE_aux N merge x.2 x.2 (hsz x hx) (hmem x hx).1 (hmem x hx).2
        (hmem x hx).2

theorem compat_syncE (merge : Bool) (e d : Entry) (hp : properE e = true)
    (hw : wfE e = true) (hwd : wfE d = true) :
    compat e (syncE merge e d) = true :=
  compat_syncE_aux (sizeE e) merge e d le_rfl hp hw hwd

/-- In merge mode the reference synchronization keeps every
destination-only subtree byte for byte, provided the trees are
kind-compatible. -/
theorem syncE_true_preserve : ∀ (q : Path) (s d : Entry) (e : Entry),
    wfE s = true → wfE d = true → compat s d = true →
    lookupE s q = none → lookupE d q = some e →
    lookupE (syncE true s d) q = some e := by
  intro q
  induction q with
  | nil =>
    intro s d e _ _ _ h
    simp [lookupE] at h
  | cons n r ih =>
    intro s d e hws hwd hc h hd
    cases s with
    | special => simp [compat] at hc
    | brokenLink => simp [compat] at hc
    | file a b =>
      cases d with
      | file c e' => simp [lookupE] at hd
      | dir cd => simp [compat] at hc
      | special => simp [compat] at hc
      | brokenLink => simp [compat] at hc
    | dir cs =>
      cases d with
      | file c e' => simp [compat] at hc
      | special => simp [compat] at hc
      | brokenLink => simp [compat] at hc
      | dir cd =>
        rw [show syncE true (.dir cs) (.dir cd) = .dir (syncL true cs cd) by
          simp [syncE]]
        rw [lookupE] at hd ⊢
        cases hcd : lookupN cd n with
        | none => rw [hcd] at hd; exact Option.noConfusion hd
        | some c2 =>
          rw [hcd] at hd
          have hsl := syncL_lookup true cs cd (wf_dir_sorted hws)
            (wf_dir_sorted hwd) n
          rw [lookupE] at h
          cases hcs : lookupN cs n with
          | none =>
            rw [hcs, hcd] at hsl
            rw [show syncOpt true none (some c2) = some c2 by simp [syncOpt]] at hsl
            rw [hsl]
            exact hd
          | some c1 =>
            rw [hcs, hcd] at hsl
            rw [show syncOpt true (some c1) (some c2) = some (syncE true c1 c2)
              from rfl] at hsl
            rw [hsl]
            rw [hcs] at h
            exact ih c1 c2 e (wf_dir_child hws hcs) (wf_dir_child hwd hcd)
              (compat_children hc hcs hcd) h hd

/-- One fully successful dir_comp call: both listings succeed, the level is
reconciled, the shared subdirectories are pushed in front of the worklist
and the processed path is removed. -/
theorem dir_comp_good {fsS fsD : Entry} {sCh dCh : CList} (orc : Oracles)
    (p : Path) (merge : Bool) (wl : List Path)
    (hwS : wfE (.dir sCh) = true) (hwD : wfE (.dir dCh) = true)
    (hpS : properE (.dir sCh) = true)
    (hcomp : compat (.dir sCh) (.dir dCh) = true)
    (hFS : ∀ n, orc.failStat (p ++ [n]) = false)
    (hS : lookupE fsS p = some (.dir sCh)) (hD : lookupE fsD p = some (.dir dCh))
    (hfl : orc.failList p = false) (hp : p ∈ wl) :
    dir_comp fsS fsD p wl merge orc =
      (setSub fsD p (.dir (levelSync orc p merge sCh dCh).1),
       (levelSync orc p merge sCh dCh).2.1,
       .ok ((((levelSync orc p merge sCh dCh).2.2.2.2).map
              (fun n => p ++ [n])).reverse ++ wl.erase p,
            (levelSync orc p merge sCh dCh).2.2.1)) := by
  have herr := (levelSync_good orc p merge sCh dCh hwS hwD hpS hcomp hFS).1
  rw [dir_comp, hS]
  simp only
  rw [hfl]
  simp only [Bool.false_eq_true, if_false]
  rw [hD]
  simp only
  rcases hL : levelSync orc p merge sCh dCh with ⟨ch3, ops, flag3, err, nd⟩
  rw [hL] at herr
  simp only at herr
  subst herr
  simp only
  have hct : ((nd.map (fun n => p ++ [n])).reverse ++ wl).contains p = true := by
    rw [containsP_iff]
    exact List.mem_append_right _ hp
  rw [hct]
  simp only [if_true]
  have her : ((nd.map (fun n => p ++ [n])).reverse ++ wl).erase p =
      (nd.map (fun n => p ++ [n])).reverse ++ wl.erase p := by
    refine List.erase_append_right _ ?_
    intro hmem
    rw [List.mem_reverse] at hmem
    obtain ⟨n, _, hn⟩ := List.mem_map.mp hmem
    exact ne_append_singleton p n hn
  rw [her]

theorem map_congr2 {α β : Type} (f g : α → β) :
    ∀ l : List α, (∀ a ∈ l, f a = g a) → l.map f = l.map g
  | [], _ => rfl
  | a :: l, h => by
    have h1 := h a (List.mem_cons_self _ _)
    have h2 := map_congr2 f g l fun x hx => h x (List.mem_cons_of_mem _ hx)
    simp [h1, h2]

theorem any_map2 {α β : Type} (f : α → β) (p : β → Bool) :
    ∀ l : List α, (l.map f).any p = l.any (p ∘ f)
  | [] => rfl
  | a :: l => by simp [any_map2 f p l]

theorem any_false_all {α : Type} : ∀ l : List α, (l.any fun _ => false) = false
  | [] => rfl
  | a :: l => by simp [any_false_all l]

theorem any_filterMap_opFailed {α : Type} (f : α → Option Op) (g : α → Bool)
    (h : ∀ x, (∀ o, f x = some o → opFailed o = g x) ∧ (f x = none → g x = false)) :
    ∀ l : List α, ((l.filterMap f).any opFailed) = l.any g
  | [] => rfl
  | a :: l => by
    rw [List.filterMap_cons]
    cases hf : f a with
    | none =>
      rw [List.any_cons, (h a).2 hf, Bool.false_or]
      exact any_filterMap_opFailed f g h l
    | some o =>
      rw [List.any_cons, List.any_cons, ← (h a).1 o hf,
        any_filterMap_opFailed f g h l]

theorem mem_sharedDir_iff {sCh dCh : CList} (hnd : (keysC sCh).Nodup) (k : Name) :
    k ∈ (((sCh.filter fun x => (keysC dCh).contains x.1).filter
      fun x => isDirB x.2).map Prod.fst) ↔
    (∃ c, lookupN sCh k = some (.dir c)) ∧ k ∈ keysC dCh := by
  constructor
  · intro h
    obtain ⟨x, hx, hx1⟩ := List.mem_map.mp h
    obtain ⟨hx2, hxdir⟩ := List.mem_filter.mp hx
    obtain ⟨hx3, hxct⟩ := List.mem_filter.mp hx2
    subst hx1
    obtain ⟨x1, x2⟩ := x
    refine ⟨?_, (containsN_iff _ _).mp hxct⟩
    cases x2 with
    | dir c => exact ⟨c, lookupN_of_mem_nodup hnd hx3⟩
    | file s t => simp [isDirB] at hxdir
    | special => simp [isDirB] at hxdir
    | brokenLink => simp [isDirB] at hxdir
  · rintro ⟨⟨c, hlk⟩, hkd⟩
    refine List.mem_map.mpr ⟨(k, .dir c), ?_, rfl⟩
    refine List.mem_filter.mpr ⟨List.mem_filter.mpr ⟨lookupN_mem hlk, ?_⟩, rfl⟩
    rw [containsN_iff]
    exact hkd

/-- The pointwise relation between the shared-loop operation under a
failure oracle and under no failures. -/
theorem sharedOpOf_mark (orc : Oracles) (p : Path) (ch : CList)
    (x : Name × Entry) :
    sharedOpOf orc p ch x = (sharedOpOf noFail p ch x).map (markOp orc) := by
  obtain ⟨n, e⟩ := x
  cases e with
  | file s t =>
    cases hlk : lookupN ch n with
    | none => simp [sharedOpOf, hlk]
    | some d =>
      by_cases hc : s ≠ statSz d ∨ t > statMt d
      · simp [sharedOpOf, hlk, hc, noFail, markOp]
      · simp [sharedOpOf, hlk, hc]
  | dir c => simp [sharedOpOf]
  | special => simp [sharedOpOf]
  | brokenLink => simp [sharedOpOf]

/-- A failure run performs the same operations as the failure-free run,
with the failing copies and deletes marked; its level flag records exactly
whether some operation of the level failed; the failure-free level never
sets the flag; and both discover the same subdirectories. -/
theorem levelSync_lockstep (orc : Oracles) (p : Path) (merge : Bool)
    (sCh dCh : CList)
    (hwS : wfE (.dir sCh) = true) (hwD : wfE (.dir dCh) = true)
    (hpS : properE (.dir sCh) = true)
    (hcomp : compat (.dir sCh) (.dir dCh) = true)
    (hFS : ∀ n, orc.failStat (p ++ [n]) = false) :
    (levelSync orc p merge sCh dCh).2.1 =
      ((levelSync noFail p merge sCh dCh).2.1).map (markOp orc)
    ∧ (levelSync orc p merge sCh dCh).2.2.1 =
      ((levelSync orc p merge sCh dCh).2.1).any opFailed
    ∧ (levelSync noFail p merge sCh dCh).2.2.1 = false
    ∧ (levelSync orc p merge sCh dCh).2.2.2.2 =
      (levelSync noFail p merge sCh dCh).2.2.2.2 := by
  obtain ⟨_, hndO, _, _, _, _, hopsO, hflagO, _⟩ :=
    levelSync_good orc p merge sCh dCh hwS hwD hpS hcomp hFS
  obtain ⟨_, hndN, _, _, _, _, hopsN, hflagN, _⟩ :=
    levelSync_good noFail p merge sCh dCh hwS hwD hpS hcomp (fun _ => rfl)
  have hdelsN : ((dCh.filter fun x => !((keysC sCh).contains x.1)).map fun x =>
      if noFail.failDel (p ++ [x.1]) then Op.delFailed (p ++ [x.1])
      else Op.deleted (p ++ [x.1]) (isDirB x.2)) =
      ((dCh.filter fun x => !((keysC sCh).contains x.1)).map fun x =>
        Op.deleted (p ++ [x.1]) (isDirB x.2)) := by
    refine map_congr2 _ _ _ fun x _ => ?_
    simp [noFail]
  have hcopsN : ((sCh.filter fun x => !((keysC dCh).contains x.1)).map fun x =>
      if noFail.failCopy (p ++ [x.1]) then Op.copyFailed (p ++ [x.1])
      else Op.copied (p ++ [x.1])) =
      ((sCh.filter fun x => !((keysC dCh).contains x.1)).map fun x =>
        Op.copied (p ++ [x.1])) := by
    refine map_congr2 _ _ _ fun x _ => ?_
    simp [noFail]
  refine ⟨?_, ?_, ?_, ?_⟩
  · rw [hopsO, hopsN, hdelsN, hcopsN]
    rw [List.map_append, List.map_append]
    congr 1
    · congr 1
      · cases merge with
        | true => simp
        | false =>
          simp only [Bool.false_eq_true, if_false]
          rw [List.map_map]
          refine map_congr2 _ _ _ fun x _ => ?_
          show (if orc.failDel (p ++ [x.1]) then Op.delFailed (p ++ [x.1])
            else Op.deleted (p ++ [x.1]) (isDirB x.2)) =
            markOp orc (Op.deleted (p ++ [x.1]) (isDirB x.2))
          rw [markOp]
      · rw [List.map_map]
        refine map_congr2 _ _ _ fun x _ => ?_
        show (if orc.failCopy (p ++ [x.1]) then Op.copyFailed (p ++ [x.1])
          else Op.copied (p ++ [x.1])) = markOp orc (Op.copied (p ++ [x.1]))
        rw [markOp]
    · rw [List.map_filterMap]
      refine filterMap_congr2 _ _ _ fun x _ => ?_
      exact sharedOpOf_mark orc p dCh x
  · rw [hflagO, hopsO]
    rw [List.any_append, List.any_append]
    congr 1
    congr 1
    · cases merge with
      | true => simp
      | false =>
        simp only [Bool.false_eq_true, if_false]
        rw [any_map2]
        refine (any_congr2 _ _ _ fun x _ => ?_).symm
        show opFailed (if orc.failDel (p ++ [x.1]) then Op.delFailed (p ++ [x.1])
          else Op.deleted (p ++ [x.1]) (isDirB x.2)) = orc.failDel (p ++ [x.1])
        cases h : orc.failDel (p ++ [x.1]) with
        | true => simp [opFailed]
        | false => simp [opFailed]
    · rw [any_map2]
      refine (any_congr2 _ _ _ fun x _ => ?_).symm
      show opFailed (if orc.failCopy (p ++ [x.1]) then Op.copyFailed (p ++ [x.1])
        else Op.copied (p ++ [x.1])) = orc.failCopy (p ++ [x.1])
      cases h : orc.failCopy (p ++ [x.1]) with
      | true => simp [opFailed]
      | false => simp [opFailed]
    · refine (any_filterMap_opFailed _ _ ?_ _).symm
      intro x
      obtain ⟨n, e⟩ := x
      constructor
      · intro o ho
        cases e with
        | file s t =>
          rw [sharedOpOf] at ho
          cases hlk : lookupN dCh n with
          | none => rw [hlk] at ho; simp at ho
          | some d =>
            rw [hlk] at ho
            simp only at ho
            by_cases hc : s ≠ statSz d ∨ t > statMt d
            · rw [if_pos hc] at ho
              rw [sharedFlagOf]
              simp only [hlk]
              rw [← Option.some.inj ho]
              cases h2 : orc.failCopy (p ++ [n]) with
              | true => simp [opFailed, hc]
              | false => simp [opFailed, hc]
            · rw [if_neg hc] at ho
              exact Option.noConfusion ho
        | dir c => simp [sharedOpOf] at ho
        | special => simp [sharedOpOf] at ho
        | brokenLink => simp [sharedOpOf] at ho
      · intro ho
        cases e with
        | file s t =>
          rw [sharedOpOf] at ho
          rw [sharedFlagOf]
          cases hlk : lookupN dCh n with
          | none => simp [hlk]
          | some d =>
            rw [hlk] at ho
            simp only at ho
            simp only [hlk]
            by_cases hc : s ≠ statSz d ∨ t > statMt d
            · rw [if_pos hc] at ho
              exact Option.noConfusion ho
            · simp [hc]
        | dir c => simp [sharedFlagOf]
        | special => simp [sharedFlagOf]
        | brokenLink => simp [sharedFlagOf]
  · rw [hflagN]
    have h1 : ((dCh.filter fun x => !((keysC sCh).contains x.1)).any fun x =>
        noFail.failDel (p ++ [x.1])) = false := by
      rw [show (fun x : Name × Entry => noFail.failDel (p ++ [x.1])) =
        (fun _ : Name × Entry => false) from rfl]
      exact any_false_all _
    have h2 : ((sCh.filter fun x => !((keysC dCh).contains x.1)).any fun x =>
        noFail.failCopy (p ++ [x.1])) = false := by
      rw [show (fun x : Name × Entry => noFail.failCopy (p ++ [x.1])) =
        (fun _ : Name × Entry => false) from rfl]
      exact any_false_all _
    have h3 : ((sCh.filter fun x => (keysC dCh).contains x.1).any
        (sharedFlagOf noFail p dCh)) = false := by
      rw [show sharedFlagOf noFail p dCh = (fun x : Name × Entry =>
          (sharedFlagOf noFail p dCh x)) from rfl]
      refine Eq.trans (any_congr2 _ (fun _ => false) _ fun x _ => ?_)
        (any_false_all _)
      obtain ⟨n, e⟩ := x
      cases e with
      | file s t =>
        rw [sharedFlagOf]
        cases hlk : lookupN dCh n with
        | none => rfl
        | some d => simp [noFail]
      | dir c => rfl
      | special => rfl
      | brokenLink => rfl
    rw [h1, h2, h3]
    cases merge <;> rfl
  · rw [hndO, hndN]

/-- Apart from shared subdirectories (deferred to the worklist), a
failure-free level computes exactly the per-name reference combination. -/
theorem levelSync_noFail_lookup_sync (p : Path) (merge : Bool)
    (sCh dCh : CList)
    (hwS : wfE (.dir sCh) = true) (hwD : wfE (.dir dCh) = true)
    (hpS : properE (.dir sCh) = true)
    (hcomp : compat (.dir sCh) (.dir dCh) = true) (k : Name)
    (hnotshared : ¬((∃ c, lookupN sCh k = some (.dir c)) ∧
      (lookupN dCh k).isSome = true)) :
    lookupN (levelSync noFail p merge sCh dCh).1 k =
      syncOpt merge (lookupN sCh k) (lookupN dCh k) := by
  obtain ⟨_, _, h3a, h3b, h3c, _, _, _, _⟩ :=
    levelSync_good noFail p merge sCh dCh hwS hwD hpS hcomp (fun _ => rfl)
  cases hks : lookupN sCh k with
  | none =>
    rw [h3a k hks]
    cases hkd : lookupN dCh k with
    | none => cases merge <;> simp [noFail, syncOpt]
    | some d => cases merge <;> simp [noFail, syncOpt]
  | some e =>
    cases e with
    | file s t =>
      cases hkd : lookupN dCh k with
      | none =>
        rw [h3b k _ hks hkd]
        simp [noFail, syncOpt]
      | some d =>
        cases d with
        | file s2 t2 =>
          rw [h3c k s t s2 t2 hks hkd]
          rw [show syncOpt merge (some (.file s t)) (some (.file s2 t2)) =
            some (syncE merge (.file s t) (.file s2 t2)) from rfl]
          rw [show syncE merge (.file s t) (.file s2 t2) =
            (if s ≠ s2 ∨ t > t2 then .file s t else .file s2 t2) by simp [syncE]]
          by_cases hc : s ≠ s2 ∨ t > t2
          · rw [if_pos ⟨hc, rfl⟩, if_pos hc]
          · rw [if_neg ?_, if_neg hc]
            intro hcon
            exact hc hcon.1
        | dir c2 =>
          have := compat_children hcomp hks hkd
          simp [compat] at this
        | special =>
          have := compat_children hcomp hks hkd
          simp [compat] at this
        | brokenLink =>
          have := compat_children hcomp hks hkd
          simp [compat] at this
    | dir c =>
      cases hkd : lookupN dCh k with
      | none =>
        rw [h3b k _ hks hkd]
        simp [noFail, syncOpt]
      | some d =>
        exact absurd ⟨⟨c, hks⟩, by simp [hkd]⟩ hnotshared
    | special =>
      have := proper_dir_child hpS hks
      simp [properE] at this
    | brokenLink =>
      have := proper_dir_child hpS hks
      simp [properE] at this

/-- A failure-free level leaves each shared subdirectory's destination
subtree untouched. -/
theorem levelSync_noFail_lookup_dir (p : Path) (merge : Bool)
    (sCh dCh : CList)
    (hwS : wfE (.dir sCh) = true) (hwD : wfE (.dir dCh) = true)
    (hpS : properE (.dir sCh) = true)
    (hcomp : compat (.dir sCh) (.dir dCh) = true) {k : Name} {c : CList}
    {d2 : Entry} (h1 : lookupN sCh k = some (.dir c))
    (h2 : lookupN dCh k = some d2) :
    lookupN (levelSync noFail p merge sCh dCh).1 k = some d2 := by
  obtain ⟨_, _, _, _, _, h3d, _, _, _⟩ :=
    levelSync_good noFail p merge sCh dCh hwS hwD hpS hcomp (fun _ => rfl)
  exact h3d k c d2 h1 h2

/-- A failure-free level produces exactly the names of the reference
synchronization of the two listings. -/
theorem levelSync_noFail_names (p : Path) (merge : Bool) (sCh dCh : CList)
    (hwS : wfE (.dir sCh) = true) (hwD : wfE (.dir dCh) = true)
    (hpS : properE (.dir sCh) = true)
    (hcomp : compat (.dir sCh) (.dir dCh) = true) :
    keysC (levelSync noFail p merge sCh dCh).1 =
      keysC (syncL merge sCh dCh) := by
  obtain ⟨_, _, _, _, _, _, _, _, hsort, _⟩ :=
    levelSync_good noFail p merge sCh dCh hwS hwD hpS hcomp (fun _ => rfl)
  have hwfS2 : wfL sCh = true := by
    rw [wfE, Bool.and_eq_true] at hwS
    exact hwS.2
  have hwfD2 : wfL dCh = true := by
    rw [wfE, Bool.and_eq_true] at hwD
    exact hwD.2
  have hsyncSorted := (syncL_wf merge sCh dCh (wf_dir_sorted hwS) hwfS2
    (wf_dir_sorted hwD) hwfD2).1
  refine sorted_names_ext (keysC_pairwise hsort) (keysC_pairwise hsyncSorted)
    fun n => ?_
  rw [← lookupN_isSome_iff, ← lookupN_isSome_iff]
  rw [syncL_lookup merge sCh dCh (wf_dir_sorted hwS) (wf_dir_sorted hwD) n]
  by_cases hsh : (∃ c, lookupN sCh n = some (.dir c)) ∧
      (lookupN dCh n).isSome = true
  · obtain ⟨⟨c, hks⟩, hkd⟩ := hsh
    obtain ⟨d2, hkd2⟩ := Option.isSome_iff_exists.mp hkd
    rw [levelSync_noFail_lookup_dir p merge sCh dCh hwS hwD hpS hcomp hks hkd2]
    rw [hks, hkd2]
    rw [show syncOpt merge (some (.dir c)) (some d2) =
      some (syncE merge (.dir c) d2) from rfl]
    simp
  · rw [levelSync_noFail_lookup_sync p merge sCh dCh hwS hwD hpS hcomp n hsh]

/-- The failure-free worklist loop finishes, logs its operations without
touching the inform flag, fully synchronizes every pending subtree to the
reference combination, and leaves everything outside the pending subtrees
untouched. -/
theorem runFuel_noFail_main (fsS : Entry) (merge : Bool)
    (hwS : wfE fsS = true) (hpS : properE fsS = true) :
    ∀ (fuel : Nat) (wl : List Path) (fsD : Entry) (ops : List Op) (inf : Bool),
      measWl fsS wl < fuel →
      DisjWl wl →
      wfE fsD = true →
      (∀ q ∈ wl, PairOk fsS fsD q) →
      ∃ fsD2 opsL,
        runFuel fsS merge noFail fuel fsD wl ops inf =
          .finished fsD2 (ops ++ opsL) inf
        ∧ wfE fsD2 = true
        ∧ (∀ q ∈ wl, ∀ es ed, lookupE fsS q = some es → lookupE fsD q = some ed →
            lookupE fsD2 q = some (syncE merge es ed))
        ∧ (∀ r, (∀ q ∈ wl, anc q r = false) → nodeAt fsD2 r = nodeAt fsD r)
  | 0, wl, fsD, ops, inf, hm, _, _, _ => by omega
  | fuel + 1, [], fsD, ops, inf, _, _, hwD, _ => by
    refine ⟨fsD, [], ?_, hwD, ?_, ?_⟩
    · rw [runFuel, List.append_nil]
    · intro q hq
      simp at hq
    · intro r _
      rfl
  | fuel + 1, p :: rest, fsD, ops, inf, hm, hdj, hwD, hpo => by
    obtain ⟨sCh, dCh, hS, hD, hcomp⟩ := hpo p (List.mem_cons_self _ _)
    have hwSl : wfE (.dir sCh) = true := wf_lookupE hwS hS
    have hwDl : wfE (.dir dCh) = true := wf_lookupE hwD hD
    have hpSl : properE (.dir sCh) = true := proper_lookupE hpS hS
    have hdc := dir_comp_good noFail p merge (p :: rest) hwSl hwDl hpSl hcomp
      (fun _ => rfl) hS hD rfl (List.mem_cons_self _ _)
    obtain ⟨hmark, hflagop, hflagN, hndsame⟩ :=
      levelSync_lockstep noFail p merge sCh dCh hwSl hwDl hpSl hcomp (fun _ => rfl)
    obtain ⟨herr, hndf, h3a, h3b, h3c, h3d, hops, hflag, hsort3, hwfl3⟩ :=
      levelSync_good noFail p merge sCh dCh hwSl hwDl hpSl hcomp (fun _ => rfl)
    have hw3 : wfE (.dir (levelSync noFail p merge sCh dCh).1) = true := by
      rw [wfE, Bool.and_eq_true]
      exact ⟨hsort3, hwfl3⟩
    have hstep : runFuel fsS merge noFail (fuel + 1) fsD (p :: rest) ops inf =
        runFuel fsS merge noFail fuel
          (setSub fsD p (.dir (levelSync noFail p merge sCh dCh).1))
          ((((levelSync noFail p merge sCh dCh).2.2.2.2).map
            (fun n => p ++ [n])).reverse ++ rest)
          (ops ++ (levelSync noFail p merge sCh dCh).2.1) inf := by
      rw [runFuel, hdc]
      rw [List.erase_cons_head, hflagN]
      show runFuel fsS merge noFail fuel
          (setSub fsD p (.dir (levelSync noFail p merge sCh dCh).1))
          ((((levelSync noFail p merge sCh dCh).2.2.2.2).map
            (fun n => p ++ [n])).reverse ++ rest)
          (ops ++ (levelSync noFail p merge sCh dCh).2.1) (inf || false) = _
      rw [Bool.or_false]
    have hmid : lookupE (setSub fsD p
        (.dir (levelSync noFail p merge sCh dCh).1)) p =
        some (.dir (levelSync noFail p merge sCh dCh).1) := by
      have h0 : (lookupE fsD p).isSome = true := by simp [hD]
      have := lookupE_setSub_at fsD (.dir (levelSync noFail p merge sCh dCh).1) h0 []
      rw [List.append_nil] at this
      rw [this, lookupE]
    have hndnodup : ((levelSync noFail p merge sCh dCh).2.2.2.2).Nodup := by
      refine List.Nodup.sublist (levelSync_nd_sublist noFail p merge sCh dCh) ?_
      have h1 : (((sCh.filter fun x => (keysC dCh).contains x.1).filter
          fun x => isDirB x.2).map Prod.fst) =
          keysC ((sCh.filter fun x => (keysC dCh).contains x.1).filter
            fun x => isDirB x.2) := rfl
      rw [h1]
      exact keysC_filter_nodup _ (keysC_filter_nodup _
        (sorted_nodup_keys (wf_dir_sorted hwSl)))
    have hndS := sorted_nodup_keys (wf_dir_sorted hwSl)
    -- facts about the names the level discovers
    have hmemnd : ∀ n ∈ (levelSync noFail p merge sCh dCh).2.2.2.2,
        (∃ c, lookupN sCh n = some (.dir c)) ∧ n ∈ keysC dCh := by
      intro n hn
      rw [hndf] at hn
      exact (mem_sharedDir_iff hndS n).mp hn
    have hndmem : ∀ n, (∃ c, lookupN sCh n = some (.dir c)) → n ∈ keysC dCh →
        n ∈ (levelSync noFail p merge sCh dCh).2.2.2.2 := by
      intro n h1 h2
      rw [hndf]
      exact (mem_sharedDir_iff hndS n).mpr ⟨h1, h2⟩
    -- the per-pending-path facts at the new worklist
    have hnewpair : ∀ n ∈ (levelSync noFail p merge sCh dCh).2.2.2.2,
        ∃ c d2ch, lookupE fsS (p ++ [n]) = some (.dir c) ∧
          lookupE (setSub fsD p (.dir (levelSync noFail p merge sCh dCh).1))
            (p ++ [n]) = some (.dir d2ch) ∧
          compat (.dir c) (.dir d2ch) = true := by
      intro n hn
      obtain ⟨⟨c, hc⟩, hkd⟩ := hmemnd n hn
      rw [← lookupN_isSome_iff, Option.isSome_iff_exists] at hkd
      obtain ⟨d2, hd2⟩ := hkd
      have hcpt := compat_children hcomp hc hd2
      cases d2 with
      | file s t => simp [compat] at hcpt
      | special => simp [compat] at hcpt
      | brokenLink => simp [compat] at hcpt
      | dir c2 =>
        refine ⟨c, c2, ?_, ?_, hcpt⟩
        · rw [lookupE_child hS n, hc]
        · rw [lookupE_child hmid n]
          exact levelSync_noFail_lookup_dir p merge sCh dCh hwSl hwDl hpSl hcomp
            hc hd2
    -- invariants of the recursive call
    have hrest_disj : ∀ q ∈ rest, disj p q = true := by
      rw [DisjWl, List.pairwise_cons] at hdj
      exact hdj.1
    have hmeas2 : measWl fsS ((((levelSync noFail p merge sCh dCh).2.2.2.2).map
        (fun n => p ++ [n])).reverse ++ rest) < fuel := by
      have := dir_comp_ok_meas hwS hdc
      rw [List.erase_cons_head] at this
      omega
    have hdj2 : DisjWl ((((levelSync noFail p merge sCh dCh).2.2.2.2).map
        (fun n => p ++ [n])).reverse ++ rest) := by
      rw [DisjWl, List.pairwise_append]
      refine ⟨?_, ?_, ?_⟩
      · rw [List.pairwise_reverse, List.pairwise_map]
        refine List.Pairwise.imp ?_ hndnodup
        intro a b hab
        rw [disj_symm]
        exact disj_sibling p hab
      · rw [DisjWl, List.pairwise_cons] at hdj
        exact hdj.2
      · intro a ha b hb
        rw [List.mem_reverse] at ha
        obtain ⟨n, _, hn⟩ := List.mem_map.mp ha
        rw [← hn]
        exact disj_extend (hrest_disj b hb) [n]
    have hwD2 : wfE (setSub fsD p
        (.dir (levelSync noFail p merge sCh dCh).1)) = true :=
      wfE_setSub p hwD hw3
    have hpo2 : ∀ q ∈ (((levelSync noFail p merge sCh dCh).2.2.2.2).map
        (fun n => p ++ [n])).reverse ++ rest,
        PairOk fsS (setSub fsD p (.dir (levelSync noFail p merge sCh dCh).1)) q := by
      intro q hq
      rcases List.mem_append.mp hq with h1 | h2
      · rw [List.mem_reverse] at h1
        obtain ⟨n, hn, hq2⟩ := List.mem_map.mp h1
        obtain ⟨c, c2, hc, hd2, hcpt⟩ := hnewpair n hn
        exact ⟨c, c2, hq2 ▸ hc, hq2 ▸ hd2, hcpt⟩
      · obtain ⟨sCh', dCh', hS', hD', hcomp'⟩ := hpo q (List.mem_cons_of_mem _ h2)
        refine ⟨sCh', dCh', hS', ?_, hcomp'⟩
        rw [lookupE_setSub_disj fsD _ (hrest_disj q h2)]
        exact hD'
    obtain ⟨fsD2, opsL', hrun, hwfD2, hsync2, hframe2⟩ :=
      runFuel_noFail_main fsS merge hwS hpS fuel _ _
        (ops ++ (levelSync noFail p merge sCh dCh).2.1) inf
        hmeas2 hdj2 hwD2 hpo2
    refine ⟨fsD2, (levelSync noFail p merge sCh dCh).2.1 ++ opsL', ?_, hwfD2,
      ?_, ?_⟩
    · rw [hstep, hrun, List.append_assoc]
    · -- every pending subtree is fully synchronized
      intro q hq es ed hqs hqd
      rcases List.mem_cons.mp hq with h1 | h2
      · -- the head: the level result below p combines with the recursively
        -- synchronized shared subdirectories into the reference listing
        rw [h1] at hqs hqd ⊢
        rw [hS] at hqs
        rw [hD] at hqd
        have hes := Option.some.inj hqs
        have hed := Option.some.inj hqd
        subst hes
        subst hed
        have hout : ∀ q' ∈ (((levelSync noFail p merge sCh dCh).2.2.2.2).map
            (fun n => p ++ [n])).reverse ++ rest, anc q' p = false := by
          intro q' hq'
          rcases List.mem_append.mp hq' with h1 | h2
          · rw [List.mem_reverse] at h1
            obtain ⟨n, _, hn⟩ := List.mem_map.mp h1
            rw [← hn]
            exact anc_append_singleton_false p n
          · have := hrest_disj q' h2
            rw [disj, Bool.and_eq_true] at this
            simpa using this.2
        have hnode : nodeAt fsD2 p = NodeView.ndir
            (keysC (levelSync noFail p merge sCh dCh).1) := by
          rw [hframe2 p hout, nodeAt, hmid, nodeOf]
        rcases hF2 : lookupE fsD2 p with _ | eF
        · rw [nodeAt, hF2, nodeOf] at hnode
          exact NodeView.noConfusion hnode
        cases eF with
        | file s t =>
          rw [nodeAt, hF2, nodeOf] at hnode
          exact NodeView.noConfusion hnode
        | special =>
          rw [nodeAt, hF2, nodeOf] at hnode
          exact NodeView.noConfusion hnode
        | brokenLink =>
          rw [nodeAt, hF2, nodeOf] at hnode
          exact NodeView.noConfusion hnode
        | dir chF =>
          have hnames : keysC chF = keysC (levelSync noFail p merge sCh dCh).1 := by
            rw [nodeAt, hF2, nodeOf] at hnode
            exact (NodeView.ndir.injEq _ _).mp hnode
          have hwchF : wfE (.dir chF) = true := wf_lookupE hwfD2 hF2
          have hwT : wfE (.dir (syncL merge sCh dCh)) = true := by
            rw [wfE, Bool.and_eq_true]
            have h1 : wfL sCh = true := by
              rw [wfE, Bool.and_eq_true] at hwSl
              exact hwSl.2
            have h2 : wfL dCh = true := by
              rw [wfE, Bool.and_eq_true] at hwDl
              exact hwDl.2
            exact syncL_wf merge sCh dCh (wf_dir_sorted hwSl) h1
              (wf_dir_sorted hwDl) h2
          have hext : (.dir chF : Entry) = .dir (syncL merge sCh dCh) := by
            refine entry_ext hwchF hwT fun r => ?_
            have hbase : nodeAt (.dir chF) r = nodeAt fsD2 (p ++ r) :=
              (nodeAt_lookup_append hF2 r).symm
            cases r with
            | nil =>
              rw [List.append_nil] at hbase
              rw [hbase, hnode, nodeAt, lookupE, nodeOf]
              rw [levelSync_noFail_names p merge sCh dCh hwSl hwDl hpSl hcomp]
            | cons n r' =>
              rw [hbase]
              by_cases hsh : (∃ c, lookupN sCh n = some (.dir c)) ∧
                  (lookupN dCh n).isSome = true
              · -- a shared subdirectory: handled by the recursion
                obtain ⟨⟨c, hc⟩, hkd⟩ := hsh
                obtain ⟨d2, hd2⟩ := Option.isSome_iff_exists.mp hkd
                have hnnd : n ∈ (levelSync noFail p merge sCh dCh).2.2.2.2 :=
                  hndmem n ⟨c, hc⟩ (by
                    rw [← lookupN_isSome_iff]
                    simp [hd2])
                have hmemwl : p ++ [n] ∈ (((levelSync noFail p merge
                    sCh dCh).2.2.2.2).map (fun n => p ++ [n])).reverse ++ rest := by
                  refine List.mem_append_left _ ?_
                  rw [List.mem_reverse]
                  exact List.mem_map_of_mem _ hnnd
                have hsub := hsync2 (p ++ [n]) hmemwl (.dir c) d2
                  (by rw [lookupE_child hS n, hc])
                  (by
                    rw [lookupE_child hmid n]
                    exact levelSync_noFail_lookup_dir p merge sCh dCh hwSl hwDl
                      hpSl hcomp hc hd2)
                have happ : p ++ n :: r' = (p ++ [n]) ++ r' := by
                  rw [List.append_assoc]
                  rfl
                rw [happ, nodeAt_lookup_append hsub r']
                have hTlk : lookupN (syncL merge sCh dCh) n =
                    some (syncE merge (.dir c) d2) := by
                  rw [syncL_lookup merge sCh dCh (wf_dir_sorted hwSl)
                    (wf_dir_sorted hwDl) n, hc, hd2]
                  rfl
                rw [nodeAt_cons_dir hTlk r']
              · -- any other name: the level already produced the final entry
                have hout2 : ∀ q' ∈ (((levelSync noFail p merge
                    sCh dCh).2.2.2.2).map (fun n => p ++ [n])).reverse ++ rest,
                    anc q' (p ++ n :: r') = false := by
                  intro q' hq'
                  rcases List.mem_append.mp hq' with h1 | h2
                  · rw [List.mem_reverse] at h1
                    obtain ⟨m, hmnd, hmq⟩ := List.mem_map.mp h1
                    rw [← hmq]
                    have hmn : m ≠ n := by
                      intro hmn
                      subst hmn
                      exact hsh ⟨(hmemnd m hmnd).1, by
                        have := (hmemnd m hmnd).2
                        rw [← lookupN_isSome_iff] at this
                        exact this⟩
                    have : anc (p ++ [m]) (p ++ n :: r') = anc [m] (n :: r') :=
                      anc_cancel_left p [m] (n :: r')
                    rw [this]
                    simp [anc, hmn]
                  · cases hanc : anc q' (p ++ n :: r') with
                    | false => rfl
                    | true =>
                      have hcmp := prefix_comparable hanc
                        (anc_self_append p (n :: r'))
                      have hdq := hrest_disj q' h2
                      rw [disj, Bool.and_eq_true] at hdq
                      simp only [Bool.not_eq_true'] at hdq
                      rcases hcmp with h3 | h3
                      · rw [hdq.2] at h3
                        exact h3.symm
                      · rw [hdq.1] at h3
                        exact h3.symm
                rw [hframe2 _ hout2, nodeAt_lookup_append hmid (n :: r')]
                have heq : lookupN (levelSync noFail p merge sCh dCh).1 n =
                    lookupN (syncL merge sCh dCh) n := by
                  rw [levelSync_noFail_lookup_sync p merge sCh dCh hwSl hwDl
                    hpSl hcomp n hsh]
                  rw [syncL_lookup merge sCh dCh (wf_dir_sorted hwSl)
                    (wf_dir_sorted hwDl) n]
                cases hlk : lookupN (levelSync noFail p merge sCh dCh).1 n with
                | some c3 =>
                  rw [nodeAt_cons_dir hlk r', nodeAt_cons_dir (heq ▸ hlk) r']
                | none =>
                  rw [heq] at hlk
                  simp [nodeAt, lookupE, hlk, heq ▸ hlk, nodeOf]
          rw [hext]
          rw [show syncE merge (.dir sCh) (.dir dCh) =
            .dir (syncL merge sCh dCh) by simp [syncE]]
      · -- a pending path further down the worklist
        have hq2 : q ∈ (((levelSync noFail p merge sCh dCh).2.2.2.2).map
            (fun n => p ++ [n])).reverse ++ rest := List.mem_append_right _ h2
        refine hsync2 q hq2 es ed hqs ?_
        rw [lookupE_setSub_disj fsD _ (hrest_disj q h2)]
        exact hqd
    · -- the frame: nothing outside the pending subtrees moves
      intro r hr
      have hout : ∀ q' ∈ (((levelSync noFail p merge sCh dCh).2.2.2.2).map
          (fun n => p ++ [n])).reverse ++ rest, anc q' r = false := by
        intro q' hq'
        rcases List.mem_append.mp hq' with h1 | h2
        · rw [List.mem_reverse] at h1
          obtain ⟨n, _, hn⟩ := List.mem_map.mp h1
          rw [← hn]
          cases hanc : anc (p ++ [n]) r with
          | false => rfl
          | true =>
            have := anc_trans (anc_self_append p [n]) hanc
            rw [hr p (List.mem_cons_self _ _)] at this
            exact this.symm
        · exact hr q' (List.mem_cons_of_mem _ h2)
      rw [hframe2 r hout]
      have hnp : anc p r = false := hr p (List.mem_cons_self _ _)
      cases hanc : anc r p with
      | true =>
        have hne : r ≠ p := by
          intro hrp
          subst hrp
          rw [anc_refl r] at hnp
          exact Bool.noConfusion hnp
        exact nodeAt_setSub_above hwD hanc hne (by simp [hD])
      | false =>
        have hdisj : disj p r = true := by
          rw [disj, Bool.and_eq_true]
          simp [hnp, hanc]
        rw [nodeAt, nodeAt, lookupE_setSub_disj fsD _ hdisj]

/-- Lockstep between a run whose only failures are per-operation delete or
copy permission errors and the failure-free run: both finish, both traverse
the same worklists, the failing run performs the same operations with the
failing ones marked, and its inform flag records exactly whether some
operation failed. -/
theorem runFuel_lockstep (fsS : Entry) (merge : Bool) (orc : Oracles)
    (hwS : wfE fsS = true) (hpS : properE fsS = true)
    (hFL : ∀ q, orc.failList q = false) (hFS : ∀ q, orc.failStat q = false) :
    ∀ (fuel : Nat) (wl : List Path) (fsA fsB : Entry) (opsA opsB : List Op)
      (infA infB : Bool),
      measWl fsS wl < fuel →
      DisjWl wl →
      wfE fsA = true → wfE fsB = true →
      (∀ q ∈ wl, PairOk fsS fsA q) →
      (∀ q ∈ wl, lookupE fsB q = lookupE fsA q) →
      ∃ fsA2 fsB2 opsL,
        runFuel fsS merge noFail fuel fsA wl opsA infA =
          .finished fsA2 (opsA ++ opsL) infA
        ∧ runFuel fsS merge orc fuel fsB wl opsB infB =
          .finished fsB2 (opsB ++ opsL.map (markOp orc))
            (infB || (opsL.map (markOp orc)).any opFailed)
  | 0, wl, fsA, fsB, opsA, opsB, infA, infB, hm, _, _, _, _, _ => by omega
  | fuel + 1, [], fsA, fsB, opsA, opsB, infA, infB, _, _, _, _, _, _ => by
    refine ⟨fsA, fsB, [], ?_, ?_⟩
    · rw [runFuel, List.append_nil]
    · rw [runFuel, List.map_nil, List.append_nil, List.any_nil, Bool.or_false]
  | fuel + 1, p :: rest, fsA, fsB, opsA, opsB, infA, infB, hm, hdj, hwA, hwB,
      hpo, hagree => by
    obtain ⟨sCh, dCh, hS, hDA, hcomp⟩ := hpo p (List.mem_cons_self _ _)
    have hDB : lookupE fsB p = some (.dir dCh) := by
      rw [hagree p (List.mem_cons_self _ _)]
      exact hDA
    have hwSl : wfE (.dir sCh) = true := wf_lookupE hwS hS
    have hwDl : wfE (.dir dCh) = true := wf_lookupE hwA hDA
    have hpSl : properE (.dir sCh) = true := proper_lookupE hpS hS
    have hdcA := dir_comp_good noFail p merge (p :: rest) hwSl hwDl hpSl hcomp
      (fun _ => rfl) hS hDA rfl (List.mem_cons_self _ _)
    have hdcB := dir_comp_good orc p merge (p :: rest) hwSl hwDl hpSl hcomp
      (fun n => hFS (p ++ [n])) hS hDB (hFL p) (List.mem_cons_self _ _)
    obtain ⟨hmark, hflagop, hflagN, hndsame⟩ :=
      levelSync_lockstep orc p merge sCh dCh hwSl hwDl hpSl hcomp
        (fun n => hFS (p ++ [n]))
    obtain ⟨_, hndfA, _, _, _, h3dA, _, _, hsortA, hwflA⟩ :=
      levelSync_good noFail p merge sCh dCh hwSl hwDl hpSl hcomp (fun _ => rfl)
    obtain ⟨_, _, _, _, _, h3dB, _, _, hsortB, hwflB⟩ :=
      levelSync_good orc p merge sCh dCh hwSl hwDl hpSl hcomp
        (fun n => hFS (p ++ [n]))
    have hw3A : wfE (.dir (levelSync noFail p merge sCh dCh).1) = true := by
      rw [wfE, Bool.and_eq_true]
      exact ⟨hsortA, hwflA⟩
    have hw3B : wfE (.dir (levelSync orc p merge sCh dCh).1) = true := by
      rw [wfE, Bool.and_eq_true]
      exact ⟨hsortB, hwflB⟩
    have hstepA : runFuel fsS merge noFail (fuel + 1) fsA (p :: rest) opsA infA =
        runFuel fsS merge noFail fuel
          (setSub fsA p (.dir (levelSync noFail p merge sCh dCh).1))
          ((((levelSync noFail p merge sCh dCh).2.2.2.2).map
            (fun n => p ++ [n])).reverse ++ rest)
          (opsA ++ (levelSync noFail p merge sCh dCh).2.1) infA := by
      rw [runFuel, hdcA]
      rw [List.erase_cons_head, hflagN]
      show runFuel fsS merge noFail fuel
          (setSub fsA p (.dir (levelSync noFail p merge sCh dCh).1))
          ((((levelSync noFail p merge sCh dCh).2.2.2.2).map
            (fun n => p ++ [n])).reverse ++ rest)
          (opsA ++ (levelSync noFail p merge sCh dCh).2.1) (infA || false) = _
      rw [Bool.or_false]
    have hstepB : runFuel fsS merge orc (fuel + 1) fsB (p :: rest) opsB infB =
        runFuel fsS merge orc fuel
          (setSub fsB p (.dir (levelSync orc p merge sCh dCh).1))
          ((((levelSync noFail p merge sCh dCh).2.2.2.2).map
            (fun n => p ++ [n])).reverse ++ rest)
          (opsB ++ ((levelSync noFail p merge sCh dCh).2.1).map (markOp orc))
          (infB || (((levelSync noFail p merge sCh dCh).2.1).map
            (markOp orc)).any opFailed) := by
      rw [runFuel, hdcB]
      rw [List.erase_cons_head, hndsame, hflagop, hmark]
    have hmidA : lookupE (setSub fsA p
        (.dir (levelSync noFail p merge sCh dCh).1)) p =
        some (.dir (levelSync noFail p merge sCh dCh).1) := by
      have h0 : (lookupE fsA p).isSome = true := by simp [hDA]
      have := lookupE_setSub_at fsA (.dir (levelSync noFail p merge sCh dCh).1) h0 []
      rw [List.append_nil] at this
      rw [this, lookupE]
    have hmidB : lookupE (setSub fsB p
        (.dir (levelSync orc p merge sCh dCh).1)) p =
        some (.dir (levelSync orc p merge sCh dCh).1) := by
      have h0 : (lookupE fsB p).isSome = true := by simp [hDB]
      have := lookupE_setSub_at fsB (.dir (levelSync orc p merge sCh dCh).1) h0 []
      rw [List.append_nil] at this
      rw [this, lookupE]
    have hndS := sorted_nodup_keys (wf_dir_sorted hwSl)
    have hndnodup : ((levelSync noFail p merge sCh dCh).2.2.2.2).Nodup := by
      refine List.Nodup.sublist (levelSync_nd_sublist noFail p merge sCh dCh) ?_
      exact keysC_filter_nodup _ (keysC_filter_nodup _ hndS)
    have hrest_disj : ∀ q ∈ rest, disj p q = true := by
      rw [DisjWl, List.pairwise_cons] at hdj
      exact hdj.1
    have hmeas2 : measWl fsS ((((levelSync noFail p merge sCh dCh).2.2.2.2).map
        (fun n => p ++ [n])).reverse ++ rest) < fuel := by
      have := dir_comp_ok_meas hwS hdcA
      rw [List.erase_cons_head] at this
      omega
    have hdj2 : DisjWl ((((levelSync noFail p merge sCh dCh).2.2.2.2).map
        (fun n => p ++ [n])).reverse ++ rest) := by
      rw [DisjWl, List.pairwise_append]
      refine ⟨?_, ?_, ?_⟩
      · rw [List.pairwise_reverse, List.pairwise_map]
        refine List.Pairwise.imp ?_ hndnodup
        intro a b hab
        rw [disj_symm]
        exact disj_sibling p hab
      · rw [DisjWl, List.pairwise_cons] at hdj
        exact hdj.2
      · intro a ha b hb
        rw [List.mem_reverse] at ha
        obtain ⟨n, _, hn⟩ := List.mem_map.mp ha
        rw [← hn]
        exact disj_extend (hrest_disj b hb) [n]
    have hwA2 : wfE (setSub fsA p
        (.dir (levelSync noFail p merge sCh dCh).1)) = true :=
      wfE_setSub p hwA hw3A
    have hwB2 : wfE (setSub fsB p
        (.dir (levelSync orc p merge sCh dCh).1)) = true :=
      wfE_setSub p hwB hw3B
    have hmemnd : ∀ n ∈ (levelSync noFail p merge sCh dCh).2.2.2.2,
        (∃ c, lookupN sCh n = some (.dir c)) ∧ n ∈ keysC dCh := by
      intro n hn
      rw [hndfA] at hn
      exact (mem_sharedDir_iff hndS n).mp hn
    have hpo2 : ∀ q ∈ (((levelSync noFail p merge sCh dCh).2.2.2.2).map
        (fun n => p ++ [n])).reverse ++ rest,
        PairOk fsS (setSub fsA p (.dir (levelSync noFail p merge sCh dCh).1)) q := by
      intro q hq
      rcases List.mem_append.mp hq with h1 | h2
      · rw [List.mem_reverse] at h1
        obtain ⟨n, hn, hq2⟩ := List.mem_map.mp h1
        obtain ⟨⟨c, hc⟩, hkd⟩ := hmemnd n hn
        rw [← lookupN_isSome_iff, Option.isSome_iff_exists] at hkd
        obtain ⟨d2, hd2⟩ := hkd
        have hcpt := compat_children hcomp hc hd2
        cases d2 with
        | file s t => simp [compat] at hcpt
        | special => simp [compat] at hcpt
        | brokenLink => simp [compat] at hcpt
        | dir c2 =>
          refine ⟨c, c2, hq2 ▸ ?_, hq2 ▸ ?_, hcpt⟩
          · rw [lookupE_child hS n, hc]
          · rw [lookupE_child hmidA n]
            exact levelSync_noFail_lookup_dir p merge sCh dCh hwSl hwDl hpSl
              hcomp hc hd2
      · obtain ⟨sCh', dCh', hS', hD', hcomp'⟩ := hpo q (List.mem_cons_of_mem _ h2)
        refine ⟨sCh', dCh', hS', ?_, hcomp'⟩
        rw [lookupE_setSub_disj fsA _ (hrest_disj q h2)]
        exact hD'
    have hagree2 : ∀ q ∈ (((levelSync noFail p merge sCh dCh).2.2.2.2).map
        (fun n => p ++ [n])).reverse ++ rest,
        lookupE (setSub fsB p (.dir (levelSync orc p merge sCh dCh).1)) q =
        lookupE (setSub fsA p (.dir (levelSync noFail p merge sCh dCh).1)) q := by
      intro q hq
      rcases List.mem_append.mp hq with h1 | h2
      · rw [List.mem_reverse] at h1
        obtain ⟨n, hn, hq2⟩ := List.mem_map.mp h1
        obtain ⟨⟨c, hc⟩, hkd⟩ := hmemnd n hn
        rw [← lookupN_isSome_iff, Option.isSome_iff_exists] at hkd
        obtain ⟨d2, hd2⟩ := hkd
        rw [← hq2, lookupE_child hmidA n, lookupE_child hmidB n]
        rw [levelSync_noFail_lookup_dir p merge sCh dCh hwSl hwDl hpSl hcomp
          hc hd2]
        exact h3dB n c d2 hc hd2
      · rw [lookupE_setSub_disj fsA _ (hrest_disj q h2),
          lookupE_setSub_disj fsB _ (hrest_disj q h2)]
        exact hagree q (List.mem_cons_of_mem _ h2)
    obtain ⟨fsA2, fsB2, opsL', hrunA, hrunB⟩ :=
      runFuel_lockstep fsS merge orc hwS hpS hFL hFS fuel _ _ _
        (opsA ++ (levelSync noFail p merge sCh dCh).2.1)
        (opsB ++ ((levelSync noFail p merge sCh dCh).2.1).map (markOp orc))
        infA
        (infB || (((levelSync noFail p merge sCh dCh).2.1).map
          (markOp orc)).any opFailed)
        hmeas2 hdj2 hwA2 hwB2 hpo2 hagree2
    refine ⟨fsA2, fsB2, (levelSync noFail p merge sCh dCh).2.1 ++ opsL', ?_, ?_⟩
    · rw [hstepA, hrunA, List.append_assoc]
    · rw [hstepB, hrunB, List.map_append, List.append_assoc, List.any_append,
        Bool.or_assoc]

/-- A file entry the reference synchronization has combined is absorbed by
a second combination: the copy criterion never fires against the result. -/
theorem syncE_file_absorb (merge : Bool) (s : Nat) (t : Int) (d : Entry) :
    syncE merge (.file s t) (syncE merge (.file s t) d) =
      syncE merge (.file s t) d := by
  cases d with
  | file s2 t2 =>
    rw [show syncE merge (.file s t) (.file s2 t2) =
        (if s ≠ s2 ∨ t > t2 then .file s t else .file s2 t2) by simp [syncE]]
    by_cases hc : s ≠ s2 ∨ t > t2
    · rw [if_pos hc]
      rw [show syncE merge (.file s t) (.file s t) =
          (if s ≠ s ∨ t > t then .file s t else .file s t) by simp [syncE]]
      split_ifs <;> rfl
    · rw [if_neg hc]
      rw [show syncE merge (.file s t) (.file s2 t2) =
          (if s ≠ s2 ∨ t > t2 then .file s t else .file s2 t2) by simp [syncE]]
      rw [if_neg hc]
  | dir cd => simp [syncE]
  | special => simp [syncE]
  | brokenLink => simp [syncE]

/-- Over a destination that is already a reference synchronization result
for the same source, the failure-free loop is a no-op: it finishes with the
destination tree, the operation log and the inform flag untouched. -/
theorem runFuel_noop (fsS : Entry) (merge : Bool)
    (hwS : wfE fsS = true) (hpS : properE fsS = true) :
    ∀ (fuel : Nat) (wl : List Path) (fsD : Entry) (ops : List Op) (inf : Bool),
      measWl fsS wl < fuel →
      wfE fsD = true →
      (∀ q ∈ wl, ∃ sCh dCh X, lookupE fsS q = some (.dir sCh) ∧
        lookupE fsD q = some (.dir dCh) ∧ wfE (.dir X) = true ∧
        dCh = syncL merge sCh X) →
      runFuel fsS merge noFail fuel fsD wl ops inf = .finished fsD ops inf
  | 0, wl, fsD, ops, inf, hm, _, _ => by omega
  | fuel + 1, [], fsD, ops, inf, _, _, _ => by rw [runFuel]
  | fuel + 1, p :: rest, fsD, ops, inf, hm, hwD, hinv => by
    obtain ⟨sCh, dCh, X, hS, hD, hwX, hsyn⟩ := hinv p (List.mem_cons_self _ _)
    have hwSl : wfE (.dir sCh) = true := wf_lookupE hwS hS
    have hwDl : wfE (.dir dCh) = true := wf_lookupE hwD hD
    have hpSl : properE (.dir sCh) = true := proper_lookupE hpS hS
    have hndS := sorted_nodup_keys (wf_dir_sorted hwSl)
    have hsortX : sortedKeysB X = true := wf_dir_sorted hwX
    have hcomp : compat (.dir sCh) (.dir dCh) = true := by
      rw [hsyn]
      have := compat_syncE merge (.dir sCh) (.dir X) hpSl hwSl hwX
      rw [show syncE merge (.dir sCh) (.dir X) = .dir (syncL merge sCh X) by
        simp [syncE]] at this
      exact this
    have hdc := dir_comp_good noFail p merge (p :: rest) hwSl hwDl hpSl hcomp
      (fun _ => rfl) hS hD rfl (List.mem_cons_self _ _)
    obtain ⟨herr, hndf, h3a, h3b, h3c, h3d, hops, hflag, hsort3, hwfl3⟩ :=
      levelSync_good noFail p merge sCh dCh hwSl hwDl hpSl hcomp (fun _ => rfl)
    -- the destination lookup of each name as a reference combination
    have hdlk : ∀ k, lookupN dCh k =
        syncOpt merge (lookupN sCh k) (lookupN X k) := by
      intro k
      rw [hsyn]
      exact syncL_lookup merge sCh X (wf_dir_sorted hwSl) hsortX k
    -- the level recomputes the same listing
    have hch3 : (levelSync noFail p merge sCh dCh).1 = dCh := by
      refine clist_ext hsort3 (wf_dir_sorted hwDl) fun k => ?_
      by_cases hsh : (∃ c, lookupN sCh k = some (.dir c)) ∧
          (lookupN dCh k).isSome = true
      · obtain ⟨⟨c, hc⟩, hkd⟩ := hsh
        obtain ⟨d2, hd2⟩ := Option.isSome_iff_exists.mp hkd
        rw [levelSync_noFail_lookup_dir p merge sCh dCh hwSl hwDl hpSl hcomp
          hc hd2, hd2]
      · rw [levelSync_noFail_lookup_sync p merge sCh dCh hwSl hwDl hpSl hcomp
          k hsh]
        rw [hdlk k]
        cases hsk : lookupN sCh k with
        | none =>
          cases hXk : lookupN X k with
          | none => cases merge <;> rfl
          | some xd => cases merge <;> rfl
        | some e =>
          cases e with
          | dir c =>
            exfalso
            refine hsh ⟨⟨c, hsk⟩, ?_⟩
            rw [hdlk k, hsk]
            cases hXk : lookupN X k <;> rfl
          | special =>
            have := proper_dir_child hpSl hsk
            simp [properE] at this
          | brokenLink =>
            have := proper_dir_child hpSl hsk
            simp [properE] at this
          | file s t =>
            cases hXk : lookupN X k with
            | none =>
              rw [show syncOpt merge (some (.file s t)) none = some (.file s t)
                from rfl]
              rw [show syncOpt merge (some (.file s t)) (some (.file s t)) =
                some (syncE merge (.file s t) (.file s t)) from rfl]
              rw [show syncE merge (.file s t) (.file s t) = .file s t from by
                rw [syncE_self]]
            | some xd =>
              rw [show syncOpt merge (some (.file s t)) (some xd) =
                some (syncE merge (.file s t) xd) from rfl]
              rw [show syncOpt merge (some (.file s t))
                  (some (syncE merge (.file s t) xd)) =
                some (syncE merge (.file s t) (syncE merge (.file s t) xd))
                from rfl]
              rw [syncE_file_absorb]
    -- the level performs no operation and reports no failure
    have hdelsnil : merge = true ∨
        (dCh.filter fun x => !((keysC sCh).contains x.1)) = [] := by
      cases merge with
      | true => exact Or.inl rfl
      | false =>
        refine Or.inr ?_
        rw [List.filter_eq_nil_iff]
        intro x hx
        have hxk : (lookupN dCh x.1).isSome = true := by
          rw [lookupN_isSome_iff]
          exact List.mem_map_of_mem Prod.fst hx
        rw [hdlk x.1] at hxk
        cases hsk : lookupN sCh x.1 with
        | some e =>
          have hmem : x.1 ∈ keysC sCh := mem_keysC_of_lookup hsk
          simpa using hmem
        | none =>
          rw [hsk] at hxk
          cases hXk : lookupN X x.1 with
          | none =>
            rw [hXk] at hxk
            rw [show syncOpt false none none = none from rfl] at hxk
            simp at hxk
          | some xd =>
            rw [hXk] at hxk
            rw [show syncOpt false none (some xd) = none from rfl] at hxk
            simp at hxk
    have hcopsnil : (sCh.filter fun x => !((keysC dCh).contains x.1)) = [] := by
      rw [List.filter_eq_nil_iff]
      intro x hx
      have hsk : lookupN sCh x.1 = some x.2 := lookupN_of_mem_nodup hndS hx
      have : (lookupN dCh x.1).isSome = true := by
        rw [hdlk x.1, hsk]
        cases hXk : lookupN X x.1 <;> rfl
      rw [lookupN_isSome_iff] at this
      simp [← containsN_iff, this]
    have hsharednone : ∀ x ∈ (sCh.filter fun x => (keysC dCh).contains x.1),
        sharedOpOf noFail p dCh x = none := by
      intro x hx
      obtain ⟨hxs, _⟩ := List.mem_filter.mp hx
      obtain ⟨n, e⟩ := x
      cases e with
      | dir c => simp [sharedOpOf]
      | special => simp [sharedOpOf]
      | brokenLink => simp [sharedOpOf]
      | file s t =>
        have hsk : lookupN sCh n = some (.file s t) :=
          lookupN_of_mem_nodup hndS hxs
        rw [sharedOpOf]
        simp only
        have hd := hdlk n
        rw [hsk] at hd
        cases hXk : lookupN X n with
        | none =>
          rw [hXk] at hd
          rw [show syncOpt merge (some (.file s t)) none = some (.file s t)
            from rfl] at hd
          rw [hd]
          simp [statSz, statMt]
        | some xd =>
          rw [hXk] at hd
          rw [show syncOpt merge (some (.file s t)) (some xd) =
            some (syncE merge (.file s t) xd) from rfl] at hd
          rw [hd]
          cases xd with
          | file s2 t2 =>
            rw [show syncE merge (.file s t) (.file s2 t2) =
              (if s ≠ s2 ∨ t > t2 then .file s t else .file s2 t2) by
                simp [syncE]]
            by_cases hc : s ≠ s2 ∨ t > t2
            · rw [if_pos hc]
              simp [statSz, statMt]
            · rw [if_neg hc]
              push_neg at hc
              simp only [statSz, statMt]
              rw [if_neg ?_]
              push_neg
              omega
          | dir cd =>
            rw [show syncE merge (.file s t) (.dir cd) = .file s t by simp [syncE]]
            simp [statSz, statMt]
          | special =>
            rw [show syncE merge (.file s t) .special = .file s t by simp [syncE]]
            simp [statSz, statMt]
          | brokenLink =>
            rw [show syncE merge (.file s t) .brokenLink = .file s t by
              simp [syncE]]
            simp [statSz, statMt]
    have hopsnil : (levelSync noFail p merge sCh dCh).2.1 = [] := by
      rw [hops, hcopsnil]
      rw [List.filterMap_eq_nil_iff.mpr hsharednone]
      rcases hdelsnil with hm1 | hnil
      · rw [hm1]
        rfl
      · rw [hnil]
        cases merge <;> rfl
    have hflagfalse : (levelSync noFail p merge sCh dCh).2.2.1 = false := by
      obtain ⟨_, _, h3, _⟩ :=
        levelSync_lockstep noFail p merge sCh dCh hwSl hwDl hpSl hcomp
          (fun _ => rfl)
      exact h3
    have hsetid : setSub fsD p (.dir (levelSync noFail p merge sCh dCh).1) =
        fsD := by
      rw [hch3]
      exact setSub_lookup_eq hwD hD
    have hstep : runFuel fsS merge noFail (fuel + 1) fsD (p :: rest) ops inf =
        runFuel fsS merge noFail fuel fsD
          ((((levelSync noFail p merge sCh dCh).2.2.2.2).map
            (fun n => p ++ [n])).reverse ++ rest) ops inf := by
      rw [runFuel, hdc]
      rw [List.erase_cons_head, hflagfalse, hopsnil, hsetid]
      show runFuel fsS merge noFail fuel fsD
          ((((levelSync noFail p merge sCh dCh).2.2.2.2).map
            (fun n => p ++ [n])).reverse ++ rest) (ops ++ []) (inf || false) = _
      rw [Bool.or_false, List.append_nil]
    rw [hstep]
    have hmeas2 : measWl fsS ((((levelSync noFail p merge sCh dCh).2.2.2.2).map
        (fun n => p ++ [n])).reverse ++ rest) < fuel := by
      have h2 := dir_comp_ok_meas hwS hdc
      rw [List.erase_cons_head] at h2
      omega
    refine runFuel_noop fsS merge hwS hpS fuel _ fsD ops inf hmeas2 hwD ?_
    intro q hq
    rcases List.mem_append.mp hq with h1 | h2
    · rw [List.mem_reverse] at h1
      obtain ⟨n, hn, hq2⟩ := List.mem_map.mp h1
      rw [hndf] at hn
      obtain ⟨⟨c, hc⟩, hkd⟩ := (mem_sharedDir_iff hndS n).mp hn
      rw [← lookupN_isSome_iff, Option.isSome_iff_exists] at hkd
      obtain ⟨d2, hd2⟩ := hkd
      have hwc : wfE (.dir c) = true := wf_dir_child hwSl hc
      have hd := hdlk n
      rw [hc, hd2] at hd
      subst hq2
      have hlkS : lookupE fsS (p ++ [n]) = some (.dir c) := by
        rw [lookupE_child hS n, hc]
      have hlkD : lookupE fsD (p ++ [n]) = some d2 := by
        rw [lookupE_child hD n, hd2]
      cases hXk : lookupN X n with
      | none =>
        rw [hXk] at hd
        rw [show syncOpt merge (some (.dir c)) none = some (.dir c) from rfl] at hd
        have hd2c : d2 = .dir c := Option.some.inj hd
        refine ⟨c, c, c, hlkS, ?_, hwc, (syncL_self merge c).symm⟩
        rw [hlkD, hd2c]
      | some xd =>
        rw [hXk] at hd
        rw [show syncOpt merge (some (.dir c)) (some xd) =
          some (syncE merge (.dir c) xd) from rfl] at hd
        have hd2c : d2 = syncE merge (.dir c) xd := Option.some.inj hd
        cases xd with
        | dir cx =>
          rw [show syncE merge (.dir c) (.dir cx) = .dir (syncL merge c cx) by
            simp [syncE]] at hd2c
          refine ⟨c, syncL merge c cx, cx, hlkS, ?_, wf_dir_child hwX hXk, rfl⟩
          rw [hlkD, hd2c]
        | file s2 t2 =>
          rw [show syncE merge (.dir c) (.file s2 t2) = .dir c by
            simp [syncE]] at hd2c
          refine ⟨c, c, c, hlkS, ?_, hwc, (syncL_self merge c).symm⟩
          rw [hlkD, hd2c]
        | special =>
          rw [show syncE merge (.dir c) .special = .dir c by
            simp [syncE]] at hd2c
          refine ⟨c, c, c, hlkS, ?_, hwc, (syncL_self merge c).symm⟩
          rw [hlkD, hd2c]
        | brokenLink =>
          rw [show syncE merge (.dir c) .brokenLink = .dir c by
            simp [syncE]] at hd2c
          refine ⟨c, c, c, hlkS, ?_, hwc, (syncL_self merge c).symm⟩
          rw [hlkD, hd2c]
    · exact hinv q (List.mem_cons_of_mem _ h2)

/-! In merge mode no deletion is ever performed: every logged operation of
a merge run is a copy or a failed copy, whatever the oracle does. -/

theorem runCopies_op_shape (orc : Oracles) (p : Path) :
    ∀ (items : List (Name × Entry)) (ch : CList) (op : Op),
      op ∈ (runCopies orc p items ch).2.1 →
      ∃ q, op = Op.copied q ∨ op = Op.copyFailed q
  | [], ch, op, h => by simp [runCopies_nil] at h
  | (n, e) :: rest, ch, op, h => by
    cases e with
    | file s t =>
      cases hcp : orc.failCopy (p ++ [n]) with
      | true =>
        rw [runCopies_file_fail s t rest ch hcp] at h
        rcases List.mem_cons.mp h with h1 | h2
        · exact ⟨p ++ [n], Or.inr h1⟩
        · exact runCopies_op_shape orc p rest ch op h2
      | false =>
        rw [runCopies_file_ok s t rest ch hcp] at h
        rcases List.mem_cons.mp h with h1 | h2
        · exact ⟨p ++ [n], Or.inl h1⟩
        · exact runCopies_op_shape orc p rest _ op h2
    | dir c =>
      cases hcp : orc.failCopy (p ++ [n]) with
      | true =>
        rw [runCopies_dir_fail c rest ch hcp] at h
        rcases List.mem_cons.mp h with h1 | h2
        · exact ⟨p ++ [n], Or.inr h1⟩
        · exact runCopies_op_shape orc p rest ch op h2
      | false =>
        cases hpr : properE (.dir c) with
        | true =>
          rw [runCopies_dir_ok c rest ch hcp hpr] at h
          rcases List.mem_cons.mp h with h1 | h2
          · exact ⟨p ++ [n], Or.inl h1⟩
          · exact runCopies_op_shape orc p rest _ op h2
        | false =>
          rw [runCopies_dir_bad c rest ch hcp hpr] at h
          simp at h
    | special =>
      rw [runCopies_special rest ch] at h
      simp at h
    | brokenLink =>
      rw [runCopies_broken rest ch] at h
      simp at h

theorem runShared_op_shape (orc : Oracles) (p : Path) :
    ∀ (items : List (Name × Entry)) (ch : CList) (op : Op),
      op ∈ (runShared orc p items ch).2.1 →
      ∃ q, op = Op.copied q ∨ op = Op.copyFailed q
  | [], ch, op, h => by simp [runShared_nil] at h
  | (n, eS) :: rest, ch, op, h => by
    cases hS : statOk eS with
    | false =>
      rw [show runShared orc p ((n, eS) :: rest) ch =
          (ch, [], false, some .fileNotFound, []) by simp [runShared, hS]] at h
      simp at h
    | true =>
      cases hF : orc.failStat (p ++ [n]) with
      | true =>
        rw [runShared_failStat rest ch hS hF] at h
        simp at h
      | false =>
        cases hD : lookupN ch n with
        | none =>
          rw [runShared_missing rest ch hS hF hD] at h
          simp at h
        | some eD =>
          cases hDS : statOk eD with
          | false =>
            have heD : eD = .brokenLink := by
              cases eD with
              | brokenLink => rfl
              | file s t => simp [statOk] at hDS
              | dir c => simp [statOk] at hDS
              | special => simp [statOk] at hDS
            rw [heD] at hD
            rw [runShared_destBroken rest ch hS hF hD] at h
            simp at h
          | true =>
            cases eS with
            | brokenLink => simp [statOk] at hS
            | special =>
              rw [runShared_special rest ch hF hD hDS] at h
              exact runShared_op_shape orc p rest ch op h
            | dir dch =>
              rw [runShared_dir rest ch hF hD hDS] at h
              exact runShared_op_shape orc p rest ch op h
            | file s t =>
              by_cases hc : s ≠ statSz eD ∨ t > statMt eD
              · cases hcp : orc.failCopy (p ++ [n]) with
                | true =>
                  rw [runShared_file_fail rest ch hF hD hDS hc hcp] at h
                  rcases List.mem_cons.mp h with h1 | h2
                  · exact ⟨p ++ [n], Or.inr h1⟩
                  · exact runShared_op_shape orc p rest ch op h2
                | false =>
                  rcases hcs : copy2Shared n s t eD ch with ⟨ch2, er⟩
                  cases er with
                  | some e =>
                    rw [runShared_file_err rest ch hF hD hDS hc hcp hcs] at h
                    simp at h
                  | none =>
                    rw [runShared_file_ok rest ch hF hD hDS hc hcp hcs] at h
                    rcases List.mem_cons.mp h with h1 | h2
                    · exact ⟨p ++ [n], Or.inl h1⟩
                    · exact runShared_op_shape orc p rest ch2 op h2
              · rw [runShared_file_skip rest ch hF hD hDS hc] at h
                exact runShared_op_shape orc p rest ch op h

theorem levelSync_true_op_shape (orc : Oracles) (p : Path) (sCh dCh : CList)
    (op : Op) (h : op ∈ (levelSync orc p true sCh dCh).2.1) :
    ∃ q, op = Op.copied q ∨ op = Op.copyFailed q := by
  rw [levelSync] at h
  rcases hRC : runCopies orc p (sCh.filter fun x => !((keysC dCh).contains x.1))
      (if true = true then (dCh, ([] : List Op), false)
        else runDels orc p (dCh.filter fun x => !((keysC sCh).contains x.1)) dCh).1
    with ⟨ch2, ops2, flag2, err2⟩
  rw [hRC] at h
  have hops2 : ∀ o ∈ ops2, ∃ q, o = Op.copied q ∨ o = Op.copyFailed q := by
    intro o ho
    refine runCopies_op_shape orc p
      (sCh.filter fun x => !((keysC dCh).contains x.1))
      (if true = true then (dCh, ([] : List Op), false)
        else runDels orc p (dCh.filter fun x => !((keysC sCh).contains x.1))
          dCh).1 o ?_
    rw [hRC]
    exact ho
  cases err2 with
  | some e =>
    simp only at h
    rcases List.mem_append.mp h with h1 | h2
    · simp at h1
    · exact hops2 op h2
  | none =>
    simp only at h
    rcases List.mem_append.mp h with h1 | h2
    · rcases List.mem_append.mp h1 with h3 | h4
      · simp at h3
      · exact hops2 op h4
    · exact runShared_op_shape orc p _ ch2 op h2

theorem dir_comp_true_op_shape (fsS fsD : Entry) (p : Path) (wl : List Path)
    (orc : Oracles) (op : Op) (h : op ∈ (dir_comp fsS fsD p wl true orc).2.1) :
    ∃ q, op = Op.copied q ∨ op = Op.copyFailed q := by
  rw [dir_comp] at h
  rcases hS : lookupE fsS p with _ | e
  · rw [hS] at h; simp at h
  rw [hS] at h
  cases e with
  | file s t => simp at h
  | special => simp at h
  | brokenLink => simp at h
  | dir sCh =>
    simp only at h
    cases hfl : orc.failList p with
    | true => rw [hfl] at h; simp at h
    | false =>
      rw [hfl] at h
      simp only [Bool.false_eq_true, if_false] at h
      rcases hD : lookupE fsD p with _ | e2
      · rw [hD] at h; simp at h
      rw [hD] at h
      cases e2 with
      | file s t => simp at h
      | special => simp at h
      | brokenLink => simp at h
      | dir dCh =>
        simp only at h
        rcases hL : levelSync orc p true sCh dCh with ⟨ch3, ops, flag3, err, nd⟩
        rw [hL] at h
        have hmem : op ∈ (levelSync orc p true sCh dCh).2.1 := by
          rw [hL]
          cases err with
          | some e =>
            simp only at h
            exact h
          | none =>
            simp only at h
            cases hct : ((nd.map (fun n => p ++ [n])).reverse ++ wl).contains p with
            | true =>
              rw [hct] at h
              simp only [if_true] at h
              exact h
            | false =>
              rw [hct] at h
              simp only [Bool.false_eq_true, if_false] at h
              exact h
        exact levelSync_true_op_shape orc p sCh dCh op hmem

theorem runFuel_true_op_shape (fsS : Entry) (orc : Oracles) :
    ∀ (fuel : Nat) (fsD : Entry) (wl : List Path) (ops : List Op) (inf : Bool)
      (D : Entry) (o : List Op),
      (∀ op ∈ ops, ∃ q, op = Op.copied q ∨ op = Op.copyFailed q) →
      ((∃ i, runFuel fsS true orc fuel fsD wl ops inf = .finished D o i) ∨
       (∃ e, runFuel fsS true orc fuel fsD wl ops inf = .crashed D o e)) →
      ∀ op ∈ o, ∃ q, op = Op.copied q ∨ op = Op.copyFailed q
  | 0, fsD, wl, ops, inf, D, o, hops, hres => by
    rcases hres with ⟨i, h⟩ | ⟨e, h⟩ <;> rw [runFuel] at h <;>
      exact RunResult.noConfusion h
  | fuel + 1, fsD, [], ops, inf, D, o, hops, hres => by
    rcases hres with ⟨i, h⟩ | ⟨e, h⟩
    · rw [runFuel] at h
      have := (RunResult.finished.injEq _ _ _ _ _ _).mp h
      rw [← this.2.1]
      exact hops
    · rw [runFuel] at h
      exact RunResult.noConfusion h
  | fuel + 1, fsD, p :: rest, ops, inf, D, o, hops, hres => by
    have hshape := dir_comp_true_op_shape fsS fsD p (p :: rest) orc
    rcases hd : dir_comp fsS fsD p (p :: rest) true orc with ⟨fsD2, ops2, r⟩
    have hops2 : ∀ op ∈ ops ++ ops2, ∃ q, op = Op.copied q ∨ op = Op.copyFailed q := by
      intro op hop
      rcases List.mem_append.mp hop with h1 | h2
      · exact hops op h1
      · refine hshape op ?_
        rw [hd]
        exact h2
    cases r with
    | error e =>
      rcases hres with ⟨i, h⟩ | ⟨e2, h⟩
      · rw [runFuel, hd] at h
        simp only at h
        exact RunResult.noConfusion h
      · rw [runFuel, hd] at h
        simp only at h
        have := (RunResult.crashed.injEq _ _ _ _ _ _).mp h
        rw [← this.2.1]
        exact hops2
    | ok wf2 =>
      obtain ⟨wl2, flag⟩ := wf2
      rcases hres with ⟨i, h⟩ | ⟨e2, h⟩
      · rw [runFuel, hd] at h
        simp only at h
        exact runFuel_true_op_shape fsS orc fuel fsD2 wl2 (ops ++ ops2) _ D o
          hops2 (Or.inl ⟨i, h⟩)
      · rw [runFuel, hd] at h
        simp only at h
        exact runFuel_true_op_shape fsS orc fuel fsD2 wl2 (ops ++ ops2) _ D o
          hops2 (Or.inr ⟨e2, h⟩)

/-! The claims. -/

/-- C1: for a shared name whose source side is a regular file and whose
destination side is a regular file, the level comparison (dir_comp, lines
190-203) copies the source file over the destination one exactly when the
sizes differ or the source modification time is strictly newer; when the
sizes agree and the destination mtime is at least the source's, the
destination entry is left untouched. -/
theorem shared_file_copy_iff {fsS fsD : Entry} {sCh dCh : CList} (p : Path)
    (wl : List Path) (merge : Bool)
    (hwS : wfE fsS = true) (hwD : wfE fsD = true) (hpS : properE fsS = true)
    (hS : lookupE fsS p = some (.dir sCh)) (hD : lookupE fsD p = some (.dir dCh))
    (hcomp : compat (.dir sCh) (.dir dCh) = true) (hp : p ∈ wl)
    {k : Name} {s s2 : Nat} {t t2 : Int}
    (hk : lookupN sCh k = some (.file s t))
    (hk2 : lookupN dCh k = some (.file s2 t2)) :
    (Op.copied (p ++ [k]) ∈ (dir_comp fsS fsD p wl merge noFail).2.1 ↔
      (s ≠ s2 ∨ t > t2))
    ∧ lookupE (dir_comp fsS fsD p wl merge noFail).1 (p ++ [k]) =
        some (if s ≠ s2 ∨ t > t2 then .file s t else .file s2 t2) := by
  have hwSl : wfE (.dir sCh) = true := wf_lookupE hwS hS
  have hwDl : wfE (.dir dCh) = true := wf_lookupE hwD hD
  have hpSl : properE (.dir sCh) = true := proper_lookupE hpS hS
  have hndS := sorted_nodup_keys (wf_dir_sorted hwSl)
  have hdc := dir_comp_good noFail p merge wl hwSl hwDl hpSl hcomp
    (fun _ => rfl) hS hD rfl hp
  obtain ⟨_, _, _, _, h3c, _, hops, _, _, _⟩ :=
    levelSync_good noFail p merge sCh dCh hwSl hwDl hpSl hcomp (fun _ => rfl)
  constructor
  · rw [hdc]
    simp only
    rw [hops]
    constructor
    · intro hmem
      rcases List.mem_append.mp hmem with h1 | h2
      · rcases List.mem_append.mp h1 with h3 | h4
        · exfalso
          cases merge with
          | true => simp at h3
          | false =>
            simp only [Bool.false_eq_true, if_false] at h3
            obtain ⟨x, _, hx⟩ := List.mem_map.mp h3
            simp [noFail] at hx
        · exfalso
          obtain ⟨x, hxmem, hx⟩ := List.mem_map.mp h4
          have hx1 : p ++ [x.1] = p ++ [k] := by
            simp only [noFail, Bool.false_eq_true, if_false] at hx
            exact (Op.copied.injEq _ _).mp hx
          have hxk := pathApp_inj hx1
          obtain ⟨hxs, hxct⟩ := List.mem_filter.mp hxmem
          rw [hxk] at hxct
          have hmemk : k ∈ keysC dCh := mem_keysC_of_lookup hk2
          have hnot : k ∉ keysC dCh := by simpa using hxct
          exact hnot hmemk
      · obtain ⟨x, hxmem, hx⟩ := List.mem_filterMap.mp h2
        obtain ⟨hxs, _⟩ := List.mem_filter.mp hxmem
        obtain ⟨n, e⟩ := x
        cases e with
        | dir c => simp [sharedOpOf] at hx
        | special => simp [sharedOpOf] at hx
        | brokenLink => simp [sharedOpOf] at hx
        | file sx tx =>
          rw [sharedOpOf] at hx
          simp only at hx
          cases hlk : lookupN dCh n with
          | none => rw [hlk] at hx; simp at hx
          | some d =>
            rw [hlk] at hx
            simp only at hx
            by_cases hcx : sx ≠ statSz d ∨ tx > statMt d
            · rw [if_pos hcx] at hx
              have hx1 : p ++ [n] = p ++ [k] := by
                simp only [noFail, Bool.false_eq_true, if_false] at hx
                exact (Op.copied.injEq _ _).mp (Option.some.inj hx)
              have hnk := pathApp_inj hx1
              subst hnk
              have hlkS : lookupN sCh n = some (.file sx tx) :=
                lookupN_of_mem_nodup hndS hxs
              rw [hk] at hlkS
              injection Option.some.inj hlkS with h1 h2
              subst h1
              subst h2
              rw [hlk] at hk2
              have hde := Option.some.inj hk2
              rw [hde] at hcx
              simpa [statSz, statMt] using hcx
            · rw [if_neg hcx] at hx
              exact Option.noConfusion hx
    · intro hc
      refine List.mem_append_right _ ?_
      refine List.mem_filterMap.mpr ⟨(k, .file s t), ?_, ?_⟩
      · refine List.mem_filter.mpr ⟨lookupN_mem hk, ?_⟩
        rw [containsN_iff]
        exact mem_keysC_of_lookup hk2
      · rw [sharedOpOf]
        simp only [hk2]
        rw [if_pos (by simpa [statSz, statMt] using hc)]
        simp [noFail]
  · rw [hdc]
    simp only
    have h0 : (lookupE fsD p).isSome = true := by simp [hD]
    have h1 := lookupE_setSub_at fsD (.dir (levelSync noFail p merge sCh dCh).1) h0 [k]
    rw [h1]
    have h2 : lookupE (.dir (levelSync noFail p merge sCh dCh).1) [k] =
        lookupN (levelSync noFail p merge sCh dCh).1 k := by
      have := lookupE_child (show lookupE
        (.dir (levelSync noFail p merge sCh dCh).1) [] =
          some (.dir (levelSync noFail p merge sCh dCh).1) from rfl) k
      simpa using this
    rw [h2, h3c k s t s2 t2 hk hk2]
    by_cases hc : s ≠ s2 ∨ t > t2
    · rw [if_pos ⟨hc, rfl⟩, if_pos hc]
    · rw [if_neg ?_, if_neg hc]
      intro hcon
      exact hc hcon.1

theorem shared_file_copy_iff_witness :
    (wfE (.dir [("f", .file 2 5)]) = true ∧
     wfE (.dir [("f", .file 1 3)]) = true ∧
     properE (.dir [("f", .file 2 5)]) = true ∧
     lookupE (.dir [("f", .file 2 5)]) [] = some (.dir [("f", .file 2 5)]) ∧
     lookupE (.dir [("f", .file 1 3)]) [] = some (.dir [("f", .file 1 3)]) ∧
     compat (.dir [("f", .file 2 5)]) (.dir [("f", .file 1 3)]) = true ∧
     ([] : Path) ∈ [([] : Path)] ∧
     lookupN [("f", .file 2 5)] "f" = some (.file 2 5) ∧
     lookupN [("f", .file 1 3)] "f" = some (.file 1 3))
    ∧ ((Op.copied [("f" : Name)] ∈
        (dir_comp (.dir [("f", .file 2 5)]) (.dir [("f", .file 1 3)]) []
          [[]] false noFail).2.1 ↔ ((2 : Nat) ≠ 1 ∨ (5 : Int) > 3))
      ∧ lookupE (dir_comp (.dir [("f", .file 2 5)]) (.dir [("f", .file 1 3)])
          [] [[]] false noFail).1 [("f" : Name)] =
          some (if (2 : Nat) ≠ 1 ∨ (5 : Int) > 3 then .file 2 5 else .file 1 3)) :=
  ⟨⟨rfl, rfl, rfl, rfl, rfl, rfl, by simp, rfl, rfl⟩,
   shared_file_copy_iff [] [[]] false
     (show wfE (.dir [("f", .file 2 5)]) = true from rfl)
     (show wfE (.dir [("f", .file 1 3)]) = true from rfl)
     (show properE (.dir [("f", .file 2 5)]) = true from rfl)
     (show lookupE (.dir [("f", .file 2 5)]) [] =
       some (.dir [("f", .file 2 5)]) from rfl)
     (show lookupE (.dir [("f", .file 1 3)]) [] =
       some (.dir [("f", .file 1 3)]) from rfl)
     (show compat (.dir [("f", .file 2 5)]) (.dir [("f", .file 1 3)]) = true
       from rfl)
     (by simp)
     (show lookupN [("f", .file 2 5)] "f" = some (.file 2 5) from rfl)
     (show lookupN [("f", .file 1 3)] "f" = some (.file 1 3) from rfl)⟩

/-- C2: running the full synchronization twice in succession with no
external changes performs zero file operations on the second run: the
first failure-free run brings the destination to the reference
combination, over which a further run finishes with no operations, no
error flag and an unchanged tree. -/
theorem sync_idempotent (sCh0 dCh0 : CList) (merge : Bool)
    (hwS : wfE (.dir sCh0) = true) (hpS : properE (.dir sCh0) = true)
    (hwD : wfE (.dir dCh0) = true)
    (hcomp : compat (.dir sCh0) (.dir dCh0) = true) :
    ∃ D1 ops1, sync (.dir sCh0) (.dir dCh0) merge noFail =
        .finished D1 ops1 false
      ∧ sync (.dir sCh0) D1 merge noFail = .finished D1 [] false := by
  have hmeas : measWl (.dir sCh0) [[]] < sizeE (.dir sCh0) + 2 := by
    simp [measWl, sizeAtE, lookupE]
  obtain ⟨fsD2, opsL, hrun, hwf2, hsync, _⟩ :=
    runFuel_noFail_main (.dir sCh0) merge hwS hpS (sizeE (.dir sCh0) + 2)
      [[]] (.dir dCh0) [] false hmeas (by simp [DisjWl]) hwD
      (by
        intro q hq
        simp only [List.mem_singleton] at hq
        subst hq
        exact ⟨sCh0, dCh0, rfl, rfl, hcomp⟩)
  have hD2 : fsD2 = .dir (syncL merge sCh0 dCh0) := by
    have := hsync [] (by simp) (.dir sCh0) (.dir dCh0) rfl rfl
    rw [lookupE] at this
    have h2 := Option.some.inj this
    rw [h2]
    rw [show syncE merge (.dir sCh0) (.dir dCh0) = .dir (syncL merge sCh0 dCh0)
      by simp [syncE]]
  refine ⟨fsD2, opsL, ?_, ?_⟩
  · rw [sync, hrun, List.nil_append]
  · rw [sync]
    refine runFuel_noop (.dir sCh0) merge hwS hpS (sizeE (.dir sCh0) + 2)
      [[]] fsD2 [] false hmeas hwf2 ?_
    intro q hq
    simp only [List.mem_singleton] at hq
    subst hq
    refine ⟨sCh0, syncL merge sCh0 dCh0, dCh0, rfl, ?_, hwD, rfl⟩
    rw [hD2]
    rfl

theorem sync_idempotent_witness :
    (wfE (.dir [("a", .file 1 2)]) = true ∧
     properE (.dir [("a", .file 1 2)]) = true ∧
     wfE (.dir [("b", .file 3 4)]) = true ∧
     compat (.dir [("a", .file 1 2)]) (.dir [("b", .file 3 4)]) = true)
    ∧ ∃ D1 ops1, sync (.dir [("a", .file 1 2)]) (.dir [("b", .file 3 4)])
        false noFail = .finished D1 ops1 false
      ∧ sync (.dir [("a", .file 1 2)]) D1 false noFail = .finished D1 [] false :=
  ⟨⟨rfl, rfl, rfl, rfl⟩,
   sync_idempotent [("a", .file 1 2)] [("b", .file 3 4)] false rfl rfl rfl rfl⟩

/-- C3: with merge off, a failure-free run removes every entry that exists
only in the destination tree: the final tree contains no path absent from
the source tree. -/
theorem sync_deletes_dest_only (sCh0 dCh0 : CList)
    (hwS : wfE (.dir sCh0) = true) (hpS : properE (.dir sCh0) = true)
    (hwD : wfE (.dir dCh0) = true)
    (hcomp : compat (.dir sCh0) (.dir dCh0) = true) :
    ∃ D1 ops1, sync (.dir sCh0) (.dir dCh0) false noFail =
        .finished D1 ops1 false
      ∧ ∀ q : Path, lookupE (.dir sCh0) q = none → lookupE D1 q = none := by
  have hmeas : measWl (.dir sCh0) [[]] < sizeE (.dir sCh0) + 2 := by
    simp [measWl, sizeAtE, lookupE]
  obtain ⟨fsD2, opsL, hrun, hwf2, hsync, _⟩ :=
    runFuel_noFail_main (.dir sCh0) false hwS hpS (sizeE (.dir sCh0) + 2)
      [[]] (.dir dCh0) [] false hmeas (by simp [DisjWl]) hwD
      (by
        intro q hq
        simp only [List.mem_singleton] at hq
        subst hq
        exact ⟨sCh0, dCh0, rfl, rfl, hcomp⟩)
  have hD2 : fsD2 = syncE false (.dir sCh0) (.dir dCh0) := by
    have := hsync [] (by simp) (.dir sCh0) (.dir dCh0) rfl rfl
    rw [lookupE] at this
    exact Option.some.inj this
  refine ⟨fsD2, opsL, ?_, ?_⟩
  · rw [sync, hrun, List.nil_append]
  · intro q hq
    rw [hD2]
    exact syncE_false_none q (.dir sCh0) (.dir dCh0) hwS hwD hq

theorem sync_deletes_dest_only_witness :
    (wfE (.dir [("a", .file 1 2)]) = true ∧
     properE (.dir [("a", .file 1 2)]) = true ∧
     wfE (.dir [("b", .file 3 4)]) = true ∧
     compat (.dir [("a", .file 1 2)]) (.dir [("b", .file 3 4)]) = true)
    ∧ ∃ D1 ops1, sync (.dir [("a", .file 1 2)]) (.dir [("b", .file 3 4)])
        false noFail = .finished D1 ops1 false
      ∧ ∀ q : Path, lookupE (.dir [("a", .file 1 2)]) q = none →
          lookupE D1 q = none :=
  ⟨⟨rfl, rfl, rfl, rfl⟩,
   sync_deletes_dest_only [("a", .file 1 2)] [("b", .file 3 4)] rfl rfl rfl rfl⟩

/-- C4 counterexample: in merge mode a destination-only entry can be
destroyed.  The source file "d" is copied over the shared destination
directory "d"; shutil.copy2 onto an existing directory copies INTO it
under the source's base name, overwriting the destination-only inner file
"d"/"d" even though merge mode promises to preserve destination-only
entries unchanged. -/
theorem merge_preserve_counterexample :
    lookupE (.dir [("d", .file 5 10)]) ["d", "d"] = none ∧
    lookupE (.dir [("d", .dir [("d", .file 1 1)])]) ["d", "d"] =
      some (.file 1 1) ∧
    sync (.dir [("d", .file 5 10)]) (.dir [("d", .dir [("d", .file 1 1)])])
      true noFail =
      .finished (.dir [("d", .dir [("d", .file 5 10)])]) [Op.copied ["d"]]
        false :=
  ⟨rfl, rfl, rfl⟩

/-- C4 (amended): in merge mode no delete is ever performed, whatever
failures occur: every logged operation of a merge-mode run, finished or
crashed, is a copy or a failed copy.  Moreover a failure-free merge run
over kind-compatible trees finishes and keeps every destination-only
entry unchanged; the kind-compatibility hypothesis excludes the
file-over-shared-directory corner of the counterexample. -/
theorem merge_no_delete_and_preserve (sCh0 dCh0 : CList) (orc : Oracles)
    (hwS : wfE (.dir sCh0) = true) (hpS : properE (.dir sCh0) = true)
    (hwD : wfE (.dir dCh0) = true)
    (hcomp : compat (.dir sCh0) (.dir dCh0) = true) :
    (∀ (D : Entry) (ops : List Op) (i : Bool),
      sync (.dir sCh0) (.dir dCh0) true orc = .finished D ops i →
      ∀ (q : Path) (b : Bool), Op.deleted q b ∉ ops ∧ Op.delFailed q ∉ ops)
    ∧ (∀ (D : Entry) (ops : List Op) (e : Err),
      sync (.dir sCh0) (.dir dCh0) true orc = .crashed D ops e →
      ∀ (q : Path) (b : Bool), Op.deleted q b ∉ ops ∧ Op.delFailed q ∉ ops)
    ∧ (∃ D1 ops1, sync (.dir sCh0) (.dir dCh0) true noFail =
        .finished D1 ops1 false
      ∧ ∀ (q : Path) (e : Entry), lookupE (.dir sCh0) q = none →
          lookupE (.dir dCh0) q = some e → lookupE D1 q = some e) := by
  refine ⟨?_, ?_, ?_⟩
  · intro D ops i hrun q b
    have hshape := runFuel_true_op_shape (.dir sCh0) orc (sizeE (.dir sCh0) + 2)
      (.dir dCh0) [[]] [] false D ops (by simp) (Or.inl ⟨i, hrun⟩)
    constructor
    · intro hmem
      obtain ⟨q2, hq2⟩ := hshape _ hmem
      rcases hq2 with h | h <;> exact Op.noConfusion h
    · intro hmem
      obtain ⟨q2, hq2⟩ := hshape _ hmem
      rcases hq2 with h | h <;> exact Op.noConfusion h
  · intro D ops e hrun q b
    have hshape := runFuel_true_op_shape (.dir sCh0) orc (sizeE (.dir sCh0) + 2)
      (.dir dCh0) [[]] [] false D ops (by simp) (Or.inr ⟨e, hrun⟩)
    constructor
    · intro hmem
      obtain ⟨q2, hq2⟩ := hshape _ hmem
      rcases hq2 with h | h <;> exact Op.noConfusion h
    · intro hmem
      obtain ⟨q2, hq2⟩ := hshape _ hmem
      rcases hq2 with h | h <;> exact Op.noConfusion h
  · have hmeas : measWl (.dir sCh0) [[]] < sizeE (.dir sCh0) + 2 := by
      simp [measWl, sizeAtE, lookupE]
    obtain ⟨fsD2, opsL, hrun, hwf2, hsync, _⟩ :=
      runFuel_noFail_main (.dir sCh0) true hwS hpS (sizeE (.dir sCh0) + 2)
        [[]] (.dir dCh0) [] false hmeas (by simp [DisjWl]) hwD
        (by
          intro q hq
          simp only [List.mem_singleton] at hq
          subst hq
          exact ⟨sCh0, dCh0, rfl, rfl, hcomp⟩)
    have hD2 : fsD2 = syncE true (.dir sCh0) (.dir dCh0) := by
      have := hsync [] (by simp) (.dir sCh0) (.dir dCh0) rfl rfl
      rw [lookupE] at this
      exact Option.some.inj this
    refine ⟨fsD2, opsL, ?_, ?_⟩
    · rw [sync, hrun, List.nil_append]
    · intro q e hq hqd
      rw [hD2]
      exact syncE_true_preserve q (.dir sCh0) (.dir dCh0) e hwS hwD hcomp hq hqd

theorem merge_no_delete_and_preserve_witness :
    (wfE (.dir [("a", .file 1 2)]) = true ∧
     properE (.dir [("a", .file 1 2)]) = true ∧
     wfE (.dir [("b", .file 3 4)]) = true ∧
     compat (.dir [("a", .file 1 2)]) (.dir [("b", .file 3 4)]) = true)
    ∧ ((∀ (D : Entry) (ops : List Op) (i : Bool),
      sync (.dir [("a", .file 1 2)]) (.dir [("b", .file 3 4)]) true noFail =
        .finished D ops i →
      ∀ (q : Path) (b : Bool), Op.deleted q b ∉ ops ∧ Op.delFailed q ∉ ops)
    ∧ (∀ (D : Entry) (ops : List Op) (e : Err),
      sync (.dir [("a", .file 1 2)]) (.dir [("b", .file 3 4)]) true noFail =
        .crashed D ops e →
      ∀ (q : Path) (b : Bool), Op.deleted q b ∉ ops ∧ Op.delFailed q ∉ ops)
    ∧ (∃ D1 ops1, sync (.dir [("a", .file 1 2)]) (.dir [("b", .file 3 4)])
        true noFail = .finished D1 ops1 false
      ∧ ∀ (q : Path) (e : Entry), lookupE (.dir [("a", .file 1 2)]) q = none →
          lookupE (.dir [("b", .file 3 4)]) q = some e →
          lookupE D1 q = some e)) :=
  ⟨⟨rfl, rfl, rfl, rfl⟩,
   merge_no_delete_and_preserve [("a", .file 1 2)] [("b", .file 3 4)] noFail
     rfl rfl rfl rfl⟩

/-- C5 counterexample: a permission failure while LISTING a directory is
not caught anywhere: the whole run aborts with the uncaught exception
instead of flagging and continuing.  The iterdir calls at lines 143-144
sit outside every try block. -/
theorem listing_failure_uncaught :
    sync (.dir [("a", .file 1 1)]) (.dir []) false
      ⟨fun _ => true, fun _ => false, fun _ => false, fun _ => false⟩ =
      .crashed (.dir []) [] .permission :=
  rfl

/-- C5 (amended): only the per-entry DELETE and COPY permission failures
are caught at their call sites and folded into the level's error flag (the
flag is exactly "some logged operation failed"), after which the level
still completes and hands back an updated worklist; listing and stat
failures, by contrast, escape uncaught (see the counterexample). -/
theorem perm_error_policy {fsS fsD : Entry} {sCh dCh : CList} (p : Path)
    (wl : List Path) (merge : Bool) (orc : Oracles)
    (hwS : wfE fsS = true) (hwD : wfE fsD = true) (hpS : properE fsS = true)
    (hS : lookupE fsS p = some (.dir sCh)) (hD : lookupE fsD p = some (.dir dCh))
    (hcomp : compat (.dir sCh) (.dir dCh) = true) (hp : p ∈ wl)
    (hFS : ∀ n, orc.failStat (p ++ [n]) = false)
    (hfl : orc.failList p = false) :
    ∃ wl2 : List Path, (dir_comp fsS fsD p wl merge orc).2.2 =
      .ok (wl2, ((dir_comp fsS fsD p wl merge orc).2.1).any opFailed) := by
  have hwSl : wfE (.dir sCh) = true := wf_lookupE hwS hS
  have hwDl : wfE (.dir dCh) = true := wf_lookupE hwD hD
  have hpSl : properE (.dir sCh) = true := proper_lookupE hpS hS
  have hdc := dir_comp_good orc p merge wl hwSl hwDl hpSl hcomp hFS hS hD hfl hp
  obtain ⟨_, hflagop, _, _⟩ :=
    levelSync_lockstep orc p merge sCh dCh hwSl hwDl hpSl hcomp hFS
  refine ⟨(((levelSync orc p merge sCh dCh).2.2.2.2).map
    (fun n => p ++ [n])).reverse ++ wl.erase p, ?_⟩
  rw [hdc]
  simp only
  rw [hflagop]

theorem perm_error_policy_witness :
    (wfE (.dir [("a", .file 1 2)]) = true ∧
     wfE (.dir ([] : CList)) = true ∧
     properE (.dir [("a", .file 1 2)]) = true ∧
     lookupE (.dir [("a", .file 1 2)]) [] = some (.dir [("a", .file 1 2)]) ∧
     lookupE (.dir ([] : CList)) [] = some (.dir ([] : CList)) ∧
     compat (.dir [("a", .file 1 2)]) (.dir ([] : CList)) = true ∧
     ([] : Path) ∈ [([] : Path)] ∧
     (∀ n : Name, (⟨fun _ => false, fun _ => false, fun _ => true,
       fun _ => false⟩ : Oracles).failStat ([] ++ [n]) = false) ∧
     (⟨fun _ => false, fun _ => false, fun _ => true,
       fun _ => false⟩ : Oracles).failList [] = false)
    ∧ ∃ wl2 : List Path,
      (dir_comp (.dir [("a", .file 1 2)]) (.dir ([] : CList)) [] [[]] false
        ⟨fun _ => false, fun _ => false, fun _ => true, fun _ => false⟩).2.2 =
      .ok (wl2, ((dir_comp (.dir [("a", .file 1 2)]) (.dir ([] : CList)) []
        [[]] false ⟨fun _ => false, fun _ => false, fun _ => true,
          fun _ => false⟩).2.1).any opFailed) :=
  ⟨⟨rfl, rfl, rfl, rfl, rfl, rfl, by simp, fun _ => rfl, rfl⟩,
   perm_error_policy [] [[]] false _ rfl rfl rfl rfl rfl rfl (by simp)
     (fun _ => rfl) rfl⟩

/-- C6: with per-operation copy or delete failures only (listing and stat
untouched), the run still finishes: it performs exactly the operations of
the failure-free run with the failing ones marked, so every other pending
operation at the failing level and at all later levels still executes, and
the final inform flag is set exactly when some operation failed. -/
theorem partial_failure_tolerance (sCh0 dCh0 : CList) (merge : Bool)
    (orc : Oracles)
    (hwS : wfE (.dir sCh0) = true) (hpS : properE (.dir sCh0) = true)
    (hwD : wfE (.dir dCh0) = true)
    (hcomp : compat (.dir sCh0) (.dir dCh0) = true)
    (hFL : ∀ q, orc.failList q = false) (hFS : ∀ q, orc.failStat q = false) :
    ∃ D1 D2 ops1, sync (.dir sCh0) (.dir dCh0) merge noFail =
        .finished D1 ops1 false
      ∧ sync (.dir sCh0) (.dir dCh0) merge orc =
          .finished D2 (ops1.map (markOp orc))
            ((ops1.map (markOp orc)).any opFailed) := by
  have hmeas : measWl (.dir sCh0) [[]] < sizeE (.dir sCh0) + 2 := by
    simp [measWl, sizeAtE, lookupE]
  obtain ⟨fsA2, fsB2, opsL, hrunA, hrunB⟩ :=
    runFuel_lockstep (.dir sCh0) merge orc hwS hpS hFL hFS
      (sizeE (.dir sCh0) + 2) [[]] (.dir dCh0) (.dir dCh0) [] [] false false
      hmeas (by simp [DisjWl]) hwD hwD
      (by
        intro q hq
        simp only [List.mem_singleton] at hq
        subst hq
        exact ⟨sCh0, dCh0, rfl, rfl, hcomp⟩)
      (fun q _ => rfl)
  refine ⟨fsA2, fsB2, opsL, ?_, ?_⟩
  · rw [sync, hrunA, List.nil_append]
  · rw [sync, hrunB, List.nil_append, Bool.false_or]

theorem partial_failure_tolerance_witness :
    (wfE (.dir [("a", .file 1 2)]) = true ∧
     properE (.dir [("a", .file 1 2)]) = true ∧
     wfE (.dir [("b", .file 3 4)]) = true ∧
     compat (.dir [("a", .file 1 2)]) (.dir [("b", .file 3 4)]) = true ∧
     (∀ q : Path, (⟨fun _ => false, fun _ => false, fun _ => true,
       fun _ => false⟩ : Oracles).failList q = false) ∧
     (∀ q : Path, (⟨fun _ => false, fun _ => false, fun _ => true,
       fun _ => false⟩ : Oracles).failStat q = false))
    ∧ ∃ D1 D2 ops1, sync (.dir [("a", .file 1 2)]) (.dir [("b", .file 3 4)])
        false noFail = .finished D1 ops1 false
      ∧ sync (.dir [("a", .file 1 2)]) (.dir [("b", .file 3 4)]) false
          (⟨fun _ => false, fun _ => false, fun _ => true,
            fun _ => false⟩ : Oracles) =
          .finished D2 (ops1.map (markOp ⟨fun _ => false, fun _ => false,
            fun _ => true, fun _ => false⟩))
            ((ops1.map (markOp ⟨fun _ => false, fun _ => false, fun _ => true,
              fun _ => false⟩)).any opFailed) :=
  ⟨⟨rfl, rfl, rfl, rfl, fun _ => rfl, fun _ => rfl⟩,
   partial_failure_tolerance [("a", .file 1 2)] [("b", .file 3 4)] false _
     rfl rfl rfl rfl (fun _ => rfl) (fun _ => rfl)⟩

/-- C7 counterexample: the pre-run check compares Path.stem, the final
component MINUS its final extension, not the final component itself: two
directories named "data.old" and "data.new" have differing final
components yet are accepted (both stems are "data"), contradicting the
claim that any pair of directories with differing final path components is
rejected. -/
theorem stem_check_counterexample :
    lastName ["r", "data.old"] ≠ lastName ["q", "data.new"] ∧
    checkArgs true true ["r", "data.old"] ["q", "data.new"] =
      CheckOutcome.proceed :=
  ⟨by decide, rfl⟩

/-- C7 (amended): the orchestrator's validation (lines 225-239) checks, in
order: source is a directory, destination is a directory, the two STEMS
(final path component minus its final extension) are equal, and the two
resolved paths differ; identical paths exit cleanly as a no-op, and the
stem equality is implied by path equality so the self-sync case is always
reachable. -/
theorem checkArgs_validation (b1 b2 : Bool) (src dest : Path) :
    (checkArgs b1 b2 src dest = .proceed ↔
      b1 = true ∧ b2 = true ∧
      stemStr (lastName src) = stemStr (lastName dest) ∧ src ≠ dest)
    ∧ (checkArgs b1 b2 src dest = .selfNoop ↔
      b1 = true ∧ b2 = true ∧ src = dest)
    ∧ (checkArgs b1 b2 src dest = .errName ↔
      b1 = true ∧ b2 = true ∧
      stemStr (lastName src) ≠ stemStr (lastName dest))
    ∧ (checkArgs b1 b2 src dest = .errSource ↔ b1 = false)
    ∧ (checkArgs b1 b2 src dest = .errDest ↔ b1 = true ∧ b2 = false) := by
  cases b1 with
  | false =>
    rw [show checkArgs false b2 src dest = .errSource by rw [checkArgs]; simp]
    refine ⟨?_, ?_, ?_, ?_, ?_⟩ <;> constructor <;> intro h
    · exact CheckOutcome.noConfusion h
    · simp at h
    · exact CheckOutcome.noConfusion h
    · simp at h
    · exact CheckOutcome.noConfusion h
    · simp at h
    · rfl
    · rfl
    · exact CheckOutcome.noConfusion h
    · simp at h
  | true =>
    cases b2 with
    | false =>
      rw [show checkArgs true false src dest = .errDest by rw [checkArgs]; simp]
      refine ⟨?_, ?_, ?_, ?_, ?_⟩ <;> constructor <;> intro h
      · exact CheckOutcome.noConfusion h
      · simp at h
      · exact CheckOutcome.noConfusion h
      · simp at h
      · exact CheckOutcome.noConfusion h
      · simp at h
      · exact CheckOutcome.noConfusion h
      · simp at h
      · exact ⟨rfl, rfl⟩
      · rfl
    | true =>
      by_cases hst : stemStr (lastName src) = stemStr (lastName dest)
      · by_cases heq : src = dest
        · rw [show checkArgs true true src dest = .selfNoop by
            rw [checkArgs]; simp [hst, heq]]
          refine ⟨?_, ?_, ?_, ?_, ?_⟩ <;> constructor <;> intro h
          · exact CheckOutcome.noConfusion h
          · exact absurd heq h.2.2.2
          · exact ⟨rfl, rfl, heq⟩
          · rfl
          · exact CheckOutcome.noConfusion h
          · exact absurd hst h.2.2
          · exact CheckOutcome.noConfusion h
          · simp at h
          · exact CheckOutcome.noConfusion h
          · simp at h
        · rw [show checkArgs true true src dest = .proceed by
            rw [checkArgs]; simp [hst, heq]]
          refine ⟨?_, ?_, ?_, ?_, ?_⟩ <;> constructor <;> intro h
          · exact ⟨rfl, rfl, hst, heq⟩
          · rfl
          · exact CheckOutcome.noConfusion h
          · exact absurd h.2.2 heq
          · exact CheckOutcome.noConfusion h
          · exact absurd hst h.2.2
          · exact CheckOutcome.noConfusion h
          · simp at h
          · exact CheckOutcome.noConfusion h
          · simp at h
      · have hne : src ≠ dest := by
          intro h
          rw [h] at hst
          exact hst rfl
        rw [show checkArgs true true src dest = .errName by
          rw [checkArgs]; simp [hst]]
        refine ⟨?_, ?_, ?_, ?_, ?_⟩ <;> constructor <;> intro h
        · exact CheckOutcome.noConfusion h
        · exact absurd h.2.2.1 hst
        · exact CheckOutcome.noConfusion h
        · exact absurd (by rw [h.2.2]) hst
        · exact ⟨rfl, rfl, hst⟩
        · rfl
        · exact CheckOutcome.noConfusion h
        · simp at h
        · exact CheckOutcome.noConfusion h
        · simp at h

/-- C8: a successful level comparison returns the input worklist with the
processed source path removed and the shared subdirectories discovered at
this level inserted at the front (each insert(0, ...) at line 207 prepends,
so the block appears in reverse listing order), and changes nothing else
about the worklist. -/
theorem worklist_update_eq {fsS fsD : Entry} {sCh dCh : CList} (p : Path)
    (wl : List Path) (merge : Bool) (orc : Oracles)
    (hwS : wfE fsS = true) (hwD : wfE fsD = true) (hpS : properE fsS = true)
    (hS : lookupE fsS p = some (.dir sCh)) (hD : lookupE fsD p = some (.dir dCh))
    (hcomp : compat (.dir sCh) (.dir dCh) = true) (hp : p ∈ wl)
    (hFS : ∀ n, orc.failStat (p ++ [n]) = false)
    (hfl : orc.failList p = false) :
    ∃ flag : Bool, (dir_comp fsS fsD p wl merge orc).2.2 =
      .ok ((((sharedDirNames fsS fsD p).map (fun n => p ++ [n])).reverse ++
        wl.erase p), flag) := by
  have hwSl : wfE (.dir sCh) = true := wf_lookupE hwS hS
  have hwDl : wfE (.dir dCh) = true := wf_lookupE hwD hD
  have hpSl : properE (.dir sCh) = true := proper_lookupE hpS hS
  have hdc := dir_comp_good orc p merge wl hwSl hwDl hpSl hcomp hFS hS hD hfl hp
  obtain ⟨_, hndf, _, _, _, _, _, _, _⟩ :=
    levelSync_good orc p merge sCh dCh hwSl hwDl hpSl hcomp hFS
  have hsd : sharedDirNames fsS fsD p =
      (levelSync orc p merge sCh dCh).2.2.2.2 := by
    rw [sharedDirNames, hS, hD, hndf]
  refine ⟨(levelSync orc p merge sCh dCh).2.2.1, ?_⟩
  rw [hdc, hsd]

theorem worklist_update_eq_witness :
    (wfE (.dir [("sub", .dir [("x", .file 1 1)])]) = true ∧
     wfE (.dir [("sub", .dir ([] : CList))]) = true ∧
     properE (.dir [("sub", .dir [("x", .file 1 1)])]) = true ∧
     lookupE (.dir [("sub", .dir [("x", .file 1 1)])]) [] =
       some (.dir [("sub", .dir [("x", .file 1 1)])]) ∧
     lookupE (.dir [("sub", .dir ([] : CList))]) [] =
       some (.dir [("sub", .dir ([] : CList))]) ∧
     compat (.dir [("sub", .dir [("x", .file 1 1)])])
       (.dir [("sub", .dir ([] : CList))]) = true ∧
     ([] : Path) ∈ [([] : Path)] ∧
     (∀ n : Name, noFail.failStat ([] ++ [n]) = false) ∧
     noFail.failList [] = false)
    ∧ ∃ flag : Bool,
      (dir_comp (.dir [("sub", .dir [("x", .file 1 1)])])
        (.dir [("sub", .dir ([] : CList))]) [] [[]] false noFail).2.2 =
      .ok (((sharedDirNames (.dir [("sub", .dir [("x", .file 1 1)])])
        (.dir [("sub", .dir ([] : CList))]) []).map
          (fun n => [] ++ [n])).reverse ++ [([] : Path)].erase [], flag) :=
  ⟨⟨rfl, rfl, rfl, rfl, rfl, rfl, by simp, fun _ => rfl, rfl⟩,
   worklist_update_eq [] [[]] false noFail rfl rfl rfl rfl rfl rfl (by simp)
     (fun _ => rfl) rfl⟩

/-- C9: for every finite source tree the worklist loop terminates: with
fuel exceeding the tree's node count it never runs out, whatever the
destination, mode or failures; and the loop reaches its normal terminal
state exactly on an empty worklist, each iteration operating on an
explicit worklist rather than the call stack. -/
theorem traversal_terminates (fsS fsD : Entry) (merge : Bool) (orc : Oracles)
    (hwS : wfE fsS = true) :
    sync fsS fsD merge orc ≠ .outOfFuel
    ∧ (∀ (fuel : Nat) (fsD' : Entry) (ops : List Op) (inf : Bool),
        runFuel fsS merge orc (fuel + 1) fsD' [] ops inf =
          .finished fsD' ops inf) := by
  constructor
  · rw [sync]
    refine runFuel_not_outOfFuel fsS merge orc hwS _ fsD [[]] [] false ?_
    simp [measWl, sizeAtE, lookupE]
  · intro fuel fsD' ops inf
    rw [runFuel]

theorem traversal_terminates_witness :
    wfE (.dir [("a", .file 1 2)]) = true
    ∧ (sync (.dir [("a", .file 1 2)]) (.dir ([] : CList)) false noFail ≠
        .outOfFuel
      ∧ (∀ (fuel : Nat) (fsD' : Entry) (ops : List Op) (inf : Bool),
          runFuel (.dir [("a", .file 1 2)]) false noFail (fuel + 1) fsD' []
            ops inf = .finished fsD' ops inf)) :=
  ⟨rfl, traversal_terminates (.dir [("a", .file 1 2)]) (.dir ([] : CList))
    false noFail rfl⟩

/-- C10 counterexample: a shared entry whose source side is a broken
symbolic link is NOT silently skipped: Path.stat() at line 187 follows the
link and raises an uncaught FileNotFoundError, crashing the whole run
before any further entry is processed. -/
theorem broken_link_crash :
    sync (.dir [("x", .brokenLink)]) (.dir [("x", .file 1 1)]) false noFail =
      .crashed (.dir [("x", .file 1 1)]) [] .fileNotFound :=
  rfl

/-- C10 (amended): a shared entry whose source side is neither a regular
file nor a directory but still statable (a special file: FIFO, socket,
device) is silently skipped by the shared-items loop: no copy, no delete,
no worklist entry, no error flag, no change at all — the loop continues
exactly as if the entry were absent.  A broken symlink, by contrast,
crashes the stat call (see the counterexample). -/
theorem special_entry_skipped (orc : Oracles) (p : Path) (n : Name)
    (rest : List (Name × Entry)) (ch : CList) (d : Entry)
    (hF : orc.failStat (p ++ [n]) = false)
    (hD : lookupN ch n = some d) (hDS : statOk d = true) :
    runShared orc p ((n, .special) :: rest) ch = runShared orc p rest ch :=
  runShared_special rest ch hF hD hDS

theorem special_entry_skipped_witness :
    (noFail.failStat ([] ++ ["x"]) = false ∧
     lookupN [("x", .file 1 1)] "x" = some (.file 1 1) ∧
     statOk (.file 1 1) = true)
    ∧ runShared noFail [] [("x", .special)] [("x", .file 1 1)] =
        runShared noFail [] [] [("x", .file 1 1)] :=
  ⟨⟨rfl, rfl, rfl⟩,
   special_entry_skipped noFail [] "x" [] [("x", .file 1 1)] (.file 1 1)
     rfl rfl rfl⟩

end DSync
